import Mathlib

/-!
# Disk sanitization (`pkg/daemon/ceph/cleanup/disk.go`)

A shallow embedding of the disk sanitizer of the cleanup package and the
properties of its command builder, of a single sanitize task and of the
orchestration of the goroutines it starts.

* Part 1: the data model and the pure command builder.
* Part 2: a sanitize task as a small-step machine.
* Part 3: the orchestrator, the goroutines and the wait groups as a scheduler
  driven machine; a schedule picks which thread moves next and carries what
  the outside world answers.
-/

namespace Cleanup

/-! ## Part 1: data model and command builder -/

/-- Modelled from the spec: the type `cephv1.SanitizeMethodProperty` is declared
outside this package; the spec gives it as the enumeration `Quick`, `Complete`. -/
inductive SanitizeMethodProperty where
  | quick
  | complete
  deriving DecidableEq, Repr

/-- Modelled from the spec: the type `cephv1.SanitizeDataSourceProperty` is
declared outside this package; the spec gives it as the enumeration `Zero`,
`Random`. -/
inductive SanitizeDataSourceProperty where
  | zero
  | random
  deriving DecidableEq, Repr

/-- Modelled from the spec: the method `String()` of the data source, declared
outside this package; the flag built from it is `--random-source=/dev/zero`,
so `Zero` prints as `zero` (and `Random` as `random`). -/
def SanitizeDataSourceProperty.String : SanitizeDataSourceProperty → String
  | .zero => "zero"
  | .random => "random"

/-- Modelled from the spec: `cephv1.SanitizeDisksSpec` (method, data source,
iteration count), declared outside this package. The count is an integer that
the code converts with `int(...)`; it is kept as an unbounded integer. -/
structure SanitizeDisksSpec where
  Method : SanitizeMethodProperty
  DataSource : SanitizeDataSourceProperty
  Iteration : Int
  deriving DecidableEq, Repr

/-- Modelled from the spec: `oposd.OSDInfo`, declared outside this package,
restricted to the fields the sanitizer reads (the storage unit descriptor:
id, data path, metadata path, log path, encrypted flag). The defaults are the
zero values of Go, as in the literal `oposd.OSDInfo{BlockPath: pv}`. -/
structure OSDInfo where
  ID : Int := 0
  BlockPath : String := ""
  MetadataPath : String := ""
  WalPath : String := ""
  Encrypted : Bool := false
  deriving DecidableEq, Repr

/-- `ShredCommand`: a command with its arguments (lines 47-50). -/
structure ShredCommand where
  command : String
  args : List String
  deriving DecidableEq, Repr

/-- The constant `completeShredUtility` (line 34). -/
def completeShredUtility : String := "shred"

/-- `strconv.Itoa` of the Go standard library: the decimal text of an integer,
with a leading minus sign when it is negative. -/
def Itoa (i : Int) : String :=
  if i < 0 then "-" ++ Nat.repr i.natAbs else Nat.repr i.natAbs

/-- `strings.Split(s, ":")` of the Go standard library, on the characters of
`s`: the fields between the colons; there is always at least one field. -/
def splitColon (s : String) : List String :=
  (s.toList.splitOn ':').map String.mk

/-- `buildDataSource` (lines 150-152). -/
def buildDataSource (spec : SanitizeDisksSpec) : String :=
  "/dev/" ++ spec.DataSource.String

/-- `buildShredArgs` (lines 154-175). -/
def buildShredArgs (spec : SanitizeDisksSpec) (disk : String) : List String :=
  let shredArgs : List String := []
  -- If data source is not zero, then add zeros at the end of the pass
  let shredArgs :=
    if spec.DataSource ≠ .zero then shredArgs ++ ["--zero"] else shredArgs
  -- If the data source for randomness is zero
  let shredArgs :=
    if spec.DataSource = .zero then
      shredArgs ++ ["--random-source=" ++ buildDataSource spec]
    else shredArgs
  shredArgs ++ ["--force", "--verbose", "--iterations=" ++ Itoa spec.Iteration, disk]

/-- `buildQuickShredCommands` (lines 177-181). -/
def buildQuickShredCommands (disk : String) : List ShredCommand :=
  [{ command := "ceph-volume", args := ["lvm", "zap", disk] }]

/-- `buildShredCommands` (lines 183-198). -/
def buildShredCommands (spec : SanitizeDisksSpec) (disk : String) : List ShredCommand :=
  let shredCommands : List ShredCommand := []
  if spec.Method = .quick then
    buildQuickShredCommands disk
  else if spec.DataSource = .zero then
    shredCommands ++ [{ command := completeShredUtility, args := buildShredArgs spec disk }]
  else
    shredCommands ++ [{ command := completeShredUtility, args := buildShredArgs spec disk }]

/-- An argument starts with the given text. -/
def startsWith (pre s : String) : Prop := pre.toList <+: s.toList

instance (pre s : String) : Decidable (startsWith pre s) := by
  unfold startsWith; infer_instance

/-- The arguments carry exactly one of the two data-source flags, the one that
goes with the data source of the spec: for `Zero` the flag
`--random-source=/dev/zero` and no `--zero`; for `Random` the flag `--zero`
and no argument that starts with `--random-source`. -/
def CarriesOneSourceFlag (spec : SanitizeDisksSpec) (args : List String) : Prop :=
  (spec.DataSource = .zero →
    "--random-source=/dev/zero" ∈ args ∧ "--zero" ∉ args) ∧
  (spec.DataSource = .random →
    "--zero" ∈ args ∧ ∀ a ∈ args, ¬ startsWith "--random-source" a)

/-! ## Part 2: one sanitize task as a small-step machine

Every call that leaves the process (the command executor, the lookup of the
backing device of an encrypted block, the removal of the mapping) takes two
steps: one that issues it and one that takes its answer. What the outside
world answers is not computed here: it is an input of the step. -/

/-- What an external call answers: the text it returns and whether the error it
returns is non-nil. -/
structure Resp where
  output : String
  failed : Bool
  deriving DecidableEq, Repr

/-- The log lines of the package, one constructor per call of the logger, with
the values that are formatted into the line. -/
inductive LogEntry where
  /-- Line 66. -/
  | failedListLVM
  /-- Line 75. -/
  | failedListRaw
  /-- Line 87. -/
  | sanitizingOSD (id : Int) (blockPath : String)
  /-- Line 132. -/
  | failedSanitizeOSD (id : Int) (output : String)
  /-- Lines 135 and 227. -/
  | output (output : String)
  /-- Line 136. -/
  | sanitizedLVM (id : Int)
  /-- Line 142. -/
  | failedLvs
  /-- Line 146. -/
  | lvsOutput (output : String)
  /-- Line 208. -/
  | failedBacking (blockPath : String)
  /-- Line 212. -/
  | failedRemove (blockPath : String)
  /-- Line 230. -/
  | failedCommand (device : String) (output : String)
  /-- Line 232. -/
  | succeededCommand (device : String)
  deriving DecidableEq, Repr

/-- What a thread does that can be observed from outside it. -/
inductive Act where
  /-- The executor is invoked with a command line
  (`ExecuteCommandWithCombinedOutput`, `ExecuteCommandWithOutput`). -/
  | call (c : ShredCommand)
  /-- The invocation of the executor has returned. -/
  | ret (c : ShredCommand) (r : Resp)
  /-- The call `osd.GetBackingDeviceForEncryptedBlock` is made (line 206). -/
  | getBacking (blockPath : String)
  /-- That call has returned. -/
  | gotBacking (blockPath : String) (r : Resp)
  /-- The call `osd.RemoveEncryptedDevice` is made (line 210). -/
  | removeEnc (blockPath : String)
  /-- That call has returned. -/
  | removedEnc (blockPath : String) (r : Resp)
  /-- The statement `go s.wipeLVM(osdID, &wg)` (line 112). -/
  | goWipeLVM (osdID : Int)
  /-- The statement `go s.executeSanitizeCommand(osdInfo, &wg)` (lines 93, 121). -/
  | goSanitize (osdInfo : OSDInfo)
  /-- A line is logged. -/
  | log (l : LogEntry)
  /-- The index expression `[0]` of line 109 is out of range. -/
  | indexOutOfRange
  deriving DecidableEq, Repr

/-- The command line of `wipeLVM` (line 130). -/
def wipeLVMCommand (osdID : Int) : ShredCommand :=
  { command := "stdbuf",
    args := ["-oL", "ceph-volume", "lvm", "zap", "--osd-id", Itoa osdID, "--destroy"] }

/-- The command line of `returnPVDevice` (line 140). -/
def lvsCommand (disk : String) : ShredCommand :=
  { command := "lvs", args := [disk, "-o", "seg_pe_ranges", "--noheadings"] }

/-- The program points of a goroutine: of `wipeLVM` (lines 126-137) and of
`executeSanitizeCommand` (lines 200-236). -/
inductive TaskPC where
  /-- Entry of `wipeLVM`. -/
  | wipeLVM (osdID : Int)
  /-- The command of line 130 is running. -/
  | wipeLVMWait (osdID : Int)
  /-- Entry of `executeSanitizeCommand`. -/
  | executeSanitizeCommand (osdInfo : OSDInfo)
  /-- The call of line 206 is running. -/
  | backingWait (osdInfo : OSDInfo)
  /-- Line 210, before the call. -/
  | remove (osdInfo : OSDInfo) (realPath : String)
  /-- The call of line 210 is running. -/
  | removeWait (osdInfo : OSDInfo) (realPath : String)
  /-- Head of the loop of line 219, with the devices still to visit. -/
  | devices (ds : List String)
  /-- Head of the loop of line 224 for `device`, with the commands still to
  run and the devices that follow. -/
  | commands (device : String) (cs : List ShredCommand) (ds : List String)
  /-- The command of line 225 is running. -/
  | commandWait (device : String) (c : ShredCommand) (cs : List ShredCommand)
      (ds : List String)
  /-- The function has returned and its deferred `wg.Done()` has run. -/
  | finished
  deriving DecidableEq, Repr

/-- One step of a goroutine; `r` is the answer of the outside world, read only
by the steps that take the answer of a call. -/
def taskStep (spec : SanitizeDisksSpec) (pc : TaskPC) (r : Resp) : TaskPC × List Act :=
  match pc with
  -- line 130: the destroy command is handed to the executor
  | .wipeLVM osdID => (.wipeLVMWait osdID, [.call (wipeLVMCommand osdID)])
  -- lines 131-136: it has returned; the two last lines are logged in both cases
  | .wipeLVMWait osdID =>
      (.finished,
        [.ret (wipeLVMCommand osdID) r]
          ++ (if r.failed then [.log (.failedSanitizeOSD osdID r.output)] else [])
          ++ [.log (.output r.output), .log (.sanitizedLVM osdID)])
  -- lines 205-206
  | .executeSanitizeCommand osdInfo =>
      if osdInfo.Encrypted then (.backingWait osdInfo, [.getBacking osdInfo.BlockPath])
      else (.devices [osdInfo.BlockPath, osdInfo.MetadataPath, osdInfo.WalPath], [])
  -- lines 207-209: on error the block path is left as it is
  | .backingWait osdInfo =>
      if r.failed then
        (.devices [osdInfo.BlockPath, osdInfo.MetadataPath, osdInfo.WalPath],
          [.gotBacking osdInfo.BlockPath r, .log (.failedBacking osdInfo.BlockPath)])
      else (.remove osdInfo r.output, [.gotBacking osdInfo.BlockPath r])
  -- line 210
  | .remove osdInfo realPath =>
      (.removeWait osdInfo realPath, [.removeEnc osdInfo.BlockPath])
  -- lines 211-215: osdInfo.BlockPath = realPath, whether the removal failed or not
  | .removeWait osdInfo realPath =>
      (.devices [realPath, osdInfo.MetadataPath, osdInfo.WalPath],
        [.removedEnc osdInfo.BlockPath r]
          ++ (if r.failed then [.log (.failedRemove osdInfo.BlockPath)] else []))
  -- line 219: the loop is over, the function returns
  | .devices [] => (.finished, [])
  -- lines 220-224
  | .devices (device :: ds) =>
      if device = "" then (.devices ds, [])
      else (.commands device (buildShredCommands spec device) ds, [])
  -- line 224: the loop is over
  | .commands _ [] ds => (.devices ds, [])
  -- line 225
  | .commands device (c :: cs) ds => (.commandWait device c cs ds, [.call c])
  -- lines 227-233: the next command follows, whether this one failed or not
  | .commandWait device c cs ds =>
      (.commands device cs ds,
        [.ret c r, .log (.output r.output),
          if r.failed then .log (.failedCommand device r.output)
          else .log (.succeededCommand device)])
  | .finished => (.finished, [])

/-- A goroutine run on its own: one step per answer in `rs`. -/
def runTask (spec : SanitizeDisksSpec) : List Resp → TaskPC → TaskPC × List Act
  | [], pc => (pc, [])
  | r :: rs, pc =>
      let (pc1, acts1) := taskStep spec pc r
      let (pc2, acts2) := runTask spec rs pc1
      (pc2, acts1 ++ acts2)

/-- The command lines a list of acts hands to the executor, in order. -/
def issued : List Act → List ShredCommand
  | [] => []
  | .call c :: as => c :: issued as
  | _ :: as => issued as

/-- The commands due for a list of region paths: those of `buildShredCommands`
for each path that is not empty, in the order of the list. -/
def regionCommands (spec : SanitizeDisksSpec) (paths : List String) : List ShredCommand :=
  (paths.filter (fun p => p ≠ "")).flatMap (buildShredCommands spec)

/-- The path that `executeSanitizeCommand` takes as data path of an encrypted
unit, given the answer of the lookup of the backing device: the answer when
the lookup succeeds, the path of the unit when it fails. -/
def erasedDataPath (osdInfo : OSDInfo) (lookup : Resp) : String :=
  if lookup.failed then osdInfo.BlockPath else lookup.output

/-- A goroutine started at `pc` finishes whatever the outside world answers,
once it is given enough steps, and the command lines it hands to the executor
are exactly `cmds`. -/
def Completes (spec : SanitizeDisksSpec) (pc : TaskPC) (cmds : List ShredCommand) : Prop :=
  ∃ n, ∀ rs : List Resp, n ≤ rs.length →
    (runTask spec rs pc).1 = .finished ∧ issued (runTask spec rs pc).2 = cmds

/-! ## Part 3: the orchestrator, its goroutines and its wait groups

The process is the main thread together with the goroutines it has started. A
schedule is a list of moves; a move names the thread that makes its next step
and carries the answer of the outside world for that step, so that a property
proved for every schedule holds for every interleaving of the threads and for
every behaviour of the executor. A wait group is a counter: `Add(1)` raises
it, the deferred `Done()` of a goroutine lowers it when the goroutine returns,
and `Wait()` lets the main thread pass only when it is zero. An index out of
range in the main goroutine ends the process: no thread moves afterwards. -/

/-- Which `go` statement started a goroutine: line 112 (`wipeLVM`), line 121
(`executeSanitizeCommand` on a physical volume), line 93
(`executeSanitizeCommand` on a raw unit). The wait group handed to the
goroutine is the one of that loop: `wg` of line 101, `wg2` of line 117, `wg`
of line 84. -/
inductive Kind where
  | destroy
  | pvWipe
  | rawWipe
  deriving DecidableEq, Repr

/-- A thread: the main one, or the `i`-th goroutine started (counted from 0). -/
inductive Who where
  | main
  | task (k : Kind) (i : Nat)
  deriving DecidableEq, Repr

/-- An observable act together with the thread that does it. -/
structure Event where
  who : Who
  act : Act
  deriving DecidableEq, Repr

/-- A goroutine: the statement that started it and where it stands. -/
structure Task where
  kind : Kind
  pc : TaskPC
  deriving DecidableEq, Repr

/-- The function the main thread is asked to run. For `StartSanitizeDisks` the
answers of the two discovery calls (`osd.GetCephVolumeLVMOSDs`,
`osd.GetCephVolumeRawOSDs`, outside this package) are given: `none` is a
non-nil error. -/
inductive Entry where
  | StartSanitizeDisks (lvm raw : Option (List OSDInfo))
  | SanitizeLVMDisk (osdLVMList : List OSDInfo)
  | SanitizeRawDisk (osdRawList : List OSDInfo)
  deriving DecidableEq, Repr

/-- The program points of the main thread. -/
inductive MainPC where
  /-- Entry of `StartSanitizeDisks` (line 62). -/
  | start
  /-- Head of the loop of line 104, with the units still to visit and the
  physical volumes collected so far. -/
  | lvmLoop (rest : List OSDInfo) (pvs : List String)
  /-- The `lvs` command of line 140 is running, for the unit `osd`. -/
  | lvsWait (osd : OSDInfo) (rest : List OSDInfo) (pvs : List String)
  /-- The call `wg.Wait()` of line 115. -/
  | lvmWait (pvs : List String)
  /-- Head of the loop of line 119, with the physical volumes still to visit. -/
  | pvLoop (rest : List String)
  /-- The call `wg2.Wait()` of line 123. -/
  | pvWait
  /-- Line 73, after the LVM part of `StartSanitizeDisks`. -/
  | rawStart
  /-- Head of the loop of line 86, with the units still to visit. -/
  | rawLoop (rest : List OSDInfo)
  /-- The call `wg.Wait()` of line 96. -/
  | rawWait
  /-- The entry function has returned. -/
  | done
  /-- The main goroutine has panicked: the process is gone. -/
  | panicked
  deriving DecidableEq, Repr

/-- The state of the process: the main thread, the goroutines in the order in
which they were started, the counter of the wait group of each loop, and what
has been observed so far, oldest first. -/
structure State where
  main : MainPC
  tasks : List Task
  wg : Kind → Nat
  trace : List Event

/-- What a schedule picks: the main thread or the `i`-th goroutine. -/
inductive Pick where
  | main
  | task (i : Nat)
  deriving DecidableEq, Repr

/-- One move of a schedule: the thread that steps, and the answer of the outside
world for the case that the step takes the answer of a call. -/
structure Move where
  pick : Pick
  resp : Resp
  deriving DecidableEq, Repr

/-- Where the main thread starts for an entry function. -/
def Entry.pc : Entry → MainPC
  | .StartSanitizeDisks _ _ => .start
  | .SanitizeLVMDisk osdLVMList => .lvmLoop osdLVMList []
  | .SanitizeRawDisk osdRawList => .rawLoop osdRawList

/-- Where the main thread goes when `SanitizeLVMDisk` returns: on to line 73
inside `StartSanitizeDisks`, back to the caller otherwise. -/
def Entry.afterLVM : Entry → MainPC
  | .StartSanitizeDisks _ _ => .rawStart
  | _ => .done

/-- The initial state: no goroutine, all counters at zero, nothing observed. -/
def init (e : Entry) : State :=
  { main := e.pc, tasks := [], wg := fun _ => 0, trace := [] }

/-- The result of `returnPVDevice` (lines 139-148) given the answer of `lvs`. -/
def returnPVDevice (r : Resp) : List String :=
  if r.failed then [] else splitColon r.output

/-- What `returnPVDevice` logs (lines 142, 146). -/
def returnPVDeviceLog (r : Resp) : LogEntry :=
  if r.failed then .failedLvs else .lvsOutput r.output

/-- The statement `wg.Add(1); go f(..., &wg)`: the counter of the wait group of
the loop goes up and a goroutine is added. -/
def State.spawn (s : State) (k : Kind) (pc : TaskPC) : State :=
  { s with tasks := s.tasks ++ [{ kind := k, pc := pc }],
           wg := Function.update s.wg k (s.wg k + 1) }

/-- Events of the main thread are added to the trace. -/
def State.emit (s : State) (acts : List Act) : State :=
  { s with trace := s.trace ++ acts.map (Event.mk .main) }

/-- One step of the main thread (lines 62-124), `none` when it cannot move: it
is blocked in a `Wait()` whose counter is not zero, has returned, or has
panicked. -/
def mainStep (e : Entry) (s : State) (r : Resp) : Option State :=
  match s.main with
  | .start =>
      -- lines 64-70: the LVM discovery has failed, or `SanitizeLVMDisk` is called
      match e with
      | .StartSanitizeDisks none _ =>
          some { s.emit [.log .failedListLVM] with main := .rawStart }
      | .StartSanitizeDisks (some osdLVMList) _ =>
          some { s with main := .lvmLoop osdLVMList [] }
      | _ => none
  -- line 104: the loop is over
  | .lvmLoop [] pvs => some { s with main := .lvmWait pvs }
  | .lvmLoop (osd :: rest) pvs =>
      -- line 106: wg.Add(1); lines 109, 140: the lookup is handed to the executor
      some { s.emit [.call (lvsCommand osd.BlockPath)] with
        main := .lvsWait osd rest pvs,
        wg := Function.update s.wg .destroy (s.wg .destroy + 1) }
  | .lvsWait osd rest pvs =>
      -- lines 140-147: the lookup has returned; line 109: element [0] of the result
      let s1 := s.emit [.ret (lvsCommand osd.BlockPath) r, .log (returnPVDeviceLog r)]
      match (returnPVDevice r)[0]? with
      | none => some { s1.emit [.indexOutOfRange] with main := .panicked }
      | some pv =>
          -- line 109: append to pvs; line 112: go s.wipeLVM(osd.ID, &wg)
          let s2 := s1.emit [.goWipeLVM osd.ID]
          some { s2 with main := .lvmLoop rest (pvs ++ [pv]),
                         tasks := s2.tasks ++ [{ kind := .destroy, pc := .wipeLVM osd.ID }] }
  -- line 115: wg.Wait()
  | .lvmWait pvs => if s.wg .destroy = 0 then some { s with main := .pvLoop pvs } else none
  -- line 119: the loop is over
  | .pvLoop [] => some { s with main := .pvWait }
  | .pvLoop (pv :: rest) =>
      -- lines 120-121: wg2.Add(1); go s.executeSanitizeCommand(OSDInfo{BlockPath: pv}, &wg2)
      some { (s.emit [.goSanitize { BlockPath := pv }]).spawn .pvWipe
              (.executeSanitizeCommand { BlockPath := pv }) with main := .pvLoop rest }
  -- line 123: wg2.Wait(), then `SanitizeLVMDisk` returns
  | .pvWait => if s.wg .pvWipe = 0 then some { s with main := e.afterLVM } else none
  | .rawStart =>
      -- lines 73-79: the raw discovery has failed, or `SanitizeRawDisk` is called
      match e with
      | .StartSanitizeDisks _ none =>
          some { s.emit [.log .failedListRaw] with main := .done }
      | .StartSanitizeDisks _ (some osdRawList) =>
          some { s with main := .rawLoop osdRawList }
      | _ => none
  -- line 86: the loop is over
  | .rawLoop [] => some { s with main := .rawWait }
  | .rawLoop (osd :: rest) =>
      -- lines 87-93: log; wg.Add(1); go s.executeSanitizeCommand(osd, &wg)
      some { (s.emit [.log (.sanitizingOSD osd.ID osd.BlockPath), .goSanitize osd]).spawn
              .rawWipe (.executeSanitizeCommand osd) with main := .rawLoop rest }
  -- line 96: wg.Wait(), then `SanitizeRawDisk` returns
  | .rawWait => if s.wg .rawWipe = 0 then some { s with main := .done } else none
  | .done => none
  | .panicked => none

/-- One step of the `i`-th goroutine, `none` when there is no such goroutine,
when it has finished, or when the process is gone. The step that finishes the
goroutine runs its deferred `wg.Done()`. -/
def taskMove (spec : SanitizeDisksSpec) (s : State) (i : Nat) (r : Resp) : Option State :=
  if s.main = .panicked then none else
  match s.tasks[i]? with
  | none => none
  | some t =>
      if t.pc = .finished then none else
      let next := taskStep spec t.pc r
      some { s with
        tasks := s.tasks.set i { t with pc := next.1 },
        wg := if next.1 = .finished then Function.update s.wg t.kind (s.wg t.kind - 1)
              else s.wg,
        trace := s.trace ++ next.2.map (Event.mk (.task t.kind i)) }

/-- One move of the process. -/
def step (spec : SanitizeDisksSpec) (e : Entry) (s : State) (m : Move) : Option State :=
  match m.pick with
  | .main => mainStep e s m.resp
  | .task i => taskMove spec s i m.resp

/-- The process run along a schedule from a state; a move that is not possible
leaves the state as it is. -/
def runFrom (spec : SanitizeDisksSpec) (e : Entry) : State → List Move → State
  | s, [] => s
  | s, m :: ms => runFrom spec e ((step spec e s m).getD s) ms

/-- The process run along a schedule from the initial state. -/
def run (spec : SanitizeDisksSpec) (e : Entry) (sched : List Move) : State :=
  runFrom spec e (init e) sched

/-! ### Properties of traces and the invariants of the process -/

/-- The act hands a command line to the executor. -/
def Act.isCall : Act → Bool
  | .call _ => true
  | _ => false

/-- The act is the start or the end of an invocation of the executor. -/
def Act.isCmd : Act → Bool
  | .call _ => true
  | .ret _ _ => true
  | _ => false

/-- The act is the end of an invocation of the executor with the command `c`. -/
def Act.isRetOf (c : ShredCommand) : Act → Bool
  | .ret c1 _ => decide (c1 = c)
  | _ => false

/-- How many times the thread `w` has handed the command `c` to the executor. -/
def calls (w : Who) (c : ShredCommand) (tr : List Event) : Nat :=
  tr.countP (fun x => decide (x.who = w) && decide (x.act = .call c))

/-- How many invocations of the command `c` by the thread `w` have returned. -/
def rets (w : Who) (c : ShredCommand) (tr : List Event) : Nat :=
  tr.countP (fun x => decide (x.who = w) && x.act.isRetOf c)

/-- The phases in the order in which the code runs them: the lookups and the
destroy tasks (Phase 1), the residual wipes of the physical volumes (Phase 2),
the raw units. The only commands of the main thread are the lookups. -/
def codeOrder : Who → Nat
  | .main => 1
  | .task .destroy _ => 1
  | .task .pvWipe _ => 2
  | .task .rawWipe _ => 3

/-- The phases in the order `SanitizingRaw`, `SanitizingLVM(Phase1)`,
`SanitizingLVM(Phase2)`. -/
def statedOrder : Who → Nat
  | .task .rawWipe _ => 1
  | .main => 2
  | .task .destroy _ => 2
  | .task .pvWipe _ => 3

/-- The phases are sequential barriers for the phase numbering `ph`: when a
command is handed to the executor, every command of an earlier phase has been
issued and has returned, and no command of an earlier phase starts or ends
afterwards. -/
def PhasesInOrder (ph : Who → Nat) (tr : List Event) : Prop :=
  ∀ pre x post, tr = pre ++ x :: post → x.act.isCall = true →
    (∀ y ∈ post, y.act.isCmd = true → ph x.who ≤ ph y.who) ∧
    (∀ w c, ph w < ph x.who → calls w c pre = rets w c pre)

/-- The list of units handed to `SanitizeLVMDisk` in a run of the entry function
(empty when it is not called). -/
def Entry.lvmList : Entry → List OSDInfo
  | .StartSanitizeDisks (some osdLVMList) _ => osdLVMList
  | .StartSanitizeDisks none _ => []
  | .SanitizeLVMDisk osdLVMList => osdLVMList
  | .SanitizeRawDisk _ => []

/-- The destroy command of the unit `osd`, run by the goroutine `k`, has been
issued and has returned in the trace. -/
def DestroyReturned (tr : List Event) (k : Nat) (osd : OSDInfo) : Prop :=
  ⟨.task .destroy k, .call (wipeLVMCommand osd.ID)⟩ ∈ tr ∧
    ∃ r, ⟨.task .destroy k, .ret (wipeLVMCommand osd.ID) r⟩ ∈ tr

/-- A number that grows as the main thread advances: twice the phase while it
runs a phase, an odd number between the LVM part and the raw part. -/
def mainPhase : MainPC → Nat
  | .start => 0
  | .lvmLoop _ _ => 2
  | .lvsWait _ _ _ => 2
  | .lvmWait _ => 2
  | .panicked => 2
  | .pvLoop _ => 4
  | .pvWait => 4
  | .rawStart => 5
  | .rawLoop _ => 6
  | .rawWait => 6
  | .done => 7

/-- Twice the phase of the goroutines of a kind. -/
def kindPhase : Kind → Nat
  | .destroy => 2
  | .pvWipe => 4
  | .rawWipe => 6

/-- The `wg.Add(1)` of line 106 whose goroutine is not started yet. -/
def pendingAdd (k : Kind) : MainPC → Nat
  | .lvsWait _ _ _ => if k = .destroy then 1 else 0
  | .panicked => if k = .destroy then 1 else 0
  | _ => 0

/-- The number of goroutines of a kind that have not finished. -/
def unfinished (k : Kind) (tasks : List Task) : Nat :=
  tasks.countP (fun t => decide (t.kind = k) && decide (t.pc ≠ .finished))

/-- The wait groups count the goroutines that have not finished, and the
goroutines that have not finished are those of the phase of the main thread. -/
structure CountInv (s : State) : Prop where
  count : ∀ k, s.wg k = unfinished k s.tasks + pendingAdd k s.main
  phase : ∀ t ∈ s.tasks, t.pc ≠ .finished → kindPhase t.kind = mainPhase s.main

/-- The steps of the main thread as a relation, for case analysis: from the
program point and the counters before the step to those after it, with the
goroutines started and the acts observed (`mainStep` makes exactly these
steps, see `mainStep_some`). -/
inductive MainTrans (e : Entry) (r : Resp) (wg : Kind → Nat) :
    MainPC → MainPC → (Kind → Nat) → List Task → List Act → Prop where
  | startFail (raw : Option (List OSDInfo)) (he : e = .StartSanitizeDisks none raw) :
      MainTrans e r wg .start .rawStart wg [] [.log .failedListLVM]
  | startOk (l : List OSDInfo) (raw : Option (List OSDInfo))
      (he : e = .StartSanitizeDisks (some l) raw) :
      MainTrans e r wg .start (.lvmLoop l []) wg [] []
  | lvmEnd (pvs : List String) :
      MainTrans e r wg (.lvmLoop [] pvs) (.lvmWait pvs) wg [] []
  | lvsCall (osd : OSDInfo) (rest : List OSDInfo) (pvs : List String) :
      MainTrans e r wg (.lvmLoop (osd :: rest) pvs) (.lvsWait osd rest pvs)
        (Function.update wg .destroy (wg .destroy + 1)) []
        [.call (lvsCommand osd.BlockPath)]
  | lvsPanic (osd : OSDInfo) (rest : List OSDInfo) (pvs : List String)
      (h0 : (returnPVDevice r)[0]? = none) :
      MainTrans e r wg (.lvsWait osd rest pvs) .panicked wg []
        [.ret (lvsCommand osd.BlockPath) r, .log (returnPVDeviceLog r), .indexOutOfRange]
  | lvsGo (osd : OSDInfo) (rest : List OSDInfo) (pvs : List String) (pv : String)
      (h0 : (returnPVDevice r)[0]? = some pv) :
      MainTrans e r wg (.lvsWait osd rest pvs) (.lvmLoop rest (pvs ++ [pv])) wg
        [{ kind := .destroy, pc := .wipeLVM osd.ID }]
        [.ret (lvsCommand osd.BlockPath) r, .log (returnPVDeviceLog r), .goWipeLVM osd.ID]
  | lvmWait (pvs : List String) (hz : wg .destroy = 0) :
      MainTrans e r wg (.lvmWait pvs) (.pvLoop pvs) wg [] []
  | pvEnd : MainTrans e r wg (.pvLoop []) .pvWait wg [] []
  | pvGo (pv : String) (rest : List String) :
      MainTrans e r wg (.pvLoop (pv :: rest)) (.pvLoop rest)
        (Function.update wg .pvWipe (wg .pvWipe + 1))
        [{ kind := .pvWipe, pc := .executeSanitizeCommand { BlockPath := pv } }]
        [.goSanitize { BlockPath := pv }]
  | pvWaitOn (hz : wg .pvWipe = 0) (he : e.afterLVM = .rawStart) :
      MainTrans e r wg .pvWait .rawStart wg [] []
  | pvWaitBack (hz : wg .pvWipe = 0) (he : e.afterLVM = .done) :
      MainTrans e r wg .pvWait .done wg [] []
  | rawFail (lvm : Option (List OSDInfo)) (he : e = .StartSanitizeDisks lvm none) :
      MainTrans e r wg .rawStart .done wg [] [.log .failedListRaw]
  | rawOk (lvm : Option (List OSDInfo)) (l : List OSDInfo)
      (he : e = .StartSanitizeDisks lvm (some l)) :
      MainTrans e r wg .rawStart (.rawLoop l) wg [] []
  | rawEnd : MainTrans e r wg (.rawLoop []) .rawWait wg [] []
  | rawGo (osd : OSDInfo) (rest : List OSDInfo) :
      MainTrans e r wg (.rawLoop (osd :: rest)) (.rawLoop rest)
        (Function.update wg .rawWipe (wg .rawWipe + 1))
        [{ kind := .rawWipe, pc := .executeSanitizeCommand osd }]
        [.log (.sanitizingOSD osd.ID osd.BlockPath), .goSanitize osd]
  | rawWait (hz : wg .rawWipe = 0) : MainTrans e r wg .rawWait .done wg [] []

/-- The commands observed so far belong to phases that the main thread has
reached, and they are observed in the order of the phases. -/
structure OrderInv (s : State) : Prop where
  bound : ∀ x ∈ s.trace, x.act.isCmd = true → 2 * codeOrder x.who ≤ mainPhase s.main
  sorted : s.trace.Pairwise
    (fun a b => a.act.isCmd = true → b.act.isCmd = true → codeOrder a.who ≤ codeOrder b.who)

/-- The command whose answer a goroutine is waiting for. -/
def TaskPC.waitingOn : TaskPC → Option ShredCommand
  | .wipeLVMWait osdID => some (wipeLVMCommand osdID)
  | .commandWait _ c _ _ => some c
  | _ => none

/-- The command whose answer the main thread is waiting for. -/
def MainPC.waitingOn : MainPC → Option ShredCommand
  | .lvsWait osd _ _ => some (lvsCommand osd.BlockPath)
  | _ => none

/-- One when the thread `w` is waiting for the answer of the command `c`, zero
otherwise. -/
def waiting (s : State) (w : Who) (c : ShredCommand) : Nat :=
  match w with
  | .main => if s.main.waitingOn = some c then 1 else 0
  | .task k i =>
      match s.tasks[i]? with
      | some t => if t.kind = k ∧ t.pc.waitingOn = some c then 1 else 0
      | none => 0

/-- Every command handed to the executor has returned, except the one each
thread is waiting for. -/
def BalanceInv (s : State) : Prop :=
  ∀ w c, calls w c s.trace = rets w c s.trace + waiting s w c

/-- When a command is handed to the executor, the commands of the earlier
phases have all returned. -/
def Settled (tr : List Event) : Prop :=
  ∀ pre x post, tr = pre ++ x :: post → x.act.isCall = true →
    ∀ w c, codeOrder w < codeOrder x.who → calls w c pre = rets w c pre

/-- Where the goroutine `k`, that runs the destroy command of the unit `osd`,
stands, with what the trace holds of it: not started, waiting for the answer
after the command was issued, or finished after the command returned. -/
def DestroyProgress (tr : List Event) (k : Nat) (osd : OSDInfo) (pc : TaskPC) : Prop :=
  pc = .wipeLVM osd.ID ∨
  (pc = .wipeLVMWait osd.ID ∧ ⟨.task .destroy k, .call (wipeLVMCommand osd.ID)⟩ ∈ tr) ∨
  (pc = .finished ∧ DestroyReturned tr k osd)

/-- How many goroutines have been started (`n`) at a program point of the main
thread, relative to the list of units of `SanitizeLVMDisk`. -/
def lvmPosition (L : List OSDInfo) (n : Nat) : MainPC → Prop
  | .start => n = 0
  | .lvmLoop rest _ => ∃ visited, L = visited ++ rest ∧ n = visited.length
  | .lvsWait osd rest _ => ∃ visited, L = visited ++ osd :: rest ∧ n = visited.length
  | .lvmWait _ => n = L.length
  | .panicked => True
  | _ => L.length ≤ n

/-- The destroy command of every unit of the list has been issued and has
returned. -/
def AllDestroyed (L : List OSDInfo) (tr : List Event) : Prop :=
  ∀ k osd, L[k]? = some osd → DestroyReturned tr k osd

/-- The event is a command handed to the executor by a residual wipe of a
physical volume (Phase 2). -/
def Event.isPvWipeCall (x : Event) : Prop :=
  ∃ i c, x = ⟨.task .pvWipe i, .call c⟩

/-- The first goroutines are the destroy tasks of the units, in the order of the
list; each is where its events say; and no residual wipe issues a command
before every destroy command has returned. -/
structure DestroyInv (L : List OSDInfo) (s : State) : Prop where
  position : lvmPosition L s.tasks.length s.main
  kinds : ∀ k t, s.tasks[k]? = some t → k < L.length → t.kind = .destroy
  progress : ∀ k t, s.tasks[k]? = some t → t.kind = .destroy →
    ∃ osd, L[k]? = some osd ∧ DestroyProgress s.trace k osd t.pc
  before : ∀ pre x post, s.trace = pre ++ x :: post → x.isPvWipeCall → AllDestroyed L pre

/-- The lookups `lvs` that have returned to the main thread, oldest first, each
with its command line and its answer. -/
def lookups (tr : List Event) : List (ShredCommand × Resp) :=
  tr.filterMap fun x =>
    match x with
    | ⟨.main, .ret c r⟩ => some (c, r)
    | _ => none

/-- The units on which the main thread has started `executeSanitizeCommand`,
oldest first. -/
def sanitizeStarts (tr : List Event) : List OSDInfo :=
  tr.filterMap fun x =>
    match x with
    | ⟨.main, .goSanitize osdInfo⟩ => some osdInfo
    | _ => none

/-- The first colon-separated field of a text: the part before its first colon,
or all of it when it holds no colon. -/
def firstField (s : String) : String :=
  String.mk (s.toList.takeWhile (fun c => c ≠ ':'))

/-- The unit that has the first field of the answer of a lookup as its data
path, no metadata path, no log path, and is not encrypted. -/
def pvUnit (r : Resp) : OSDInfo :=
  { ID := 0, BlockPath := firstField r.output, MetadataPath := "", WalPath := "",
    Encrypted := false }

/-- The lookups that have returned are those of the units `visited`, in order,
and all have succeeded. -/
def Looked (visited : List OSDInfo) (tr : List Event) : Prop :=
  (lookups tr).map (fun p => p.1) = visited.map (fun u => lvsCommand u.BlockPath) ∧
    ∀ p ∈ lookups tr, p.2.failed = false

/-- The entry function runs `SanitizeLVMDisk`. -/
def Entry.runsLVM : Entry → Prop
  | .SanitizeRawDisk _ => False
  | _ => True

/-- How the lookups, the collected physical volumes and the sanitize tasks
started relate at each program point of the main thread, for the list `L` of
units handed to `SanitizeLVMDisk` and the list `R` handed to
`SanitizeRawDisk`. -/
def LookupInv (e : Entry) (L R : List OSDInfo) (tr : List Event) : MainPC → Prop
  | .start => lookups tr = [] ∧ sanitizeStarts tr = []
  | .lvmLoop rest pvs =>
      e.runsLVM ∧ ∃ visited, L = visited ++ rest ∧ Looked visited tr ∧
        pvs = (lookups tr).map (fun p => firstField p.2.output) ∧ sanitizeStarts tr = []
  | .lvsWait osd rest pvs =>
      e.runsLVM ∧ ∃ visited, L = visited ++ osd :: rest ∧ Looked visited tr ∧
        pvs = (lookups tr).map (fun p => firstField p.2.output) ∧ sanitizeStarts tr = []
  | .lvmWait pvs =>
      e.runsLVM ∧ Looked L tr ∧ pvs = (lookups tr).map (fun p => firstField p.2.output) ∧
        sanitizeStarts tr = []
  | .pvLoop rest =>
      e.runsLVM ∧ Looked L tr ∧
        sanitizeStarts tr ++ rest.map (fun pv => ({ BlockPath := pv } : OSDInfo))
          = (lookups tr).map (fun p => pvUnit p.2)
  | .pvWait =>
      e.runsLVM ∧ Looked L tr ∧ sanitizeStarts tr = (lookups tr).map (fun p => pvUnit p.2)
  | .rawStart => Looked L tr ∧ sanitizeStarts tr = (lookups tr).map (fun p => pvUnit p.2)
  | .rawLoop rest =>
      ∃ visited, R = visited ++ rest ∧ Looked L tr ∧
        sanitizeStarts tr = (lookups tr).map (fun p => pvUnit p.2) ++ visited
  | .rawWait =>
      Looked L tr ∧ sanitizeStarts tr = (lookups tr).map (fun p => pvUnit p.2) ++ R
  | .done =>
      Looked L tr ∧ sanitizeStarts tr = (lookups tr).map (fun p => pvUnit p.2) ++ R
  | .panicked =>
      L ≠ [] ∧ ∃ visited rest, L = visited ++ rest ∧
        (lookups tr).map (fun p => p.1) = visited.map (fun u => lvsCommand u.BlockPath) ∧
        sanitizeStarts tr = [] ∧ ∃ p ∈ lookups tr, p.2.failed = true

/-- The act is a log line. -/
def Act.isLog : Act → Bool
  | .log _ => true
  | _ => false

/-- The trace without its log lines: the commands, the calls of the resolver and
the goroutines started, with the thread of each. -/
def withoutLogs (tr : List Event) : List Event :=
  tr.filter (fun x => !x.act.isLog)

/-- The schedule without its first `n` moves of the main thread. -/
def skipMain : Nat → List Move → List Move
  | 0, ms => ms
  | _ + 1, [] => []
  | n + 1, m :: ms => if m.pick = .main then skipMain n ms else m :: skipMain (n + 1) ms

/-- Two states of two runs of `StartSanitizeDisks` that differ only in the answer
of the raw discovery (a failure in the first, the empty list in the second):
same goroutines, same counters, same trace up to log lines, and the main
thread at the same point, or, once the raw discovery has answered, returned
in the first run and in the empty raw part in the second. -/
def RawSim (s1 s2 : State) : Prop :=
  s1.tasks = s2.tasks ∧ s1.wg = s2.wg ∧ withoutLogs s1.trace = withoutLogs s2.trace ∧
    ((s1.main = s2.main ∧ mainPhase s1.main ≤ 5) ∨
      (s1.main = .done ∧ (s2.main = .rawLoop [] ∨ s2.main = .rawWait ∨ s2.main = .done) ∧
        s2.wg .rawWipe = 0))

/-- Two states of two runs of `StartSanitizeDisks` that differ only in the answer
of the LVM discovery (a failure in the first, the empty list in the second):
the first run still at its entry while the second has gone through the empty
LVM part and waits at line 123 with nothing started, or both at the same point
of the raw part with the same goroutines, counters and trace up to log lines. -/
def LvmSim (s1 s2 : State) : Prop :=
  s1.tasks = s2.tasks ∧ s1.wg = s2.wg ∧ withoutLogs s1.trace = withoutLogs s2.trace ∧
    ((s1.main = s2.main ∧ 5 ≤ mainPhase s1.main) ∨
      (s1.main = .start ∧ s2.main = .pvWait ∧ s1.tasks = [] ∧ s2.wg .pvWipe = 0))

/-- Where the main thread stands after `j` steps when the list of units handed
to `SanitizeLVMDisk` is empty. -/
def emptyLvmPC : Nat → MainPC
  | 0 => .start
  | 1 => .lvmLoop [] []
  | 2 => .lvmWait []
  | 3 => .pvLoop []
  | _ => .pvWait

/-- The state after `j` steps of the main thread when the list of units handed
to `SanitizeLVMDisk` is empty: nothing started, nothing observed. -/
def emptyLvmState (j : Nat) : State :=
  { main := emptyLvmPC j, tasks := [], wg := fun _ => 0, trace := [] }

/-! ### What each goroutine has done -/

/-- The goroutines the main thread has started, oldest first, each given by the
program point at which it starts: the function of the `go` statement with its
arguments. -/
def goStarts (tr : List Event) : List TaskPC :=
  tr.filterMap fun x =>
    match x with
    | ⟨.main, .goWipeLVM osdID⟩ => some (.wipeLVM osdID)
    | ⟨.main, .goSanitize osdInfo⟩ => some (.executeSanitizeCommand osdInfo)
    | _ => none

/-- The acts of the thread `w` in the trace, oldest first. -/
def actsOf (w : Who) (tr : List Event) : List Act :=
  (tr.filter (fun x => decide (x.who = w))).map (fun x => x.act)

/-- The command lines the thread `w` has handed to the executor, oldest first. -/
def issuedBy (w : Who) (tr : List Event) : List ShredCommand :=
  issued (actsOf w tr)

/-- The kind of the `i`-th goroutine of a run in which `SanitizeLVMDisk` is
handed the units `L`: the destroy tasks come first, one per unit, then the
residual wipes, one per unit, then the sanitize tasks of the raw units. -/
def kindAt (L : List OSDInfo) (i : Nat) : Kind :=
  if i < L.length then .destroy else if i < 2 * L.length then .pvWipe else .rawWipe

/-- The goroutines started so far at each program point of the main thread, for
the list `L` of units handed to `SanitizeLVMDisk`: during Phase 1 the destroy
tasks of the units visited; afterwards the destroy tasks of all units followed
by a sanitize task for each unit on which one was started. -/
def GoOrder (L : List OSDInfo) (tr : List Event) : MainPC → Prop
  | .start => goStarts tr = []
  | .lvmLoop rest _ =>
      ∃ visited, L = visited ++ rest ∧ goStarts tr = visited.map (fun u => .wipeLVM u.ID)
  | .lvsWait osd rest _ =>
      ∃ visited, L = visited ++ osd :: rest ∧
        goStarts tr = visited.map (fun u => .wipeLVM u.ID)
  | .panicked =>
      ∃ visited rest, L = visited ++ rest ∧
        goStarts tr = visited.map (fun u => .wipeLVM u.ID)
  | .lvmWait _ =>
      goStarts tr = L.map (fun u => .wipeLVM u.ID)
        ++ (sanitizeStarts tr).map .executeSanitizeCommand
  | .pvLoop _ =>
      goStarts tr = L.map (fun u => .wipeLVM u.ID)
        ++ (sanitizeStarts tr).map .executeSanitizeCommand
  | .pvWait =>
      goStarts tr = L.map (fun u => .wipeLVM u.ID)
        ++ (sanitizeStarts tr).map .executeSanitizeCommand
  | .rawStart =>
      goStarts tr = L.map (fun u => .wipeLVM u.ID)
        ++ (sanitizeStarts tr).map .executeSanitizeCommand
  | .rawLoop _ =>
      goStarts tr = L.map (fun u => .wipeLVM u.ID)
        ++ (sanitizeStarts tr).map .executeSanitizeCommand
  | .rawWait =>
      goStarts tr = L.map (fun u => .wipeLVM u.ID)
        ++ (sanitizeStarts tr).map .executeSanitizeCommand
  | .done =>
      goStarts tr = L.map (fun u => .wipeLVM u.ID)
        ++ (sanitizeStarts tr).map .executeSanitizeCommand

/-- Every `go` statement observed has started a goroutine and every goroutine
comes from one: the `i`-th goroutine was started by the `i`-th `go` statement,
at the entry of the function of that statement; it stands where a run of that
function from its entry leads, and its acts in the trace are exactly the acts
of that run. -/
structure HistInv (spec : SanitizeDisksSpec) (L : List OSDInfo) (s : State) : Prop where
  started : (goStarts s.trace).length = s.tasks.length
  order : GoOrder L s.trace s.main
  kinds : ∀ i t, s.tasks[i]? = some t → t.kind = kindAt L i
  history : ∀ i t, s.tasks[i]? = some t →
    ∃ pc0 rs, (goStarts s.trace)[i]? = some pc0 ∧
      runTask spec rs pc0 = (t.pc, actsOf (.task t.kind i) s.trace)
  quiet : ∀ k i, s.tasks.length ≤ i → actsOf (.task k i) s.trace = []

/-- The destroy task of every unit of the list has run to its end: the goroutine
`k`, started for the `k`-th unit, has finished, and the one command line it has
handed to the executor is the destroy command of that unit. -/
def DestroysDone (L : List OSDInfo) (s : State) : Prop :=
  ∀ k osd, L[k]? = some osd →
    s.tasks[k]? = some { kind := .destroy, pc := .finished } ∧
    issuedBy (.task .destroy k) s.trace = [wipeLVMCommand osd.ID]

/-- The residual wipe of every lookup that has returned has run to its end: the
goroutine `L.length + j`, started in Phase 2 for the `j`-th lookup, has
finished, and the command lines it has handed to the executor are exactly the
commands of the first colon-separated field of the answer of that lookup, as
the sole data region, with no metadata path and no log path. -/
def ResidualWipesDone (spec : SanitizeDisksSpec) (L : List OSDInfo) (s : State) : Prop :=
  ∀ j p, (lookups s.trace)[j]? = some p →
    s.tasks[L.length + j]? = some { kind := .pvWipe, pc := .finished } ∧
    issuedBy (.task .pvWipe (L.length + j)) s.trace
      = regionCommands spec [firstField p.2.output, "", ""]

/-- Every raw unit of the list has been sanitized: the goroutine `first + j`,
started for the `j`-th unit, has finished, and the command lines it has handed
to the executor are exactly those of the region paths of the unit that are not
empty, in the order data, metadata, log; the data path is the path of the unit
when the unit is not encrypted, and the path decided by the answer that the
resolver gave to this goroutine when it is. -/
def RawSanitized (spec : SanitizeDisksSpec) (first : Nat) (R : List OSDInfo)
    (s : State) : Prop :=
  ∀ j osd, R[j]? = some osd →
    s.tasks[first + j]? = some { kind := .rawWipe, pc := .finished } ∧
    (osd.Encrypted = false →
      issuedBy (.task .rawWipe (first + j)) s.trace
        = regionCommands spec [osd.BlockPath, osd.MetadataPath, osd.WalPath]) ∧
    (osd.Encrypted = true → ∃ lookup,
      ⟨.task .rawWipe (first + j), .gotBacking osd.BlockPath lookup⟩ ∈ s.trace ∧
      issuedBy (.task .rawWipe (first + j)) s.trace
        = regionCommands spec
            [erasedDataPath osd lookup, osd.MetadataPath, osd.WalPath])

/-- The number of moves of a schedule that are steps of the process: the moves
that are possible when their turn comes. -/
def effective (spec : SanitizeDisksSpec) (e : Entry) : State → List Move → Nat
  | _, [] => 0
  | s, m :: ms =>
      match step spec e s m with
      | some s1 => 1 + effective spec e s1 ms
      | none => effective spec e s ms

/-! ### A measure of what is left to do -/

/-- A bound on the steps a goroutine has left. -/
def taskMeasure : TaskPC → Nat
  | .wipeLVM _ => 2
  | .wipeLVMWait _ => 1
  | .executeSanitizeCommand _ => 17
  | .backingWait _ => 16
  | .remove _ _ => 15
  | .removeWait _ _ => 14
  | .devices ds => 1 + 4 * ds.length
  | .commands _ cs ds => 2 + 2 * cs.length + 4 * ds.length
  | .commandWait _ _ cs ds => 3 + 2 * cs.length + 4 * ds.length
  | .finished => 0

/-- The list of units handed to `SanitizeRawDisk` in a run of the entry function
(empty when it is not called). -/
def Entry.rawList : Entry → List OSDInfo
  | .StartSanitizeDisks _ (some osdRawList) => osdRawList
  | .StartSanitizeDisks _ none => []
  | .SanitizeLVMDisk _ => []
  | .SanitizeRawDisk osdRawList => osdRawList

/-- A bound on the steps the main thread has left, counting for each goroutine
it will start the steps of that goroutine. -/
def mainMeasure (e : Entry) : MainPC → Nat
  | .done => 0
  | .panicked => 0
  | .rawWait => 1
  | .rawLoop rest => 2 + 19 * rest.length
  | .rawStart => 3 + 19 * e.rawList.length
  | .pvWait => 4 + 19 * e.rawList.length
  | .pvLoop rest => 5 + 19 * e.rawList.length + 19 * rest.length
  | .lvmWait pvs => 6 + 19 * e.rawList.length + 19 * pvs.length
  | .lvmLoop rest pvs => 7 + 19 * e.rawList.length + 19 * pvs.length + 24 * rest.length
  | .lvsWait _ rest pvs => 30 + 19 * e.rawList.length + 19 * pvs.length + 24 * rest.length
  | .start => 8 + 19 * e.rawList.length + 24 * e.lvmList.length

/-- A bound on the steps the process has left. -/
def measure (e : Entry) (s : State) : Nat :=
  mainMeasure e s.main + (s.tasks.map (fun t => taskMeasure t.pc)).sum

/-- The main thread is at the entry of `StartSanitizeDisks`, or between its two
parts, only when `StartSanitizeDisks` is the function that runs. -/
def EntryInv (e : Entry) (s : State) : Prop :=
  s.main = .start ∨ s.main = .rawStart → ∃ lvm raw, e = .StartSanitizeDisks lvm raw

/-- The main thread has returned or the process is gone. -/
def State.final (s : State) : Prop := s.main = .done ∨ s.main = .panicked

/-! ### A concrete run, used to evaluate the process -/

/-- An answer of the outside world without error. -/
def okResp : Resp := { output := "/dev/sdx:0-10", failed := false }

/-- The Quick method. -/
def quickSpec : SanitizeDisksSpec := { Method := .quick, DataSource := .zero, Iteration := 1 }

/-- One logical-volume-backed unit. -/
def lvmUnit : OSDInfo := { ID := 1, BlockPath := "/dev/vg/lv1" }

/-- One raw unit. -/
def rawUnit : OSDInfo := { ID := 2, BlockPath := "/dev/sdb" }

/-- `StartSanitizeDisks` when both discoveries succeed, with one unit each. -/
def bothEntry : Entry := .StartSanitizeDisks (some [lvmUnit]) (some [rawUnit])

/-- `n` moves of the main thread, each answered without error. -/
def mainMoves (n : Nat) : List Move := List.replicate n { pick := .main, resp := okResp }

/-- `n` moves of the goroutine `i`, each answered without error. -/
def taskMoves (i n : Nat) : List Move := List.replicate n { pick := .task i, resp := okResp }

/-- A schedule that runs `bothEntry` to its end: every goroutine runs as soon as
it is started and nothing fails. -/
def fullSchedule : List Move :=
  mainMoves 4 ++ taskMoves 0 2 ++ mainMoves 3 ++ taskMoves 1 8 ++ mainMoves 4
    ++ taskMoves 2 8 ++ mainMoves 1

/-- A schedule that runs `StartSanitizeDisks` to its end when the LVM discovery
fails and the raw discovery lists one unit. -/
def rawSchedule : List Move :=
  mainMoves 4 ++ taskMoves 0 8 ++ mainMoves 1

/-- A schedule that runs `SanitizeLVMDisk [lvmUnit]` to its end. -/
def lvmSchedule : List Move :=
  mainMoves 3 ++ taskMoves 0 2 ++ mainMoves 3 ++ taskMoves 1 8 ++ mainMoves 1

/-- What the run of `lvmSchedule` has observed before the residual wipe hands
its command to the executor. -/
def lvmTraceBefore : List Event :=
  [⟨.main, .call (lvsCommand "/dev/vg/lv1")⟩,
   ⟨.main, .ret (lvsCommand "/dev/vg/lv1") okResp⟩,
   ⟨.main, .log (.lvsOutput "/dev/sdx:0-10")⟩,
   ⟨.main, .goWipeLVM 1⟩,
   ⟨.task .destroy 0, .call (wipeLVMCommand 1)⟩,
   ⟨.task .destroy 0, .ret (wipeLVMCommand 1) okResp⟩,
   ⟨.task .destroy 0, .log (.output "/dev/sdx:0-10")⟩,
   ⟨.task .destroy 0, .log (.sanitizedLVM 1)⟩,
   ⟨.main, .goSanitize { BlockPath := "/dev/sdx" }⟩]

/-- What the run of `lvmSchedule` observes after the residual wipe has handed
its command to the executor. -/
def lvmTraceAfter : List Event :=
  [⟨.task .pvWipe 1, .ret ⟨"ceph-volume", ["lvm", "zap", "/dev/sdx"]⟩ okResp⟩,
   ⟨.task .pvWipe 1, .log (.output "/dev/sdx:0-10")⟩,
   ⟨.task .pvWipe 1, .log (.succeededCommand "/dev/sdx")⟩]

/-- An answer of the outside world with an error. -/
def failedResp : Resp := { output := "", failed := true }

/-- A schedule along which the lookup of the first unit of `SanitizeLVMDisk`
fails. -/
def panicSchedule : List Move :=
  [{ pick := .main, resp := okResp }, { pick := .main, resp := failedResp }]

/-- One encrypted raw unit. -/
def encUnit : OSDInfo := { ID := 3, BlockPath := "/dev/mapper/x", Encrypted := true }

/-- A schedule that runs `StartSanitizeDisks` to its end when the LVM discovery
fails and the raw discovery lists one encrypted unit. -/
def encSchedule : List Move :=
  mainMoves 4 ++ taskMoves 0 11 ++ mainMoves 1

/-! ## Theorems: the command builder -/

/-- C2: with the Quick method, whatever the data source and the iteration
count, `buildShredCommands` returns exactly one command; its executable is
`ceph-volume` and its arguments are `lvm`, `zap` and the device path. -/
theorem quick_builds_one_zap (disk : String) (spec : SanitizeDisksSpec)
    (h : spec.Method = .quick) :
    buildShredCommands spec disk = [{ command := "ceph-volume", args := ["lvm", "zap", disk] }]
      ∧ ∀ c ∈ buildShredCommands spec disk, disk ∈ c.args := by
  simp [buildShredCommands, buildQuickShredCommands, h]

theorem quick_builds_one_zap_witness :
    buildShredCommands ⟨.quick, .random, 5⟩ "/dev/sdb"
        = [{ command := "ceph-volume", args := ["lvm", "zap", "/dev/sdb"] }]
      ∧ ∀ c ∈ buildShredCommands ⟨.quick, .random, 5⟩ "/dev/sdb", "/dev/sdb" ∈ c.args :=
  quick_builds_one_zap "/dev/sdb" ⟨.quick, .random, 5⟩ rfl

theorem iterations_ne_zero_flag (x : String) : "--iterations=" ++ x ≠ "--zero" := by
  intro h
  have := congrArg (fun s : String => s.data.take 3) h
  simp [String.data_append] at this

theorem iterations_not_source_flag (x : String) :
    ¬ startsWith "--random-source" ("--iterations=" ++ x) := by
  intro h
  unfold startsWith at h
  have h2 := List.IsPrefix.take h 3
  simp [String.toList, String.data_append] at h2

theorem carries_append_path (spec : SanitizeDisksSpec) (options : List String) (disk : String)
    (h : CarriesOneSourceFlag spec options) (h1 : disk ≠ "--zero")
    (h2 : ¬ startsWith "--random-source" disk) :
    CarriesOneSourceFlag spec (options ++ [disk]) := by
  obtain ⟨hz, hr⟩ := h
  constructor
  · intro hd
    obtain ⟨h3, h4⟩ := hz hd
    refine ⟨List.mem_append_left _ h3, ?_⟩
    intro hmem
    rcases List.mem_append.mp hmem with h5 | h5
    · exact h4 h5
    · simp only [List.mem_singleton] at h5
      exact h1 h5.symm
  · intro hd
    obtain ⟨h3, h4⟩ := hr hd
    refine ⟨List.mem_append_left _ h3, ?_⟩
    intro a ha
    rcases List.mem_append.mp ha with h5 | h5
    · exact h4 a h5
    · simp only [List.mem_singleton] at h5
      subst h5
      exact h2

/-- With the Complete method the command is `shred` and its argument list is a
list of options followed by the device path; the options carry exactly one of
the two data-source flags. -/
theorem complete_options_carry_flag (disk : String) (spec : SanitizeDisksSpec)
    (h : spec.Method = .complete) :
    ∃ options, buildShredCommands spec disk
        = [{ command := "shred", args := options ++ [disk] }]
      ∧ CarriesOneSourceFlag spec options := by
  obtain ⟨m, d, n⟩ := spec
  simp only at h
  subst h
  cases d
  · refine ⟨["--random-source=/dev/zero", "--force", "--verbose",
      "--iterations=" ++ Itoa n], ?_, ?_⟩
    · simp [buildShredCommands, buildShredArgs, buildDataSource, completeShredUtility,
        SanitizeDataSourceProperty.String]
    · refine ⟨fun _ => ⟨by simp, ?_⟩, fun h => by cases h⟩
      intro hmem
      simp only [List.mem_cons, List.mem_singleton, List.not_mem_nil, or_false] at hmem
      rcases hmem with h1 | h1 | h1 | h1
      · exact absurd h1 (by decide)
      · exact absurd h1 (by decide)
      · exact absurd h1 (by decide)
      · exact iterations_ne_zero_flag _ h1.symm
  · refine ⟨["--zero", "--force", "--verbose", "--iterations=" ++ Itoa n], ?_, ?_⟩
    · simp [buildShredCommands, buildShredArgs, completeShredUtility]
    · refine ⟨fun h => (by cases h), fun _ => ⟨by simp, ?_⟩⟩
      intro a ha
      simp only [List.mem_cons, List.mem_singleton, List.not_mem_nil, or_false] at ha
      rcases ha with h1 | h1 | h1 | h1
      · subst h1; decide
      · subst h1; decide
      · subst h1; decide
      · subst h1
        exact iterations_not_source_flag _

/-- A device path, which starts with `/`, is neither the flag `--zero` nor a
text that starts with `--random-source`. -/
theorem absolute_path_not_flag (disk : String) (h : startsWith "/" disk) :
    disk ≠ "--zero" ∧ ¬ startsWith "--random-source" disk := by
  unfold startsWith at *
  obtain ⟨t, ht⟩ := h
  constructor
  · intro heq
    subst heq
    have := congrArg List.head? ht
    simp [String.toList] at this
  · rintro ⟨u, hu⟩
    rw [← ht] at hu
    have := congrArg List.head? hu
    simp [String.toList] at this

/-- C3: for every device path (an absolute path: a text that starts with `/`)
and every spec with the Complete method, `buildShredCommands` returns one
command, `shred`, and the arguments of that command carry exactly one of the
two data-source flags: with the data source `Zero` they contain
`--random-source=/dev/zero` and do not contain `--zero`; with the data source
`Random` they contain `--zero` and no argument that starts with
`--random-source`. -/
theorem complete_carries_one_source_flag (disk : String) (spec : SanitizeDisksSpec)
    (h : spec.Method = .complete) (hd : startsWith "/" disk) :
    (∃ args, buildShredCommands spec disk = [{ command := "shred", args := args }]) ∧
      ∀ c ∈ buildShredCommands spec disk, CarriesOneSourceFlag spec c.args := by
  obtain ⟨options, h1, h2⟩ := complete_options_carry_flag disk spec h
  obtain ⟨h3, h4⟩ := absolute_path_not_flag disk hd
  refine ⟨⟨_, h1⟩, ?_⟩
  intro c hc
  rw [h1, List.mem_singleton] at hc
  subst hc
  exact carries_append_path spec options disk h2 h3 h4

theorem complete_carries_one_source_flag_witness :
    (∃ args, buildShredCommands ⟨.complete, .zero, 3⟩ "/dev/sdb"
        = [{ command := "shred", args := args }]) ∧
      ∀ c ∈ buildShredCommands ⟨.complete, .zero, 3⟩ "/dev/sdb",
        CarriesOneSourceFlag ⟨.complete, .zero, 3⟩ c.args :=
  complete_carries_one_source_flag "/dev/sdb" ⟨.complete, .zero, 3⟩ rfl (by decide)

theorem toDigitsCore_eq_digits (fuel : Nat) : ∀ (n : Nat) (ds : List Char), 0 < n → n < fuel →
    Nat.toDigitsCore 10 fuel n ds = ((Nat.digits 10 n).reverse.map Nat.digitChar) ++ ds := by
  induction fuel with
  | zero => intro n ds _ h; omega
  | succ f ih =>
    intro n ds hn hf
    rw [Nat.digits_def' (by decide) hn]
    simp only [Nat.toDigitsCore]
    by_cases h0 : n / 10 = 0
    · simp [h0]
    · have hpos : 0 < n / 10 := Nat.pos_of_ne_zero h0
      have hlt : n / 10 < f := by omega
      simp [h0, ih (n / 10) _ hpos hlt]

theorem repr_eq_digits (n : Nat) (hn : 0 < n) :
    (Nat.repr n).toList = (Nat.digits 10 n).reverse.map Nat.digitChar := by
  simp [Nat.repr, Nat.toDigits, toDigitsCore_eq_digits (n + 1) n [] hn (by omega),
    List.asString]

/-- C4: with the Complete method and a positive iteration count `n`,
`buildShredCommands` returns exactly one command; its executable is `shred`
and its last four arguments are `--force`, `--verbose`, `--iterations=` followed
by the decimal text of `n`, and the device path, in this order. The decimal
text is made of the base ten digits of `n`, the most significant first. -/
theorem complete_builds_one_shred (disk : String) (spec : SanitizeDisksSpec) (n : Nat)
    (h : spec.Method = .complete) (hn : 0 < n) (hi : spec.Iteration = (n : Int)) :
    ∃ flags decimal, buildShredCommands spec disk
        = [{ command := "shred",
             args := flags ++ ["--force", "--verbose", "--iterations=" ++ decimal, disk] }]
      ∧ decimal = Itoa spec.Iteration
      ∧ decimal.toList = (Nat.digits 10 n).reverse.map Nat.digitChar := by
  obtain ⟨m, d, it⟩ := spec
  simp only at h hi
  subst h hi
  have hI : Itoa (n : Int) = Nat.repr n := by
    simp [Itoa]
  cases d
  · exact ⟨["--random-source=/dev/zero"], Nat.repr n, by
      simp [buildShredCommands, buildShredArgs, buildDataSource, completeShredUtility,
        SanitizeDataSourceProperty.String, hI], hI.symm, repr_eq_digits n hn⟩
  · exact ⟨["--zero"], Nat.repr n, by
      simp [buildShredCommands, buildShredArgs, completeShredUtility, hI], hI.symm,
      repr_eq_digits n hn⟩

theorem complete_builds_one_shred_witness :
    ∃ flags decimal, buildShredCommands ⟨.complete, .random, 25⟩ "/dev/sdb"
        = [{ command := "shred",
             args := flags ++ ["--force", "--verbose", "--iterations=" ++ decimal,
               "/dev/sdb"] }]
      ∧ decimal = Itoa 25
      ∧ decimal.toList = (Nat.digits 10 25).reverse.map Nat.digitChar :=
  complete_builds_one_shred "/dev/sdb" ⟨.complete, .random, 25⟩ 25 rfl (by decide) rfl

/-! ## Theorems: one sanitize task -/

theorem issued_append (a b : List Act) : issued (a ++ b) = issued a ++ issued b := by
  induction a with
  | nil => rfl
  | cons x xs ih => cases x <;> simp [issued, ih]

theorem completes_finished (spec : SanitizeDisksSpec) : Completes spec .finished [] := by
  refine ⟨0, fun rs _ => ?_⟩
  induction rs with
  | nil => exact ⟨rfl, rfl⟩
  | cons r rs ih => simpa [runTask, taskStep, issued] using ih

/-- A step whose target and issued commands do not depend on the answer. -/
theorem completes_step (spec : SanitizeDisksSpec) (pc pc1 : TaskPC)
    (first cmds : List ShredCommand)
    (h : ∀ r, (taskStep spec pc r).1 = pc1 ∧ issued (taskStep spec pc r).2 = first)
    (hc : Completes spec pc1 cmds) : Completes spec pc (first ++ cmds) := by
  obtain ⟨n, hn⟩ := hc
  refine ⟨n + 1, fun rs hrs => ?_⟩
  cases rs with
  | nil => simp at hrs
  | cons r rs =>
    have hlen : n ≤ rs.length := by simpa using hrs
    obtain ⟨h1, h2⟩ := h r
    obtain ⟨h3, h4⟩ := hn rs hlen
    simp only [runTask, issued_append, h1, h2, h3, h4, and_self]

theorem completes_commands (spec : SanitizeDisksSpec) (device : String) (ds : List String)
    (rest : List ShredCommand) (hd : Completes spec (.devices ds) rest) :
    ∀ cs, Completes spec (.commands device cs ds) (cs ++ rest) := by
  intro cs
  induction cs with
  | nil =>
    exact completes_step spec _ (.devices ds) [] rest (fun r => ⟨rfl, rfl⟩) hd
  | cons c cs ih =>
    have h1 : Completes spec (.commandWait device c cs ds) ([] ++ (cs ++ rest)) :=
      completes_step spec _ (.commands device cs ds) [] _
        (fun r => ⟨rfl, by cases hf : r.failed <;> simp [taskStep, issued, hf]⟩) ih
    exact completes_step spec _ (.commandWait device c cs ds) [c] _
      (fun r => ⟨rfl, rfl⟩) h1

theorem completes_devices (spec : SanitizeDisksSpec) :
    ∀ ds, Completes spec (.devices ds) (regionCommands spec ds) := by
  intro ds
  induction ds with
  | nil =>
    exact completes_step spec _ .finished [] [] (fun r => ⟨rfl, rfl⟩) (completes_finished spec)
  | cons d ds ih =>
    by_cases hd : d = ""
    · have : regionCommands spec (d :: ds) = [] ++ regionCommands spec ds := by
        simp [regionCommands, hd]
      rw [this]
      exact completes_step spec _ (.devices ds) [] _
        (fun r => by simp [taskStep, hd, issued]) ih
    · have : regionCommands spec (d :: ds)
          = [] ++ (buildShredCommands spec d ++ regionCommands spec ds) := by
        simp [regionCommands, hd]
      rw [this]
      exact completes_step spec _ (.commands d (buildShredCommands spec d) ds) [] _
        (fun r => by simp [taskStep, hd, issued])
        (completes_commands spec d ds _ ih _)

theorem completes_sanitize (spec : SanitizeDisksSpec) (osdInfo : OSDInfo)
    (h : osdInfo.Encrypted = false) :
    Completes spec (.executeSanitizeCommand osdInfo)
      (regionCommands spec [osdInfo.BlockPath, osdInfo.MetadataPath, osdInfo.WalPath]) := by
  have := completes_step spec (.executeSanitizeCommand osdInfo)
    (.devices [osdInfo.BlockPath, osdInfo.MetadataPath, osdInfo.WalPath]) [] _
    (fun r => by simp [taskStep, h, issued]) (completes_devices spec _)
  simpa using this

/-- C5: a sanitize task on a unit that is not encrypted finishes whatever the
executor answers (every invocation may succeed or fail), and the command lines
it hands to the executor are exactly those of `buildShredCommands` for each
region path that is not empty, in the order data, metadata, log. -/
theorem sanitize_issues_region_commands (spec : SanitizeDisksSpec) (osdInfo : OSDInfo)
    (h : osdInfo.Encrypted = false) :
    Completes spec (.executeSanitizeCommand osdInfo)
      (regionCommands spec [osdInfo.BlockPath, osdInfo.MetadataPath, osdInfo.WalPath]) :=
  completes_sanitize spec osdInfo h

theorem sanitize_issues_region_commands_witness :
    Completes ⟨.complete, .zero, 3⟩
      (.executeSanitizeCommand { ID := 7, BlockPath := "/dev/sdb", WalPath := "/dev/sdc1" })
      [⟨"shred", ["--random-source=/dev/zero", "--force", "--verbose", "--iterations=3",
          "/dev/sdb"]⟩,
       ⟨"shred", ["--random-source=/dev/zero", "--force", "--verbose", "--iterations=3",
          "/dev/sdc1"]⟩] :=
  sanitize_issues_region_commands ⟨.complete, .zero, 3⟩
    { ID := 7, BlockPath := "/dev/sdb", WalPath := "/dev/sdc1" } rfl

theorem encrypted_completes (spec : SanitizeDisksSpec) (osdInfo : OSDInfo) (lookup : Resp)
    (h : osdInfo.Encrypted = true) :
    ∃ n, ∀ (r0 : Resp) (rest : List Resp), n ≤ rest.length →
      (runTask spec (r0 :: lookup :: rest) (.executeSanitizeCommand osdInfo)).1 = .finished ∧
      issued (runTask spec (r0 :: lookup :: rest) (.executeSanitizeCommand osdInfo)).2
        = regionCommands spec
            [erasedDataPath osdInfo lookup, osdInfo.MetadataPath, osdInfo.WalPath] := by
  cases hf : lookup.failed
  · have h1 : Completes spec (.removeWait osdInfo lookup.output) ([] ++ _) :=
      completes_step spec _ _ [] _
        (fun r => ⟨rfl, by cases hr : r.failed <;> simp [taskStep, issued, hr]⟩)
        (completes_devices spec [lookup.output, osdInfo.MetadataPath, osdInfo.WalPath])
    have h2 : Completes spec (.remove osdInfo lookup.output) ([] ++ _) :=
      completes_step spec _ _ [] _ (fun r => ⟨rfl, rfl⟩) h1
    obtain ⟨n, hn⟩ := h2
    refine ⟨n, fun r0 rest hlen => ?_⟩
    obtain ⟨h3, h4⟩ := hn rest hlen
    simp only [List.nil_append] at h4
    simp [runTask, taskStep, h, hf, h3, h4, issued_append, issued, erasedDataPath]
  · obtain ⟨n, hn⟩ :=
      completes_devices spec [osdInfo.BlockPath, osdInfo.MetadataPath, osdInfo.WalPath]
    refine ⟨n, fun r0 rest hlen => ?_⟩
    obtain ⟨h3, h4⟩ := hn rest hlen
    simp [runTask, taskStep, h, hf, h3, h4, issued_append, issued, erasedDataPath]

/-- C6: for an encrypted unit the data path that the task erases is decided by
the answer of the lookup of the backing device alone: the path of the unit
when the lookup fails, the backing path when it succeeds, whatever the removal
of the mapping answers; the metadata and log paths are erased unchanged. The
task finishes and hands to the executor exactly the commands of these paths. -/
theorem encrypted_data_path (spec : SanitizeDisksSpec) (osdInfo : OSDInfo) (lookup : Resp)
    (h : osdInfo.Encrypted = true) :
    ∃ n, ∀ (r0 : Resp) (rest : List Resp), n ≤ rest.length →
      (runTask spec (r0 :: lookup :: rest) (.executeSanitizeCommand osdInfo)).1 = .finished ∧
      issued (runTask spec (r0 :: lookup :: rest) (.executeSanitizeCommand osdInfo)).2
        = regionCommands spec
            [erasedDataPath osdInfo lookup, osdInfo.MetadataPath, osdInfo.WalPath] :=
  encrypted_completes spec osdInfo lookup h

theorem encrypted_data_path_witness :
    ∃ n, ∀ (r0 : Resp) (rest : List Resp), n ≤ rest.length →
      (runTask ⟨.quick, .zero, 1⟩ (r0 :: ⟨"", true⟩ :: rest)
        (.executeSanitizeCommand { ID := 3, BlockPath := "/dev/mapper/x", Encrypted := true })).1
          = .finished ∧
      issued (runTask ⟨.quick, .zero, 1⟩ (r0 :: ⟨"", true⟩ :: rest)
        (.executeSanitizeCommand { ID := 3, BlockPath := "/dev/mapper/x", Encrypted := true })).2
        = regionCommands ⟨.quick, .zero, 1⟩
            [erasedDataPath { ID := 3, BlockPath := "/dev/mapper/x", Encrypted := true }
              ⟨"", true⟩, "", ""] :=
  encrypted_data_path ⟨.quick, .zero, 1⟩
    { ID := 3, BlockPath := "/dev/mapper/x", Encrypted := true } ⟨"", true⟩ rfl

/-! ## Theorems: the orchestrator -/

theorem runFrom_inv (spec : SanitizeDisksSpec) (e : Entry) (P : State → Prop)
    (hstep : ∀ s m s1, P s → step spec e s m = some s1 → P s1) :
    ∀ sched s, P s → P (runFrom spec e s sched) := by
  intro sched
  induction sched with
  | nil => intro s hs; exact hs
  | cons m ms ih =>
    intro s hs
    simp only [runFrom]
    cases hm : step spec e s m with
    | none => simpa using ih s hs
    | some s1 => simpa using ih s1 (hstep s m s1 hs hm)

theorem getElem?_split {α : Type} (l : List α) (i : Nat) (t : α) (h : l[i]? = some t) :
    l = l.take i ++ t :: l.drop (i + 1) ∧ (l.take i).length = i ∧
      ∀ t1, l.set i t1 = l.take i ++ t1 :: l.drop (i + 1) := by
  obtain ⟨hi, ht⟩ := List.getElem?_eq_some.mp h
  refine ⟨?_, ?_, ?_⟩
  · rw [← ht, ← List.drop_eq_getElem_cons hi, List.take_append_drop]
  · simp [List.length_take]; omega
  · intro t1
    rw [List.set_eq_take_append_cons_drop, if_pos hi]

/-- What a step of a goroutine changes in the state. -/
theorem taskMove_some (spec : SanitizeDisksSpec) (s s1 : State) (i : Nat) (r : Resp)
    (h : taskMove spec s i r = some s1) :
    s.main ≠ .panicked ∧ ∃ t l1 l2, s.tasks = l1 ++ t :: l2 ∧ l1.length = i ∧
      t.pc ≠ .finished ∧ s1.main = s.main ∧
      s1.tasks = l1 ++ { t with pc := (taskStep spec t.pc r).1 } :: l2 ∧
      s1.wg = (if (taskStep spec t.pc r).1 = .finished
                then Function.update s.wg t.kind (s.wg t.kind - 1) else s.wg) ∧
      s1.trace = s.trace ++ (taskStep spec t.pc r).2.map (Event.mk (.task t.kind i)) ∧
      s.tasks[i]? = some t ∧
      s1.tasks = s.tasks.set i { t with pc := (taskStep spec t.pc r).1 } := by
  unfold taskMove at h
  split at h
  · cases h
  · rename_i hp
    split at h
    · cases h
    · rename_i t ht
      split at h
      · cases h
      · rename_i hfin
        obtain ⟨h1, h2, h3⟩ := getElem?_split s.tasks i t ht
        refine ⟨hp, t, s.tasks.take i, s.tasks.drop (i + 1), h1, h2, hfin, ?_⟩
        cases h
        exact ⟨rfl, h3 _, rfl, rfl, ht, rfl⟩

theorem unfinished_append (k : Kind) (l1 l2 : List Task) :
    unfinished k (l1 ++ l2) = unfinished k l1 + unfinished k l2 := by
  simp [unfinished, List.countP_append]

theorem unfinished_cons (k : Kind) (t : Task) (l : List Task) :
    unfinished k (t :: l)
      = unfinished k l + (if t.kind = k ∧ t.pc ≠ .finished then 1 else 0) := by
  by_cases h : t.kind = k ∧ t.pc ≠ .finished
  · rw [if_pos h]
    exact List.countP_cons_of_pos _ _ (by simpa using h)
  · rw [if_neg h]
    exact List.countP_cons_of_neg _ _ (by simpa using h)

theorem unfinished_nil (k : Kind) : unfinished k [] = 0 := rfl

theorem finished_of_unfinished_zero (k : Kind) (tasks : List Task)
    (h : unfinished k tasks = 0) : ∀ t ∈ tasks, t.kind = k → t.pc = .finished := by
  intro t ht hk
  have := (List.countP_eq_zero.mp h) t ht
  simpa [hk] using this

theorem countInv_init (e : Entry) : CountInv (init e) := by
  constructor
  · intro k
    cases e <;> simp [init, unfinished, pendingAdd, Entry.pc]
  · intro t ht
    simp [init] at ht

theorem countInv_taskMove (spec : SanitizeDisksSpec) (s s1 : State) (i : Nat) (r : Resp)
    (hinv : CountInv s) (h : taskMove spec s i r = some s1) : CountInv s1 := by
  obtain ⟨_, t, l1, l2, ht, _, hfin, hmain, htasks, hwg, _, _, _⟩ :=
    taskMove_some spec s s1 i r h
  have hc := hinv.count
  have hp := hinv.phase
  rw [ht] at hc hp
  constructor
  · intro k
    have hck := hc k
    have hct := hc t.kind
    rw [hwg, htasks, hmain]
    simp only [unfinished_append, unfinished_cons] at hck hct ⊢
    by_cases hf : (taskStep spec t.pc r).1 = .finished
    · simp only [hf, if_true]
      by_cases hk : t.kind = k
      · subst hk
        simp [hfin] at hck ⊢
        omega
      · have hk2 : k ≠ t.kind := fun h => hk h.symm
        simp [hk, Function.update_noteq hk2] at hck ⊢
        omega
    · simp only [hf, if_false]
      by_cases hk : t.kind = k
      · subst hk
        simp [hfin, hf] at hck ⊢
        omega
      · simp [hk] at hck ⊢
        omega
  · intro t1 ht1 hne
    rw [hmain]
    rw [htasks] at ht1
    simp only [List.mem_append, List.mem_cons] at ht1
    rcases ht1 with h1 | h1 | h1
    · exact hp t1 (by simp [h1]) hne
    · subst h1
      exact hp t (by simp) hfin
    · exact hp t1 (by simp [h1]) hne

theorem no_unfinished (s : State) (hinv : CountInv s)
    (hwait : ∀ k, kindPhase k = mainPhase s.main → s.wg k = 0) :
    ∀ t ∈ s.tasks, t.pc = .finished := by
  intro t ht
  by_contra hne
  have h1 := hinv.phase t ht hne
  have h2 := hwait t.kind h1
  have h3 := hinv.count t.kind
  rw [h2] at h3
  have h4 : unfinished t.kind s.tasks = 0 := by omega
  exact hne (finished_of_unfinished_zero _ _ h4 t ht rfl)

/-- What a step of the main thread changes in the state. -/
theorem mainStep_some (e : Entry) (s s1 : State) (r : Resp)
    (h : mainStep e s r = some s1) :
    ∃ pc pc1 wg1 newTasks acts, s.main = pc ∧ s1.main = pc1 ∧ s1.wg = wg1 ∧
      s1.tasks = s.tasks ++ newTasks ∧
      s1.trace = s.trace ++ acts.map (Event.mk .main) ∧
      MainTrans e r s.wg pc pc1 wg1 newTasks acts := by
  unfold mainStep at h
  split at h
  all_goals (try split at h)
  all_goals (first | (cases h; done) | skip)
  all_goals (simp only [Option.some.injEq] at h; subst h)
  all_goals (rename_i hm)
  all_goals first
    | exact ⟨_, _, _, _, _, by assumption, rfl, rfl, by simp [State.emit, State.spawn],
        by simp [State.emit, State.spawn], .startFail _ rfl⟩
    | exact ⟨_, _, _, _, _, by assumption, rfl, rfl, by simp [State.emit, State.spawn],
        by simp [State.emit, State.spawn], .startOk _ _ rfl⟩
    | exact ⟨_, _, _, _, _, by assumption, rfl, rfl, by simp [State.emit, State.spawn],
        by simp [State.emit, State.spawn], .lvmEnd _⟩
    | exact ⟨_, _, _, _, _, by assumption, rfl, rfl, by simp [State.emit, State.spawn],
        by simp [State.emit, State.spawn], .lvsCall _ _ _⟩
    | exact ⟨_, _, _, _, _, by assumption, rfl, rfl, by simp [State.emit, State.spawn],
        by simp [State.emit, State.spawn], .lvsPanic _ _ _ hm⟩
    | exact ⟨_, _, _, _, _, by assumption, rfl, rfl, by simp [State.emit, State.spawn],
        by simp [State.emit, State.spawn], .lvsGo _ _ _ _ hm⟩
    | exact ⟨_, _, _, _, _, by assumption, rfl, rfl, by simp [State.emit, State.spawn],
        by simp [State.emit, State.spawn], .lvmWait _ hm⟩
    | exact ⟨_, _, _, _, _, by assumption, rfl, rfl, by simp [State.emit, State.spawn],
        by simp [State.emit, State.spawn], .pvEnd⟩
    | exact ⟨_, _, _, _, _, by assumption, rfl, rfl, by simp [State.emit, State.spawn],
        by simp [State.emit, State.spawn], .pvGo _ _⟩
    | (cases e <;> first
        | exact ⟨_, _, _, _, _, by assumption, rfl, rfl, by simp [State.emit, State.spawn],
            by simp [State.emit, State.spawn], .pvWaitOn hm rfl⟩
        | exact ⟨_, _, _, _, _, by assumption, rfl, rfl, by simp [State.emit, State.spawn],
            by simp [State.emit, State.spawn], .pvWaitBack hm rfl⟩)
    | exact ⟨_, _, _, _, _, by assumption, rfl, rfl, by simp [State.emit, State.spawn],
        by simp [State.emit, State.spawn], .rawFail _ rfl⟩
    | exact ⟨_, _, _, _, _, by assumption, rfl, rfl, by simp [State.emit, State.spawn],
        by simp [State.emit, State.spawn], .rawOk _ _ rfl⟩
    | exact ⟨_, _, _, _, _, by assumption, rfl, rfl, by simp [State.emit, State.spawn],
        by simp [State.emit, State.spawn], .rawEnd⟩
    | exact ⟨_, _, _, _, _, by assumption, rfl, rfl, by simp [State.emit, State.spawn],
        by simp [State.emit, State.spawn], .rawGo _ _⟩
    | exact ⟨_, _, _, _, _, by assumption, rfl, rfl, by simp [State.emit, State.spawn],
        by simp [State.emit, State.spawn], .rawWait hm⟩

theorem countInv_mainStep (e : Entry) (s s1 : State) (r : Resp)
    (hinv : CountInv s) (h : mainStep e s r = some s1) : CountInv s1 := by
  have hfin := no_unfinished s hinv
  obtain ⟨hc, hp⟩ := hinv
  obtain ⟨pc, pc1, wg1, newTasks, acts, hpc, hpc1, hwg1, htasks, htr, htrans⟩ :=
    mainStep_some e s s1 r h
  rw [hpc] at hc hp hfin
  have hd := hc .destroy
  have hv := hc .pvWipe
  have hw := hc .rawWipe
  constructor
  · intro k
    rw [hpc1, hwg1, htasks]
    cases htrans <;> cases k <;>
      simp_all [pendingAdd, unfinished_append, unfinished_cons, unfinished_nil,
        Function.update]
  · intro t ht hne
    rw [hpc1]
    rw [htasks] at ht
    cases htrans
    all_goals simp only [List.append_nil, List.mem_append, List.mem_singleton] at ht
    case startFail | startOk | rawFail | rawOk =>
      exact absurd (hfin (by intro k; cases k <;> simp [kindPhase, mainPhase]) t ht) hne
    case lvmWait | rawWait | pvWaitOn | pvWaitBack =>
      exact absurd
        (hfin (by
          intro k hk
          cases k <;> first | assumption | simp [kindPhase, mainPhase] at hk) t ht) hne
    case lvmEnd | lvsCall | lvsPanic | pvEnd | rawEnd =>
      simpa [mainPhase] using hp t ht hne
    all_goals
      rcases ht with ht | ht
      · simpa [mainPhase] using hp t ht hne
      · subst ht; rfl

theorem countInv_step (spec : SanitizeDisksSpec) (e : Entry) (s : State) (m : Move)
    (s1 : State) (hinv : CountInv s) (h : step spec e s m = some s1) : CountInv s1 := by
  unfold step at h
  split at h
  · exact countInv_mainStep e s s1 _ hinv h
  · exact countInv_taskMove spec s s1 _ _ hinv h

theorem countInv_run (spec : SanitizeDisksSpec) (e : Entry) (sched : List Move) :
    CountInv (run spec e sched) :=
  runFrom_inv spec e CountInv (countInv_step spec e) sched _ (countInv_init e)

/-- A property of the events that precede an event of a given sort is kept when
events are added at the end, provided the added events are not of that sort,
or there is a single one and the property holds of the whole trace. -/
theorem before_append (P : Event → Prop) (Q : Event → List Event → Prop)
    (tr evs : List Event)
    (h : ∀ pre x post, tr = pre ++ x :: post → P x → Q x pre)
    (hnew : (∀ x ∈ evs, ¬ P x) ∨ (∃ x, evs = [x] ∧ (P x → Q x tr))) :
    ∀ pre x post, tr ++ evs = pre ++ x :: post → P x → Q x pre := by
  intro pre x post heq hP
  rcases List.append_eq_append_iff.mp heq with ⟨a, hpre, hevs⟩ | ⟨c, htr, hx⟩
  · have hmem : x ∈ evs := by rw [hevs]; simp
    rcases hnew with hno | ⟨y, hy, hQ⟩
    · exact absurd hP (hno x hmem)
    · rw [hy] at hevs
      cases a with
      | nil =>
        simp only [List.nil_append, List.cons.injEq] at hevs
        obtain ⟨rfl, _⟩ := hevs
        simpa [hpre] using hQ hP
      | cons z zs =>
        simp only [List.cons_append, List.cons.injEq] at hevs
        have := hevs.2
        simp at this
  · cases c with
    | nil =>
      simp only [List.nil_append] at hx
      have hmem : x ∈ evs := by rw [← hx]; simp
      rcases hnew with hno | ⟨y, hy, hQ⟩
      · exact absurd hP (hno x hmem)
      · rw [hy] at hx
        simp only [List.cons.injEq] at hx
        obtain ⟨rfl, _⟩ := hx
        simpa [htr] using hQ hP
    | cons z zs =>
      simp only [List.cons_append, List.cons.injEq] at hx
      obtain ⟨rfl, _⟩ := hx
      exact h pre x zs htr hP

/-- A step of a goroutine either hands one command to the executor and does
nothing else that is observed, or hands none. -/
theorem taskStep_call_shape (spec : SanitizeDisksSpec) (pc : TaskPC) (r : Resp) :
    (∃ c, (taskStep spec pc r).2 = [.call c]) ∨
      (∀ a ∈ (taskStep spec pc r).2, a.isCall = false) := by
  cases pc with
  | wipeLVM id => exact Or.inl ⟨_, rfl⟩
  | commands d cs ds =>
    cases cs with
    | nil => right; simp [taskStep]
    | cons c cs => exact Or.inl ⟨_, rfl⟩
  | devices ds =>
    right
    cases ds with
    | nil => simp [taskStep]
    | cons d ds => by_cases hd : d = "" <;> simp [taskStep, hd]
  | executeSanitizeCommand o =>
    right
    cases he : o.Encrypted <;> simp [taskStep, he, Act.isCall]
  | _ =>
    right
    cases hf : r.failed <;> simp [taskStep, hf, Act.isCall]

theorem kindPhase_eq (k : Kind) (i : Nat) : kindPhase k = 2 * codeOrder (.task k i) := by
  cases k <;> rfl

/-- The order invariant is kept when one thread adds events, provided the main
thread does not go back and the thread belongs to the phase of the main
thread when one of the events is a command. -/
theorem orderInv_append (s s1 : State) (w : Who) (acts : List Act) (hinv : OrderInv s)
    (hmain : mainPhase s.main ≤ mainPhase s1.main)
    (htr : s1.trace = s.trace ++ acts.map (Event.mk w))
    (hcmd : (∃ a ∈ acts, a.isCmd = true) → 2 * codeOrder w = mainPhase s.main) :
    OrderInv s1 := by
  obtain ⟨hb, hs⟩ := hinv
  constructor
  · intro x hx hc
    rw [htr] at hx
    rcases List.mem_append.mp hx with h1 | h1
    · exact le_trans (hb x h1 hc) hmain
    · obtain ⟨a, ha, rfl⟩ := List.mem_map.mp h1
      have := hcmd ⟨a, ha, hc⟩
      simp only at this ⊢
      omega
  · rw [htr, List.pairwise_append]
    refine ⟨hs, ?_, ?_⟩
    · rw [List.pairwise_map]
      exact List.pairwise_of_forall (fun a b _ _ => le_refl _)
    · intro a ha b hb1 hca hcb
      obtain ⟨b1, hb2, rfl⟩ := List.mem_map.mp hb1
      have h1 := hcmd ⟨b1, hb2, hcb⟩
      have h2 := hb a ha hca
      simp only at h1 ⊢
      omega

theorem mainTrans_phase (e : Entry) (r : Resp) (wg wg1 : Kind → Nat) (pc pc1 : MainPC)
    (newTasks : List Task) (acts : List Act)
    (h : MainTrans e r wg pc pc1 wg1 newTasks acts) :
    mainPhase pc ≤ mainPhase pc1 ∧ ((∃ a ∈ acts, a.isCmd = true) → mainPhase pc = 2) := by
  cases h <;> simp [mainPhase, Act.isCmd]

theorem orderInv_init (e : Entry) : OrderInv (init e) := by
  constructor
  · intro x hx
    simp [init] at hx
  · simp [init]

theorem orderInv_step (spec : SanitizeDisksSpec) (e : Entry) (s : State) (m : Move)
    (s1 : State) (hc : CountInv s) (hinv : OrderInv s) (h : step spec e s m = some s1) :
    OrderInv s1 := by
  unfold step at h
  split at h
  · obtain ⟨pc, pc1, wg1, newTasks, acts, hpc, hpc1, _, _, htr, htrans⟩ :=
      mainStep_some e s s1 _ h
    obtain ⟨h1, h2⟩ := mainTrans_phase e _ _ _ _ _ _ _ htrans
    refine orderInv_append s s1 .main acts hinv (by rw [hpc, hpc1]; exact h1) htr ?_
    intro ha
    rw [hpc, h2 ha]
    rfl
  · rename_i i _
    obtain ⟨_, t, l1, l2, ht, _, hfin, hmain, _, _, htr, _, _⟩ :=
      taskMove_some spec s s1 i _ h
    refine orderInv_append s s1 (.task t.kind i) _ hinv (by rw [hmain]) htr ?_
    intro _
    rw [← kindPhase_eq]
    exact hc.phase t (by rw [ht]; simp) hfin

theorem calls_append_by (w w0 : Who) (c : ShredCommand) (tr : List Event) (acts : List Act) :
    calls w c (tr ++ acts.map (Event.mk w0))
      = calls w c tr + (if w0 = w then acts.countP (fun a => decide (a = .call c)) else 0) := by
  unfold calls
  rw [List.countP_append, List.countP_map]
  by_cases h : w0 = w
  · subst h
    simp [Function.comp_def]
  · simp [Function.comp_def, h]

theorem rets_append_by (w w0 : Who) (c : ShredCommand) (tr : List Event) (acts : List Act) :
    rets w c (tr ++ acts.map (Event.mk w0))
      = rets w c tr + (if w0 = w then acts.countP (fun a => a.isRetOf c) else 0) := by
  unfold rets
  rw [List.countP_append, List.countP_map]
  by_cases h : w0 = w
  · subst h
    simp [Function.comp_def]
  · simp [Function.comp_def, h]

/-- The commands issued and returned in a step of a goroutine account for the
change of the command it is waiting for. -/
theorem taskStep_balance (spec : SanitizeDisksSpec) (pc : TaskPC) (r : Resp)
    (c : ShredCommand) :
    (taskStep spec pc r).2.countP (fun a => decide (a = .call c))
        + (if pc.waitingOn = some c then 1 else 0)
      = (taskStep spec pc r).2.countP (fun a => a.isRetOf c)
        + (if (taskStep spec pc r).1.waitingOn = some c then 1 else 0) := by
  cases pc with
  | wipeLVM id =>
    by_cases h : wipeLVMCommand id = c <;>
      simp [taskStep, TaskPC.waitingOn, Act.isRetOf, h, List.countP_cons]
  | wipeLVMWait id =>
    by_cases h : wipeLVMCommand id = c <;> cases hf : r.failed <;>
      simp [taskStep, TaskPC.waitingOn, Act.isRetOf, h, hf, List.countP_cons]
  | executeSanitizeCommand o =>
    cases he : o.Encrypted <;>
      simp [taskStep, TaskPC.waitingOn, Act.isRetOf, he, List.countP_cons]
  | backingWait o =>
    cases hf : r.failed <;>
      simp [taskStep, TaskPC.waitingOn, Act.isRetOf, hf, List.countP_cons]
  | remove o p => simp [taskStep, TaskPC.waitingOn, Act.isRetOf, List.countP_cons]
  | removeWait o p =>
    cases hf : r.failed <;>
      simp [taskStep, TaskPC.waitingOn, Act.isRetOf, hf, List.countP_cons]
  | devices ds =>
    cases ds with
    | nil => simp [taskStep, TaskPC.waitingOn]
    | cons d ds => by_cases hd : d = "" <;> simp [taskStep, TaskPC.waitingOn, hd]
  | commands d cs ds =>
    cases cs with
    | nil => simp [taskStep, TaskPC.waitingOn]
    | cons c1 cs =>
      by_cases h : c1 = c <;>
        simp [taskStep, TaskPC.waitingOn, Act.isRetOf, h, List.countP_cons]
  | commandWait d c1 cs ds =>
    by_cases h : c1 = c <;> cases hf : r.failed <;>
      simp [taskStep, TaskPC.waitingOn, Act.isRetOf, h, hf, List.countP_cons]
  | finished => simp [taskStep, TaskPC.waitingOn]

theorem mainTrans_balance (e : Entry) (r : Resp) (wg wg1 : Kind → Nat) (pc pc1 : MainPC)
    (newTasks : List Task) (acts : List Act)
    (h : MainTrans e r wg pc pc1 wg1 newTasks acts) (c : ShredCommand) :
    acts.countP (fun a => decide (a = .call c)) + (if pc.waitingOn = some c then 1 else 0)
      = acts.countP (fun a => a.isRetOf c) + (if pc1.waitingOn = some c then 1 else 0) := by
  cases h
  case lvsCall osd rest pvs =>
    by_cases hc : lvsCommand osd.BlockPath = c <;>
      simp [MainPC.waitingOn, Act.isRetOf, hc, List.countP_cons]
  case lvsPanic osd rest pvs _ =>
    by_cases hc : lvsCommand osd.BlockPath = c <;>
      simp [MainPC.waitingOn, Act.isRetOf, hc, List.countP_cons]
  case lvsGo osd rest pvs pv _ =>
    by_cases hc : lvsCommand osd.BlockPath = c <;>
      simp [MainPC.waitingOn, Act.isRetOf, hc, List.countP_cons]
  all_goals simp [MainPC.waitingOn, Act.isRetOf, List.countP_cons]

theorem mainTrans_newTasks (e : Entry) (r : Resp) (wg wg1 : Kind → Nat) (pc pc1 : MainPC)
    (newTasks : List Task) (acts : List Act)
    (h : MainTrans e r wg pc pc1 wg1 newTasks acts) :
    newTasks = [] ∨ ∃ t, newTasks = [t] ∧ t.pc.waitingOn = none ∧ t.pc ≠ .finished := by
  cases h <;> simp [TaskPC.waitingOn]

theorem balanceInv_init (e : Entry) : BalanceInv (init e) := by
  intro w c
  cases w <;> cases e <;> simp [init, calls, rets, waiting, Entry.pc, MainPC.waitingOn]

theorem balanceInv_step (spec : SanitizeDisksSpec) (e : Entry) (s : State) (m : Move)
    (s1 : State) (hinv : BalanceInv s) (h : step spec e s m = some s1) :
    BalanceInv s1 := by
  unfold step at h
  split at h
  · obtain ⟨pc, pc1, wg1, newTasks, acts, hpc, hpc1, _, htasks, htr, htrans⟩ :=
      mainStep_some e s s1 _ h
    intro w c
    have hb := hinv w c
    rw [htr, calls_append_by, rets_append_by]
    cases w with
    | main =>
      have := mainTrans_balance e _ _ _ _ _ _ _ htrans c
      simp only [waiting, hpc, hpc1, if_true] at hb ⊢
      omega
    | task k j =>
      have hw : waiting s1 (.task k j) c = waiting s (.task k j) c := by
        simp only [waiting, htasks]
        rcases mainTrans_newTasks e _ _ _ _ _ _ _ htrans with hn | ⟨t, hn, ht, _⟩
        · simp [hn]
        · rw [hn]
          by_cases hj : j < s.tasks.length
          · rw [List.getElem?_append_left hj]
          · have hj2 : s.tasks.length ≤ j := by omega
            rw [List.getElem?_append_right hj2, List.getElem?_eq_none hj2]
            cases hx : [t][j - s.tasks.length]? with
            | none => rfl
            | some t1 =>
              have : t1 ∈ [t] := List.getElem?_mem hx
              simp only [List.mem_singleton] at this
              subst this
              simp [ht]
      rw [hw]
      simpa using hb
  · rename_i i _
    obtain ⟨_, t, l1, l2, ht, _, hfin, hmain, _, _, htr, hget, hset⟩ :=
      taskMove_some spec s s1 i _ h
    intro w c
    have hb := hinv w c
    rw [htr, calls_append_by, rets_append_by]
    cases w with
    | main =>
      simp only [waiting, hmain] at hb ⊢
      simpa using hb
    | task k j =>
      by_cases hji : i = j
      · subst hji
        have hlen : i < s.tasks.length := (List.getElem?_eq_some.mp hget).1
        by_cases hk : t.kind = k
        · subst hk
          have := taskStep_balance spec t.pc m.resp c
          simp only [waiting, hset, hget, List.getElem?_set_self hlen, true_and, if_true]
            at hb ⊢
          omega
        · have hne : Who.task t.kind i ≠ Who.task k i := by
            intro hh
            cases hh
            exact hk rfl
          simp only [waiting, hset, hget, List.getElem?_set_self hlen, hk, false_and,
            if_false, hne] at hb ⊢
          omega
      · have hne : Who.task t.kind i ≠ Who.task k j := by
          intro hh
          cases hh
          exact hji rfl
        simp only [waiting, hset, List.getElem?_set_ne hji, hne, if_false] at hb ⊢
        omega

theorem mainTrans_call_shape (e : Entry) (r : Resp) (wg wg1 : Kind → Nat) (pc pc1 : MainPC)
    (newTasks : List Task) (acts : List Act)
    (h : MainTrans e r wg pc pc1 wg1 newTasks acts) :
    (∃ c, acts = [.call c]) ∨ (∀ a ∈ acts, a.isCall = false) := by
  cases h
  case lvsCall => exact Or.inl ⟨_, rfl⟩
  all_goals right; simp [Act.isCall]

theorem codeOrder_pos (w : Who) : 1 ≤ codeOrder w := by
  cases w with
  | main => simp [codeOrder]
  | task k i => cases k <;> simp [codeOrder]

theorem waitingOn_unfinished (pc : TaskPC) (c : ShredCommand)
    (h : pc.waitingOn = some c) : pc ≠ .finished := by
  intro hf
  subst hf
  simp [TaskPC.waitingOn] at h

theorem mainWaiting_phase (pc : MainPC) (c : ShredCommand)
    (h : pc.waitingOn = some c) : mainPhase pc = 2 := by
  cases pc <;> first | rfl | simp [MainPC.waitingOn] at h

theorem settled_step (spec : SanitizeDisksSpec) (e : Entry) (s : State) (m : Move)
    (s1 : State) (hc : CountInv s) (hb : BalanceInv s) (hinv : Settled s.trace)
    (h : step spec e s m = some s1) : Settled s1.trace := by
  unfold step at h
  split at h
  · obtain ⟨pc, pc1, wg1, newTasks, acts, _, _, _, _, htr, htrans⟩ :=
      mainStep_some e s s1 _ h
    rw [htr]
    refine before_append (fun x => x.act.isCall = true)
      (fun x pre => ∀ w c, codeOrder w < codeOrder x.who → calls w c pre = rets w c pre)
      _ _ hinv ?_
    rcases mainTrans_call_shape e _ _ _ _ _ _ _ htrans with ⟨c, hc1⟩ | hno
    · right
      refine ⟨⟨.main, .call c⟩, by simp [hc1], ?_⟩
      intro _ w c1 hlt
      have := codeOrder_pos w
      have hlt2 : codeOrder w < 1 := hlt
      omega
    · left
      intro x hx
      obtain ⟨a, ha, rfl⟩ := List.mem_map.mp hx
      simp [hno a ha]
  · rename_i i _
    obtain ⟨_, t, l1, l2, ht, _, hfin, hmain, _, _, htr, hget, _⟩ :=
      taskMove_some spec s s1 i _ h
    rw [htr]
    refine before_append (fun x => x.act.isCall = true)
      (fun x pre => ∀ w c, codeOrder w < codeOrder x.who → calls w c pre = rets w c pre)
      _ _ hinv ?_
    have hph : kindPhase t.kind = mainPhase s.main := hc.phase t (by rw [ht]; simp) hfin
    rcases taskStep_call_shape spec t.pc m.resp with ⟨c, hc1⟩ | hno
    · right
      refine ⟨⟨.task t.kind i, .call c⟩, by simp [hc1], ?_⟩
      intro _ w c1 hlt
      have hbal := hb w c1
      have hw : waiting s w c1 = 0 := by
        cases w with
        | main =>
          simp only [waiting]
          by_cases hwt : s.main.waitingOn = some c1
          · have h2 := mainWaiting_phase _ _ hwt
            rw [kindPhase_eq t.kind i, h2] at hph
            have hlt2 : 1 < codeOrder (.task t.kind i) := hlt
            omega
          · simp [hwt]
        | task k j =>
          simp only [waiting]
          cases hj : s.tasks[j]? with
          | none => rfl
          | some t2 =>
            by_cases hwt : t2.kind = k ∧ t2.pc.waitingOn = some c1
            · obtain ⟨hk, hw2⟩ := hwt
              have h3 := hc.phase t2 (List.getElem?_mem hj) (waitingOn_unfinished _ _ hw2)
              rw [kindPhase_eq t.kind i] at hph
              rw [kindPhase_eq t2.kind j, hk] at h3
              have hlt2 : codeOrder (.task k j) < codeOrder (.task t.kind i) := hlt
              omega
            · simp [hwt]
      rw [hw] at hbal
      simpa using hbal
    · left
      intro x hx
      obtain ⟨a, ha, rfl⟩ := List.mem_map.mp hx
      simp [hno a ha]

/-- The invariants of the process that the order of the phases rests on. -/
theorem phase_invariants (spec : SanitizeDisksSpec) (e : Entry) (sched : List Move) :
    CountInv (run spec e sched) ∧ OrderInv (run spec e sched) ∧
      BalanceInv (run spec e sched) ∧ Settled (run spec e sched).trace := by
  refine runFrom_inv spec e
    (fun s => CountInv s ∧ OrderInv s ∧ BalanceInv s ∧ Settled s.trace) ?_ sched _ ?_
  · intro s m s1 ⟨h1, h2, h3, h4⟩ hstep
    exact ⟨countInv_step spec e s m s1 h1 hstep, orderInv_step spec e s m s1 h1 h2 hstep,
      balanceInv_step spec e s m s1 h3 hstep, settled_step spec e s m s1 h1 h3 h4 hstep⟩
  · refine ⟨countInv_init e, orderInv_init e, balanceInv_init e, ?_⟩
    intro pre x post hx
    simp [init] at hx

/-- The phases of a trace follow the order in which the code runs them. -/
theorem phasesInOrder_run (spec : SanitizeDisksSpec) (e : Entry) (sched : List Move) :
    PhasesInOrder codeOrder (run spec e sched).trace := by
  obtain ⟨_, ho, _, hs⟩ := phase_invariants spec e sched
  intro pre x post htr hx
  refine ⟨?_, hs pre x post htr hx⟩
  intro y hy hcy
  have hsorted := ho.sorted
  rw [htr, List.pairwise_append] at hsorted
  have h2 := hsorted.2.1
  rw [List.pairwise_cons] at h2
  refine h2.1 y hy ?_ hcy
  cases hxa : x.act <;> simp [hxa, Act.isCall] at hx
  simp [Act.isCmd]

/-- C9, as stated, fails: in the run of `fullSchedule`, in which both
discoveries succeed, the first event is the lookup `lvs` of the
logical-volume-backed unit and a command of the raw unit is issued after it,
so the phases do not follow the order raw, LVM Phase 1, LVM Phase 2. -/
theorem stated_order_counterexample :
    (run quickSpec bothEntry fullSchedule).main = .done ∧
    (run quickSpec bothEntry fullSchedule).trace.head?
        = some ⟨.main, .call (lvsCommand "/dev/vg/lv1")⟩ ∧
    ⟨.task .rawWipe 2, .call ⟨"ceph-volume", ["lvm", "zap", "/dev/sdb"]⟩⟩
        ∈ (run quickSpec bothEntry fullSchedule).trace.tail ∧
    ¬ PhasesInOrder statedOrder (run quickSpec bothEntry fullSchedule).trace := by
  have h1 : (run quickSpec bothEntry fullSchedule).main = .done := by decide
  have h2 : (run quickSpec bothEntry fullSchedule).trace.head?
      = some ⟨.main, .call (lvsCommand "/dev/vg/lv1")⟩ := by decide
  have h3 : (⟨.task .rawWipe 2, .call ⟨"ceph-volume", ["lvm", "zap", "/dev/sdb"]⟩⟩ : Event)
      ∈ (run quickSpec bothEntry fullSchedule).trace.tail := by decide
  refine ⟨h1, h2, h3, ?_⟩
  intro h
  have heq : (run quickSpec bothEntry fullSchedule).trace
      = [] ++ ⟨.main, .call (lvsCommand "/dev/vg/lv1")⟩
          :: (run quickSpec bothEntry fullSchedule).trace.tail := by
    cases htr : (run quickSpec bothEntry fullSchedule).trace with
    | nil => rw [htr] at h2; cases h2
    | cons a l =>
      rw [htr] at h2
      simp only [List.head?_cons, Option.some.injEq] at h2
      simp [h2]
  have := (h [] _ _ heq rfl).1 _ h3 rfl
  exact absurd this (by decide)

/-- C9, amended: in every run of `StartSanitizeDisks`, whatever the discoveries
answer, the phases follow the order LVM Phase 1 (lookups and destroy tasks),
LVM Phase 2 (residual wipes), raw units: when a command is handed to the
executor, every command of an earlier phase has been issued and has returned,
and no command of an earlier phase starts or ends afterwards. In particular
every command for a logical-volume-backed unit has returned before the first
command for a raw unit is issued. -/
theorem lvm_phases_before_raw (spec : SanitizeDisksSpec) (lvm raw : Option (List OSDInfo))
    (sched : List Move) :
    PhasesInOrder codeOrder (run spec (.StartSanitizeDisks lvm raw) sched).trace :=
  phasesInOrder_run spec _ sched

theorem lvm_phases_before_raw_witness :
    (∀ y ∈ (run quickSpec bothEntry fullSchedule).trace.drop 16, y.act.isCmd = true →
        codeOrder (.task .rawWipe 2) ≤ codeOrder y.who) ∧
    (∀ w c, codeOrder w < codeOrder (.task .rawWipe 2) →
        calls w c ((run quickSpec bothEntry fullSchedule).trace.take 15)
          = rets w c ((run quickSpec bothEntry fullSchedule).trace.take 15)) :=
  lvm_phases_before_raw quickSpec (some [lvmUnit]) (some [rawUnit]) fullSchedule
    ((run quickSpec bothEntry fullSchedule).trace.take 15)
    ⟨.task .rawWipe 2, .call ⟨"ceph-volume", ["lvm", "zap", "/dev/sdb"]⟩⟩
    ((run quickSpec bothEntry fullSchedule).trace.drop 16) (by decide) rfl

theorem destroyProgress_mono (tr evs : List Event) (k : Nat) (osd : OSDInfo) (pc : TaskPC)
    (h : DestroyProgress tr k osd pc) : DestroyProgress (tr ++ evs) k osd pc := by
  rcases h with h | ⟨h1, h2⟩ | ⟨h1, h2, r, h3⟩
  · exact Or.inl h
  · exact Or.inr (Or.inl ⟨h1, List.mem_append_left _ h2⟩)
  · exact Or.inr (Or.inr ⟨h1, List.mem_append_left _ h2, r, List.mem_append_left _ h3⟩)

theorem allDestroyed_of_phase (L : List OSDInfo) (s : State) (hc : CountInv s)
    (hd : DestroyInv L s) (hph : 4 ≤ mainPhase s.main) : AllDestroyed L s.trace := by
  intro k osd hk
  have hkL : k < L.length := (List.getElem?_eq_some.mp hk).1
  have hlen : L.length ≤ s.tasks.length := by
    have hpos := hd.position
    cases hm : s.main <;> rw [hm] at hpos hph <;> simp [lvmPosition, mainPhase] at hpos hph ⊢
    all_goals exact hpos
  have hkt : k < s.tasks.length := by omega
  have hget : s.tasks[k]? = some s.tasks[k] := List.getElem?_eq_getElem hkt
  have hkind := hd.kinds k _ hget hkL
  obtain ⟨osd1, ho, hp⟩ := hd.progress k _ hget hkind
  rw [hk] at ho
  cases ho
  have hmem : s.tasks[k] ∈ s.tasks := List.getElem_mem hkt
  rcases hp with h | ⟨h, _⟩ | ⟨_, h⟩
  · have := hc.phase _ hmem (by rw [h]; simp)
    rw [hkind] at this
    simp only [kindPhase] at this
    omega
  · have := hc.phase _ hmem (by rw [h]; simp)
    rw [hkind] at this
    simp only [kindPhase] at this
    omega
  · exact h

theorem destroyInv_init (e : Entry) : DestroyInv e.lvmList (init e) := by
  constructor
  · cases e with
    | StartSanitizeDisks lvm raw => simp [init, Entry.pc, lvmPosition]
    | SanitizeLVMDisk l => exact ⟨[], by simp [Entry.lvmList], by simp [init]⟩
    | SanitizeRawDisk l => simp [init, Entry.pc, lvmPosition, Entry.lvmList]
  · intro k t h
    simp [init] at h
  · intro k t h
    simp [init] at h
  · intro pre x post h
    simp [init] at h

theorem mainTrans_position (e : Entry) (L : List OSDInfo) (hL : e.lvmList = L) (r : Resp)
    (wg wg1 : Kind → Nat) (pc pc1 : MainPC) (newTasks : List Task) (acts : List Act)
    (n : Nat) (h : MainTrans e r wg pc pc1 wg1 newTasks acts) (hpos : lvmPosition L n pc) :
    lvmPosition L (n + newTasks.length) pc1 := by
  cases h with
  | startFail raw he =>
    subst he
    simp only [Entry.lvmList] at hL
    subst hL
    simp [lvmPosition]
  | startOk l raw he =>
    subst he
    simp only [Entry.lvmList] at hL
    subst hL
    exact ⟨[], by simp, by simpa [lvmPosition] using hpos⟩
  | lvmEnd pvs =>
    obtain ⟨v, h1, h2⟩ := hpos
    simp [lvmPosition, h1, h2]
  | lvsCall osd rest pvs =>
    obtain ⟨v, h1, h2⟩ := hpos
    exact ⟨v, h1, by simpa using h2⟩
  | lvsPanic osd rest pvs h0 => trivial
  | lvsGo osd rest pvs pv h0 =>
    obtain ⟨v, h1, h2⟩ := hpos
    exact ⟨v ++ [osd], by simp [h1], by simp [h2]⟩
  | lvmWait pvs hz =>
    simp only [lvmPosition] at hpos ⊢
    simp [hpos]
  | pvEnd => simpa [lvmPosition] using hpos
  | pvGo pv rest =>
    simp only [lvmPosition] at hpos ⊢
    simp only [List.length_singleton]
    omega
  | pvWaitOn hz he => simpa [lvmPosition] using hpos
  | pvWaitBack hz he => simpa [lvmPosition] using hpos
  | rawFail lvm he => simpa [lvmPosition] using hpos
  | rawOk lvm l he => simpa [lvmPosition] using hpos
  | rawEnd => simpa [lvmPosition] using hpos
  | rawGo osd rest =>
    simp only [lvmPosition] at hpos ⊢
    simp only [List.length_singleton]
    omega
  | rawWait hz => simpa [lvmPosition] using hpos

/-- The goroutine that a step of the main thread starts is the destroy task of
the next unit of the list while the list is not exhausted, and is not a
destroy task afterwards. -/
theorem mainTrans_spawn (e : Entry) (L : List OSDInfo) (r : Resp)
    (wg wg1 : Kind → Nat) (pc pc1 : MainPC) (newTasks : List Task) (acts : List Act)
    (n : Nat) (h : MainTrans e r wg pc pc1 wg1 newTasks acts) (hpos : lvmPosition L n pc) :
    ∀ t ∈ newTasks, (n < L.length → t.kind = .destroy) ∧
      (t.kind = .destroy → ∃ osd, L[n]? = some osd ∧ t.pc = .wipeLVM osd.ID) := by
  intro t ht
  cases h
  case lvsGo osd rest pvs pv h0 =>
    obtain ⟨v, h1, h2⟩ := hpos
    simp only [List.mem_singleton] at ht
    subst ht
    refine ⟨fun _ => rfl, fun _ => ⟨osd, ?_, rfl⟩⟩
    rw [h1, h2, List.getElem?_append_right (le_refl _)]
    simp
  case pvGo pv rest =>
    simp only [lvmPosition] at hpos
    simp only [List.mem_singleton] at ht
    subst ht
    exact ⟨fun hlt => by omega, fun hk => by cases hk⟩
  case rawGo osd rest =>
    simp only [lvmPosition] at hpos
    simp only [List.mem_singleton] at ht
    subst ht
    exact ⟨fun hlt => by omega, fun hk => by cases hk⟩
  all_goals simp at ht

theorem destroyInv_mainStep (e : Entry) (s s1 : State) (r : Resp)
    (hinv : DestroyInv e.lvmList s) (h : mainStep e s r = some s1) :
    DestroyInv e.lvmList s1 := by
  obtain ⟨pc, pc1, wg1, newTasks, acts, hpc, hpc1, _, htasks, htr, htrans⟩ :=
    mainStep_some e s s1 r h
  obtain ⟨hpos, hkinds, hprog, hbef⟩ := hinv
  rw [hpc] at hpos
  have hlen : s1.tasks.length = s.tasks.length + newTasks.length := by simp [htasks]
  have hnew := mainTrans_spawn e e.lvmList r _ _ _ _ _ _ _ htrans hpos
  have hlast : ∀ k t, s1.tasks[k]? = some t → ¬ k < s.tasks.length →
      k = s.tasks.length ∧ t ∈ newTasks := by
    intro k t hk hks
    rw [htasks, List.getElem?_append_right (by omega)] at hk
    have hmem := List.getElem?_mem hk
    have hlt := (List.getElem?_eq_some.mp hk).1
    rcases mainTrans_newTasks e _ _ _ _ _ _ _ htrans with hn | ⟨t1, hn, _⟩
    · rw [hn] at hmem; simp at hmem
    · rw [hn] at hlt
      simp only [List.length_singleton] at hlt
      exact ⟨by omega, hmem⟩
  constructor
  · rw [hpc1, hlen]
    exact mainTrans_position e _ rfl r _ _ _ _ _ _ _ htrans hpos
  · intro k t hk hkL
    by_cases hks : k < s.tasks.length
    · rw [htasks, List.getElem?_append_left hks] at hk
      exact hkinds k t hk hkL
    · obtain ⟨hk2, hmem⟩ := hlast k t hk hks
      subst hk2
      exact (hnew t hmem).1 hkL
  · intro k t hk hkd
    rw [htr]
    by_cases hks : k < s.tasks.length
    · rw [htasks, List.getElem?_append_left hks] at hk
      obtain ⟨osd, h1, h2⟩ := hprog k t hk hkd
      exact ⟨osd, h1, destroyProgress_mono _ _ _ _ _ h2⟩
    · obtain ⟨hk2, hmem⟩ := hlast k t hk hks
      subst hk2
      obtain ⟨osd, h1, h2⟩ := (hnew t hmem).2 hkd
      exact ⟨osd, h1, Or.inl h2⟩
  · rw [htr]
    refine before_append Event.isPvWipeCall (fun _ pre => AllDestroyed e.lvmList pre)
      _ _ hbef (Or.inl ?_)
    intro x hx
    obtain ⟨a, _, rfl⟩ := List.mem_map.mp hx
    rintro ⟨i, c, hh⟩
    cases hh

/-- A step of a destroy task moves it along its three program points and adds
the matching event to the trace. -/
theorem destroyProgress_step (spec : SanitizeDisksSpec) (tr : List Event) (i : Nat)
    (osd : OSDInfo) (pc : TaskPC) (r : Resp) (hfin : pc ≠ .finished)
    (h : DestroyProgress tr i osd pc) :
    DestroyProgress (tr ++ (taskStep spec pc r).2.map (Event.mk (.task .destroy i))) i osd
      (taskStep spec pc r).1 := by
  rcases h with h | ⟨h1, h2⟩ | ⟨h1, _⟩
  · subst h
    exact Or.inr (Or.inl ⟨rfl, by simp [taskStep]⟩)
  · subst h1
    refine Or.inr (Or.inr ⟨rfl, List.mem_append_left _ h2, r, ?_⟩)
    simp [taskStep]
  · exact absurd h1 hfin

theorem destroyInv_taskMove (spec : SanitizeDisksSpec) (L : List OSDInfo) (s s1 : State)
    (i : Nat) (r : Resp) (hc : CountInv s) (hinv : DestroyInv L s)
    (h : taskMove spec s i r = some s1) : DestroyInv L s1 := by
  obtain ⟨_, t, l1, l2, ht, _, hfin, hmain, _, _, htr, hget, hset⟩ :=
    taskMove_some spec s s1 i r h
  have hilen : i < s.tasks.length := (List.getElem?_eq_some.mp hget).1
  constructor
  · rw [hmain, hset, List.length_set]
    exact hinv.position
  · intro k t1 hk hkL
    rw [hset] at hk
    by_cases hki : i = k
    · subst hki
      rw [List.getElem?_set_self hilen] at hk
      cases hk
      exact hinv.kinds i t hget hkL
    · rw [List.getElem?_set_ne hki] at hk
      exact hinv.kinds k t1 hk hkL
  · intro k t1 hk hkd
    rw [hset] at hk
    rw [htr]
    by_cases hki : i = k
    · subst hki
      rw [List.getElem?_set_self hilen] at hk
      cases hk
      have hkd2 : t.kind = .destroy := hkd
      obtain ⟨osd, h1, h2⟩ := hinv.progress i t hget hkd2
      refine ⟨osd, h1, ?_⟩
      rw [hkd2]
      exact destroyProgress_step spec _ _ _ _ _ hfin h2
    · rw [List.getElem?_set_ne hki] at hk
      obtain ⟨osd, h1, h2⟩ := hinv.progress k t1 hk hkd
      exact ⟨osd, h1, destroyProgress_mono _ _ _ _ _ h2⟩
  · rw [htr]
    refine before_append Event.isPvWipeCall (fun _ pre => AllDestroyed L pre)
      _ _ hinv.before ?_
    rcases taskStep_call_shape spec t.pc r with ⟨c, hc1⟩ | hno
    · right
      refine ⟨⟨.task t.kind i, .call c⟩, by simp [hc1], ?_⟩
      rintro ⟨j, c1, hx⟩
      have hk : t.kind = .pvWipe := by
        simp only [Event.mk.injEq, Who.task.injEq] at hx
        exact hx.1.1
      have hph := hc.phase t (by rw [ht]; simp) hfin
      rw [hk] at hph
      exact allDestroyed_of_phase L s hc hinv (by rw [← hph]; decide)
    · left
      intro x hx
      obtain ⟨a, ha, rfl⟩ := List.mem_map.mp hx
      rintro ⟨j, c1, hh⟩
      simp only [Event.mk.injEq] at hh
      have := hno a ha
      rw [hh.2] at this
      simp [Act.isCall] at this

theorem destroyInv_run (spec : SanitizeDisksSpec) (e : Entry) (sched : List Move) :
    DestroyInv e.lvmList (run spec e sched) := by
  have := runFrom_inv spec e (fun s => CountInv s ∧ DestroyInv e.lvmList s) ?_ sched _
    ⟨countInv_init e, destroyInv_init e⟩
  · exact this.2
  · intro s m s1 ⟨h1, h2⟩ hstep
    refine ⟨countInv_step spec e s m s1 h1 hstep, ?_⟩
    unfold step at hstep
    split at hstep
    · exact destroyInv_mainStep e s s1 _ h2 hstep
    · exact destroyInv_taskMove spec _ s s1 _ _ h1 h2 hstep

/-- C7: in every execution of `SanitizeLVMDisk` on a list of units, whatever
the interleaving of the goroutines and whatever the executor answers, when a
residual wipe of a physical volume (Phase 2) hands a command to the executor,
the destroy command `ceph-volume lvm zap --osd-id <id> --destroy` of every
unit of the list has already been issued and has returned. -/
theorem destroy_before_residual_wipe (spec : SanitizeDisksSpec) (osdLVMList : List OSDInfo)
    (sched : List Move) (pre post : List Event) (x : Event)
    (htr : (run spec (.SanitizeLVMDisk osdLVMList) sched).trace = pre ++ x :: post)
    (hx : x.isPvWipeCall) :
    ∀ k osd, osdLVMList[k]? = some osd →
      (⟨.task .destroy k, .call (wipeLVMCommand osd.ID)⟩ : Event) ∈ pre ∧
      ∃ r, (⟨.task .destroy k, .ret (wipeLVMCommand osd.ID) r⟩ : Event) ∈ pre :=
  (destroyInv_run spec (.SanitizeLVMDisk osdLVMList) sched).before pre x post htr hx

theorem destroy_before_residual_wipe_witness :
    (⟨.task .destroy 0, .call (wipeLVMCommand lvmUnit.ID)⟩ : Event) ∈ lvmTraceBefore ∧
      ∃ r, (⟨.task .destroy 0, .ret (wipeLVMCommand lvmUnit.ID) r⟩ : Event) ∈ lvmTraceBefore :=
  destroy_before_residual_wipe quickSpec [lvmUnit] lvmSchedule lvmTraceBefore lvmTraceAfter
    ⟨.task .pvWipe 1, .call ⟨"ceph-volume", ["lvm", "zap", "/dev/sdx"]⟩⟩
    (by decide) ⟨1, _, rfl⟩ 0 lvmUnit rfl

theorem splitOnP_head (p : Char → Bool) (l : List Char) :
    (l.splitOnP p)[0]? = some (l.takeWhile (fun c => !p c)) := by
  induction l with
  | nil => simp [List.splitOnP_nil]
  | cons x xs ih =>
    rw [List.splitOnP_cons]
    by_cases hp : p x = true
    · simp [hp, List.takeWhile]
    · simp only [hp, if_false]
      cases hs : xs.splitOnP p with
      | nil => rw [hs] at ih; simp at ih
      | cons y ys =>
        rw [hs] at ih
        simp only [List.getElem?_cons_zero, Option.some.injEq] at ih
        simp [List.modifyHead, List.takeWhile, hp, ih]

/-- Element `[0]` of the result of `returnPVDevice` exists exactly when `lvs`
succeeds, and is then the first colon-separated field of its output. -/
theorem returnPVDevice_head (r : Resp) :
    (returnPVDevice r)[0]? = if r.failed then none else some (firstField r.output) := by
  cases hf : r.failed
  · simp only [returnPVDevice, hf, splitColon, Bool.false_eq_true, if_false]
    rw [List.getElem?_map, List.splitOn, splitOnP_head]
    have hfun : (fun c : Char => !(c == ':')) = (fun c => decide (c ≠ ':')) := by
      funext c
      cases h : (c == ':') <;> simp_all
    simp [firstField, hfun]
  · simp [returnPVDevice, hf]

theorem lookups_append_task (tr : List Event) (k : Kind) (i : Nat) (acts : List Act) :
    lookups (tr ++ acts.map (Event.mk (.task k i))) = lookups tr := by
  simp [lookups, List.filterMap_append, List.filterMap_map, Function.comp_def]

theorem sanitizeStarts_append_task (tr : List Event) (k : Kind) (i : Nat)
    (acts : List Act) :
    sanitizeStarts (tr ++ acts.map (Event.mk (.task k i))) = sanitizeStarts tr := by
  simp [sanitizeStarts, List.filterMap_append, List.filterMap_map, Function.comp_def]

theorem lookupInv_append_task (e : Entry) (L R : List OSDInfo) (tr : List Event) (k : Kind)
    (i : Nat) (acts : List Act) (pc : MainPC) (h : LookupInv e L R tr pc) :
    LookupInv e L R (tr ++ acts.map (Event.mk (.task k i))) pc := by
  cases pc <;>
    simp only [LookupInv, Looked, lookups_append_task, sanitizeStarts_append_task] at h ⊢ <;>
    exact h

theorem lookupInv_init (e : Entry) : LookupInv e e.lvmList e.rawList (init e).trace (init e).main := by
  cases e with
  | StartSanitizeDisks lvm raw => exact ⟨rfl, rfl⟩
  | SanitizeLVMDisk l =>
    exact ⟨trivial, [], by simp [Entry.lvmList], by simp [Looked, lookups, init],
      by simp [lookups, init], by simp [sanitizeStarts, init]⟩
  | SanitizeRawDisk l =>
    exact ⟨[], by simp [Entry.rawList], by simp [Looked, lookups, init, Entry.lvmList],
      by simp [lookups, sanitizeStarts, init]⟩

theorem lookupInv_mainStep (e : Entry) (s s1 : State) (r : Resp)
    (hinv : LookupInv e e.lvmList e.rawList s.trace s.main) (h : mainStep e s r = some s1) :
    LookupInv e e.lvmList e.rawList s1.trace s1.main := by
  obtain ⟨pc, pc1, wg1, newTasks, acts, hpc, hpc1, _, _, htr, htrans⟩ :=
    mainStep_some _ s s1 r h
  rw [hpc] at hinv
  rw [hpc1, htr]
  cases htrans with
  | startFail raw he =>
    subst he
    obtain ⟨h1, h2⟩ := hinv
    simp only [lookups] at h1
    simp only [sanitizeStarts] at h2
    refine ⟨⟨?_, ?_⟩, ?_⟩
    · simp [lookups, List.filterMap_append, h1, Entry.lvmList]
    · simp [lookups, List.filterMap_append, h1]
    · simp [lookups, sanitizeStarts, List.filterMap_append, h1, h2]
  | startOk l raw he =>
    subst he
    obtain ⟨h1, h2⟩ := hinv
    refine ⟨trivial, [], by simp [Entry.lvmList], ?_, ?_, ?_⟩
    · simp [Looked, h1]
    · simp [h1]
    · simpa using h2
  | rawFail lvm he =>
    subst he
    obtain ⟨h1, h2⟩ := hinv
    have h11 := h1
    simp only [Looked, lookups] at h11
    simp only [lookups, sanitizeStarts] at h2
    refine ⟨?_, ?_⟩
    · simpa [Looked, lookups, List.filterMap_append] using h11
    · simpa [lookups, sanitizeStarts, List.filterMap_append, Entry.rawList] using h2
  | rawOk lvm l he =>
    subst he
    obtain ⟨h1, h2⟩ := hinv
    exact ⟨[], by simp [Entry.rawList], by simpa using h1, by simpa using h2⟩
  | pvWaitOn hz he =>
    obtain ⟨_, h1, h2⟩ := hinv
    exact ⟨by simpa using h1, by simpa using h2⟩
  | pvWaitBack hz he =>
    obtain ⟨hr, h1, h2⟩ := hinv
    have hR : e.rawList = [] := by
      cases e with
      | StartSanitizeDisks lvm raw => simp [Entry.afterLVM] at he
      | SanitizeLVMDisk l => rfl
      | SanitizeRawDisk l => exact hr.elim
    rw [hR]
    exact ⟨by simpa using h1, by simpa using h2⟩
  | rawEnd =>
    obtain ⟨visited, h1, h2, h3⟩ := hinv
    simp only [List.append_nil] at h1
    rw [h1]
    exact ⟨by simpa using h2, by simpa using h3⟩
  | rawGo osd rest =>
    obtain ⟨visited, h1, h2, h3⟩ := hinv
    have h21 := h2
    simp only [Looked, lookups] at h21
    simp only [lookups, sanitizeStarts] at h3
    refine ⟨visited ++ [osd], by simp [h1], ?_, ?_⟩
    · simpa [Looked, lookups, List.filterMap_append] using h21
    · simp [lookups, sanitizeStarts, List.filterMap_append, h3]
  | rawWait hz =>
    obtain ⟨h1, h2⟩ := hinv
    exact ⟨by simpa using h1, by simpa using h2⟩
  | lvmEnd pvs =>
    obtain ⟨hr, visited, h1, h2, h3, h4⟩ := hinv
    simp only [List.append_nil] at h1
    rw [h1]
    exact ⟨hr, by simpa using h2, by simpa using h3, by simpa using h4⟩
  | lvsCall osd rest pvs =>
    obtain ⟨hr, visited, h1, h2, h3, h4⟩ := hinv
    refine ⟨hr, visited, h1, ?_, ?_, ?_⟩
    · simpa [Looked, lookups, List.filterMap_append] using h2
    · simpa [lookups, List.filterMap_append] using h3
    · simpa [sanitizeStarts, List.filterMap_append] using h4
  | lvsPanic osd rest pvs h0 =>
    obtain ⟨hr, visited, h1, h2, h3, h4⟩ := hinv
    rw [returnPVDevice_head] at h0
    have hf : r.failed = true := by
      cases hr2 : r.failed
      · simp [hr2] at h0
      · rfl
    refine ⟨by rw [h1]; simp, visited ++ [osd], rest, by simp [h1], ?_, ?_, ?_⟩
    · have := h2.1
      simp only [lookups] at this
      simp [lookups, List.filterMap_append, this]
    · simpa [sanitizeStarts, List.filterMap_append] using h4
    · exact ⟨(lvsCommand osd.BlockPath, r), by simp [lookups, List.filterMap_append], hf⟩
  | lvsGo osd rest pvs pv h0 =>
    obtain ⟨hr, visited, h1, h2, h3, h4⟩ := hinv
    rw [returnPVDevice_head] at h0
    have hf : r.failed = false := by
      cases hr2 : r.failed
      · rfl
      · simp [hr2] at h0
    simp only [hf, Bool.false_eq_true, if_false, Option.some.injEq] at h0
    have h21 := h2.1
    have h22 := h2.2
    simp only [lookups] at h21 h22 h3
    refine ⟨hr, visited ++ [osd], by simp [h1], ⟨?_, ?_⟩, ?_, ?_⟩
    · simp [lookups, List.filterMap_append, h21]
    · intro p hp
      simp only [lookups, List.filterMap_append, List.mem_append] at hp
      rcases hp with hp | hp
      · exact h22 p hp
      · simp at hp
        rw [hp]
        exact hf
    · simp [lookups, List.filterMap_append, h3, h0]
    · simpa [sanitizeStarts, List.filterMap_append] using h4
  | lvmWait pvs hz =>
    obtain ⟨hr, h2, h3, h4⟩ := hinv
    refine ⟨hr, by simpa using h2, ?_⟩
    simp only [List.map_nil, List.append_nil]
    rw [h4, h3]
    simp [pvUnit, Function.comp_def]
  | pvEnd =>
    obtain ⟨hr, h2, h3⟩ := hinv
    simp only [List.map_nil, List.append_nil] at h3
    exact ⟨hr, by simpa using h2, by simpa using h3⟩
  | pvGo pv rest =>
    obtain ⟨hr, h2, h3⟩ := hinv
    have h21 := h2
    simp only [Looked, lookups] at h21
    simp only [lookups] at h3
    refine ⟨hr, ?_, ?_⟩
    · simpa [Looked, lookups, List.filterMap_append] using h21
    · simpa [lookups, sanitizeStarts, List.filterMap_append] using h3

theorem lookupInv_run (spec : SanitizeDisksSpec) (e : Entry) (sched : List Move) :
    LookupInv e e.lvmList e.rawList (run spec e sched).trace (run spec e sched).main := by
  refine runFrom_inv spec e (fun s => LookupInv e e.lvmList e.rawList s.trace s.main)
    ?_ sched _ (lookupInv_init e)
  intro s m s1 hinv hstep
  unfold step at hstep
  split at hstep
  · exact lookupInv_mainStep e s s1 _ hinv hstep
  · rename_i i _
    obtain ⟨_, t, _, _, _, _, _, hmain, _, _, htr, _, _⟩ :=
      taskMove_some spec s s1 i _ hstep
    rw [hmain, htr]
    exact lookupInv_append_task e _ _ _ _ _ _ _ hinv

theorem runFrom_append (spec : SanitizeDisksSpec) (e : Entry) (a b : List Move) :
    ∀ s, runFrom spec e s (a ++ b) = runFrom spec e (runFrom spec e s a) b := by
  induction a with
  | nil => intro s; rfl
  | cons m ms ih => intro s; simp [runFrom, ih]

theorem runFrom_panicked (spec : SanitizeDisksSpec) (e : Entry) (sched : List Move) :
    ∀ s, s.main = .panicked → (runFrom spec e s sched).main = .panicked := by
  induction sched with
  | nil => intro s hs; exact hs
  | cons m ms ih =>
    intro s hs
    have hstep : step spec e s m = none := by
      unfold step
      cases m.pick with
      | main => simp [mainStep, hs]
      | task i => simp [taskMove, hs]
    simp only [runFrom, hstep, Option.getD_none]
    exact ih s hs

/-- C1 fails on the code: when the lookup `lvs` of the first unit returns an
error, `returnPVDevice` returns the empty list, the index `[0]` of line 109 is
out of range and the main goroutine panics; whatever is scheduled afterwards,
`SanitizeLVMDisk` never reaches its end. The index is in range exactly when
the lookup succeeds. -/
theorem lookup_failure_panics (spec : SanitizeDisksSpec) (osd : OSDInfo)
    (rest : List OSDInfo) (r0 : Resp) (output : String) (sched : List Move) :
    (∀ r, (returnPVDevice r)[0]? = none ↔ r.failed = true) ∧
    (run spec (.SanitizeLVMDisk (osd :: rest))
      (⟨.main, r0⟩ :: ⟨.main, ⟨output, true⟩⟩ :: sched)).main = .panicked ∧
    (run spec (.SanitizeLVMDisk (osd :: rest))
      (⟨.main, r0⟩ :: ⟨.main, ⟨output, true⟩⟩ :: sched)).main ≠ .done := by
  have h1 : ∀ r, (returnPVDevice r)[0]? = none ↔ r.failed = true := by
    intro r
    rw [returnPVDevice_head]
    cases r.failed <;> simp
  have h2 : (run spec (.SanitizeLVMDisk (osd :: rest))
      (⟨.main, r0⟩ :: ⟨.main, ⟨output, true⟩⟩ :: sched)).main = .panicked := by
    simp only [run, runFrom]
    apply runFrom_panicked
    simp [step, mainStep, init, Entry.pc, State.emit, returnPVDevice]
  refine ⟨h1, h2, ?_⟩
  rw [h2]
  simp

theorem withoutLogs_append (a b : List Event) :
    withoutLogs (a ++ b) = withoutLogs a ++ withoutLogs b := by
  simp [withoutLogs]

/-- Two states with the same goroutines and counters take the same step of a
goroutine, when the process is gone in both or in neither. -/
theorem taskMove_congr (spec : SanitizeDisksSpec) (s1 s2 : State) (i : Nat) (r : Resp)
    (ht : s1.tasks = s2.tasks) (hw : s1.wg = s2.wg)
    (hp : s1.main = .panicked ↔ s2.main = .panicked) :
    (taskMove spec s1 i r = none ∧ taskMove spec s2 i r = none) ∨
    ∃ a b evs t, taskMove spec s1 i r = some a ∧ taskMove spec s2 i r = some b ∧
      a.main = s1.main ∧ b.main = s2.main ∧ a.tasks = b.tasks ∧ a.wg = b.wg ∧
      a.trace = s1.trace ++ evs ∧ b.trace = s2.trace ++ evs ∧
      (b.wg = s2.wg ∨ b.wg = Function.update s2.wg t (s2.wg t - 1)) := by
  obtain ⟨m1, t1, w1, tr1⟩ := s1
  obtain ⟨m2, t2, w2, tr2⟩ := s2
  simp only at ht hw hp
  subst ht hw
  unfold taskMove
  by_cases h1 : m1 = .panicked
  · left
    simp [h1, hp.mp h1]
  · have h2 : m2 ≠ .panicked := fun h => h1 (hp.mpr h)
    simp only [h1, h2, if_false]
    cases hg : t1[i]? with
    | none => left; simp
    | some t =>
      by_cases hf : t.pc = .finished
      · left; simp [hf]
      · right
        simp only [hf, if_false]
        refine ⟨_, _, _, t.kind, rfl, rfl, rfl, rfl, rfl, rfl, rfl, rfl, ?_⟩
        by_cases hfin : (taskStep spec t.pc r).1 = .finished
        · right; simp [hfin]
        · left; simp [hfin]

theorem rawSim_step (spec : SanitizeDisksSpec) (lvm : Option (List OSDInfo)) (m : Move)
    (s1 s2 : State) (hR : RawSim s1 s2) (hc : CountInv s2) :
    RawSim ((step spec (.StartSanitizeDisks lvm none) s1 m).getD s1)
      ((step spec (.StartSanitizeDisks lvm (some [])) s2 m).getD s2) := by
  obtain ⟨ht, hw, htr, hmain⟩ := hR
  unfold step
  cases hpick : m.pick with
  | task i =>
    simp only
    have hp : s1.main = .panicked ↔ s2.main = .panicked := by
      rcases hmain with ⟨h1, _⟩ | ⟨h1, h2, _⟩
      · rw [h1]
      · rw [h1]
        rcases h2 with h2 | h2 | h2 <;> rw [h2] <;> simp
    rcases taskMove_congr spec s1 s2 i m.resp ht hw hp with ⟨h1, h2⟩ |
      ⟨a, b, evs, k, h1, h2, ha, hb, hab, hwab, hta, htb, hwb⟩
    · rw [h1, h2]
      exact ⟨ht, hw, htr, hmain⟩
    · rw [h1, h2]
      simp only [Option.getD_some]
      refine ⟨hab, hwab, ?_, ?_⟩
      · rw [hta, htb, withoutLogs_append, withoutLogs_append, htr]
      · rw [ha, hb]
        rcases hmain with h | ⟨h3, h4, h5⟩
        · exact Or.inl h
        · refine Or.inr ⟨h3, h4, ?_⟩
          rcases hwb with hwb | hwb
          · rw [hwb]; exact h5
          · rw [hwb]
            by_cases hk : Kind.rawWipe = k
            · subst hk
              simp [h5]
            · rw [Function.update_noteq hk]
              exact h5
  | main =>
    simp only
    obtain ⟨m1, t1, w1, tr1⟩ := s1
    obtain ⟨m2, t2, w2, tr2⟩ := s2
    simp only at ht hw htr hmain
    subst ht hw
    rcases hmain with ⟨h1, hph⟩ | ⟨h1, h2, h5⟩
    · subst h1
      cases m1 with
      | rawStart =>
        have hz : w1 .rawWipe = 0 := by
          have h0 := hc.count .rawWipe
          have hfin := no_unfinished _ hc (by
            intro k hk
            cases k <;> simp [kindPhase, mainPhase] at hk)
          have hu : unfinished .rawWipe t1 = 0 := by
            unfold unfinished
            rw [List.countP_eq_zero]
            intro t htm
            simp [hfin t htm]
          simp only at h0
          rw [h0, hu]
          rfl
        refine ⟨rfl, rfl, ?_, Or.inr ⟨rfl, Or.inl rfl, hz⟩⟩
        simp [mainStep, State.emit, withoutLogs_append, withoutLogs, Act.isLog] at htr ⊢
        exact htr
      | rawLoop l => simp [mainPhase] at hph
      | rawWait => simp [mainPhase] at hph
      | done => simp [mainPhase] at hph
      | start =>
        cases lvm <;>
          simp [mainStep, State.emit, RawSim, withoutLogs_append, htr, mainPhase]
      | lvmLoop rest pvs =>
        cases rest <;>
          simp [mainStep, State.emit, RawSim, withoutLogs_append, htr, mainPhase]
      | lvsWait osd rest pvs =>
        cases hidx : (returnPVDevice m.resp)[0]? <;>
          simp [mainStep, State.emit, RawSim, withoutLogs_append, htr, mainPhase, hidx]
      | lvmWait pvs =>
        by_cases hz : w1 .destroy = 0 <;>
          simp [mainStep, RawSim, htr, mainPhase, hz]
      | pvLoop rest =>
        cases rest <;>
          simp [mainStep, State.emit, State.spawn, RawSim, withoutLogs_append, htr, mainPhase]
      | pvWait =>
        by_cases hz : w1 .pvWipe = 0 <;>
          simp [mainStep, RawSim, htr, mainPhase, hz, Entry.afterLVM]
      | panicked => simp [mainStep, RawSim, htr, mainPhase]
    · subst h1
      rcases h2 with h2 | h2 | h2 <;> subst h2 <;>
        simp [mainStep, RawSim, htr, h5]

theorem rawSim_runFrom (spec : SanitizeDisksSpec) (lvm : Option (List OSDInfo))
    (sched : List Move) :
    ∀ s1 s2, RawSim s1 s2 → CountInv s2 →
      RawSim (runFrom spec (.StartSanitizeDisks lvm none) s1 sched)
        (runFrom spec (.StartSanitizeDisks lvm (some [])) s2 sched) := by
  induction sched with
  | nil => intro s1 s2 h _; exact h
  | cons m ms ih =>
    intro s1 s2 hR hc
    simp only [runFrom]
    refine ih _ _ (rawSim_step spec lvm m s1 s2 hR hc) ?_
    cases hs : step spec (.StartSanitizeDisks lvm (some [])) s2 m with
    | none => simpa using hc
    | some s3 => simpa using countInv_step spec _ s2 m s3 hc hs

theorem lvmSim_step (spec : SanitizeDisksSpec) (raw : Option (List OSDInfo)) (m : Move)
    (s1 s2 : State) (hR : LvmSim s1 s2) :
    LvmSim ((step spec (.StartSanitizeDisks none raw) s1 m).getD s1)
      ((step spec (.StartSanitizeDisks (some []) raw) s2 m).getD s2) := by
  obtain ⟨ht, hw, htr, hmain⟩ := hR
  unfold step
  cases hpick : m.pick with
  | task i =>
    simp only
    rcases hmain with ⟨h1, hph⟩ | ⟨h1, h2, h3, h4⟩
    · have hp : s1.main = .panicked ↔ s2.main = .panicked := by rw [h1]
      rcases taskMove_congr spec s1 s2 i m.resp ht hw hp with ⟨h5, h6⟩ |
        ⟨a, b, evs, k, h5, h6, ha, hb, hab, hwab, hta, htb, _⟩
      · rw [h5, h6]
        exact ⟨ht, hw, htr, Or.inl ⟨h1, hph⟩⟩
      · rw [h5, h6]
        simp only [Option.getD_some]
        refine ⟨hab, hwab, ?_, Or.inl ⟨by rw [ha, hb, h1], by rw [ha]; exact hph⟩⟩
        rw [hta, htb, withoutLogs_append, withoutLogs_append, htr]
    · have h5 : taskMove spec s1 i m.resp = none := by
        simp [taskMove, h1, h3]
      have h6 : taskMove spec s2 i m.resp = none := by
        simp [taskMove, h2, ← ht, h3]
      rw [h5, h6]
      exact ⟨ht, hw, htr, Or.inr ⟨h1, h2, h3, h4⟩⟩
  | main =>
    simp only
    obtain ⟨m1, t1, w1, tr1⟩ := s1
    obtain ⟨m2, t2, w2, tr2⟩ := s2
    simp only at ht hw htr hmain
    subst ht hw
    rcases hmain with ⟨h1, hph⟩ | ⟨h1, h2, h3, h4⟩
    · subst h1
      cases m1 with
      | rawStart =>
        cases raw <;>
          simp [mainStep, State.emit, LvmSim, withoutLogs_append, htr, mainPhase]
      | rawLoop l =>
        cases l <;>
          simp [mainStep, State.emit, State.spawn, LvmSim, withoutLogs_append, htr, mainPhase]
      | rawWait =>
        by_cases hz : w1 .rawWipe = 0 <;>
          simp [mainStep, LvmSim, htr, mainPhase, hz]
      | done => simp [mainStep, LvmSim, htr, mainPhase]
      | _ => simp [mainPhase] at hph
    · subst h1 h2 h3
      have e1 : mainStep (.StartSanitizeDisks none raw) ⟨.start, [], w1, tr1⟩ m.resp
          = some ⟨.rawStart, [], w1, tr1 ++ [⟨.main, .log .failedListLVM⟩]⟩ := by
        simp [mainStep, State.emit]
      have e2 : mainStep (.StartSanitizeDisks (some []) raw) ⟨.pvWait, [], w1, tr2⟩ m.resp
          = some ⟨.rawStart, [], w1, tr2⟩ := by
        have h40 : w1 .pvWipe = 0 := h4
        simp [mainStep, h40, Entry.afterLVM]
      rw [e1, e2]
      refine ⟨rfl, rfl, ?_, Or.inl ⟨rfl, by simp [mainPhase]⟩⟩
      simp only [Option.getD_some, withoutLogs_append]
      rw [htr]
      simp [withoutLogs, Act.isLog]

theorem lvmSim_runFrom (spec : SanitizeDisksSpec) (raw : Option (List OSDInfo))
    (sched : List Move) :
    ∀ s1 s2, LvmSim s1 s2 →
      LvmSim (runFrom spec (.StartSanitizeDisks none raw) s1 sched)
        (runFrom spec (.StartSanitizeDisks (some []) raw) s2 sched) := by
  induction sched with
  | nil => intro s1 s2 h; exact h
  | cons m ms ih =>
    intro s1 s2 hR
    simp only [runFrom]
    exact ih _ _ (lvmSim_step spec raw m s1 s2 hR)

theorem lvmSim_entry (raw : Option (List OSDInfo)) :
    LvmSim (init (.StartSanitizeDisks none raw)) (emptyLvmState 4) :=
  ⟨rfl, rfl, rfl, Or.inr ⟨rfl, rfl, rfl, rfl⟩⟩

theorem emptyLvm_mainStep (raw : Option (List OSDInfo)) (r : Resp) (j : Nat) (hj : j < 4) :
    mainStep (.StartSanitizeDisks (some []) raw) (emptyLvmState j) r
      = some (emptyLvmState (j + 1)) := by
  interval_cases j <;> simp [mainStep, emptyLvmState, emptyLvmPC]

theorem emptyLvm_run (spec : SanitizeDisksSpec) (raw : Option (List OSDInfo)) :
    runFrom spec (.StartSanitizeDisks (some []) raw) (init (.StartSanitizeDisks (some []) raw))
      (mainMoves 4) = emptyLvmState 4 := by
  have h0 : init (.StartSanitizeDisks (some []) raw) = emptyLvmState 0 := rfl
  simp [mainMoves, List.replicate, runFrom, step, h0, emptyLvm_mainStep]

theorem skipMain_nil (n : Nat) : skipMain n [] = [] := by
  cases n <;> rfl

/-- Every run after a successful LVM discovery of no unit is matched by the run
after a failed LVM discovery along the schedule without its first four moves
of the main thread. -/
theorem emptyLvm_skip (spec : SanitizeDisksSpec) (raw : Option (List OSDInfo))
    (sched : List Move) :
    ∀ j, j ≤ 4 →
      LvmSim
        (runFrom spec (.StartSanitizeDisks none raw) (init (.StartSanitizeDisks none raw))
          (skipMain (4 - j) sched))
        (runFrom spec (.StartSanitizeDisks (some []) raw) (emptyLvmState j) sched) ∨
      (withoutLogs (runFrom spec (.StartSanitizeDisks none raw)
          (init (.StartSanitizeDisks none raw)) (skipMain (4 - j) sched)).trace = [] ∧
        withoutLogs (runFrom spec (.StartSanitizeDisks (some []) raw)
          (emptyLvmState j) sched).trace = []) := by
  induction sched with
  | nil =>
    intro j _
    right
    rw [skipMain_nil]
    exact ⟨rfl, rfl⟩
  | cons m ms ih =>
    intro j hj
    rcases Nat.lt_or_ge j 4 with hlt | hge
    · obtain ⟨n, hn⟩ : ∃ n, 4 - j = n + 1 := ⟨3 - j, by omega⟩
      rw [hn]
      cases hp : m.pick with
      | main =>
        have h1 : step spec (.StartSanitizeDisks (some []) raw) (emptyLvmState j) m
            = some (emptyLvmState (j + 1)) := by
          simp only [step, hp]
          exact emptyLvm_mainStep raw m.resp j hlt
        have h2 := ih (j + 1) (by omega)
        have h3 : 4 - (j + 1) = n := by omega
        rw [h3] at h2
        simpa [skipMain, hp, runFrom, h1] using h2
      | task i =>
        have h1 : step spec (.StartSanitizeDisks (some []) raw) (emptyLvmState j) m
            = none := by
          simp [step, hp, taskMove, emptyLvmState]
        have h2 : step spec (.StartSanitizeDisks none raw)
            (init (.StartSanitizeDisks none raw)) m = none := by
          simp [step, hp, taskMove, init]
        have h4 := ih j hj
        rw [hn] at h4
        simpa [skipMain, hp, runFrom, h1, h2] using h4
    · have hj4 : j = 4 := by omega
      subst hj4
      left
      exact lvmSim_runFrom spec raw (m :: ms) _ _ (lvmSim_entry raw)

/-! ## Theorems: every run can be brought to its end -/

theorem buildShredCommands_length (spec : SanitizeDisksSpec) (disk : String) :
    (buildShredCommands spec disk).length = 1 := by
  unfold buildShredCommands buildQuickShredCommands
  split
  · rfl
  · split <;> rfl

theorem taskStep_measure (spec : SanitizeDisksSpec) (pc : TaskPC) (r : Resp)
    (h : pc ≠ .finished) : taskMeasure (taskStep spec pc r).1 < taskMeasure pc := by
  cases pc with
  | finished => exact absurd rfl h
  | executeSanitizeCommand o => cases he : o.Encrypted <;> simp [taskStep, he, taskMeasure]
  | backingWait o => cases hf : r.failed <;> simp [taskStep, hf, taskMeasure]
  | devices ds =>
    cases ds with
    | nil => simp [taskStep, taskMeasure]
    | cons d ds =>
      by_cases hd : d = ""
      · simp only [taskStep, hd, if_true, taskMeasure, List.length_cons]
        omega
      · simp only [taskStep, hd, if_false, taskMeasure, List.length_cons,
          buildShredCommands_length]
        omega
  | commands d cs ds =>
    cases cs with
    | nil =>
      simp only [taskStep, taskMeasure, List.length_nil]
      omega
    | cons c cs =>
      simp only [taskStep, taskMeasure, List.length_cons]
      omega
  | wipeLVM id => simp [taskStep, taskMeasure]
  | wipeLVMWait id => simp [taskStep, taskMeasure]
  | remove o p => simp [taskStep, taskMeasure]
  | removeWait o p => simp [taskStep, taskMeasure]
  | commandWait d c cs ds =>
    simp only [taskStep, taskMeasure]
    omega

theorem mainTrans_measure (e : Entry) (r : Resp) (wg wg1 : Kind → Nat) (pc pc1 : MainPC)
    (newTasks : List Task) (acts : List Act)
    (h : MainTrans e r wg pc pc1 wg1 newTasks acts) :
    mainMeasure e pc1 + (newTasks.map (fun t => taskMeasure t.pc)).sum < mainMeasure e pc := by
  cases h with
  | startFail raw he =>
    subst he
    simp only [mainMeasure, Entry.lvmList, Entry.rawList, List.map_nil, List.sum_nil]
    omega
  | startOk l raw he =>
    subst he
    simp only [mainMeasure, Entry.lvmList, List.map_nil, List.sum_nil, List.length_nil]
    omega
  | rawFail lvm he =>
    subst he
    simp only [mainMeasure, List.map_nil, List.sum_nil]
    omega
  | rawOk lvm l he =>
    subst he
    simp only [mainMeasure, Entry.rawList, List.map_nil, List.sum_nil]
    omega
  | rawGo osd rest =>
    simp only [mainMeasure, taskMeasure, List.map_cons, List.map_nil, List.sum_cons,
      List.sum_nil, List.length_cons]
    omega
  | pvGo pv rest =>
    simp only [mainMeasure, taskMeasure, List.map_cons, List.map_nil, List.sum_cons,
      List.sum_nil, List.length_cons]
    omega
  | lvsGo osd rest pvs pv h0 =>
    simp only [mainMeasure, taskMeasure, List.map_cons, List.map_nil, List.sum_cons,
      List.sum_nil, List.length_append, List.length_singleton]
    omega
  | lvsCall osd rest pvs =>
    simp only [mainMeasure, List.map_nil, List.sum_nil, List.length_cons]
    omega
  | lvsPanic osd rest pvs h0 =>
    simp only [mainMeasure, List.map_nil, List.sum_nil]
    omega
  | lvmEnd pvs =>
    simp only [mainMeasure, List.map_nil, List.sum_nil, List.length_nil]
    omega
  | lvmWait pvs hz =>
    simp only [mainMeasure, List.map_nil, List.sum_nil]
    omega
  | pvEnd =>
    simp only [mainMeasure, List.map_nil, List.sum_nil, List.length_nil]
    omega
  | pvWaitOn hz he =>
    simp only [mainMeasure, List.map_nil, List.sum_nil]
    omega
  | pvWaitBack hz he =>
    simp only [mainMeasure, List.map_nil, List.sum_nil]
    omega
  | rawEnd =>
    simp only [mainMeasure, List.map_nil, List.sum_nil, List.length_nil]
    omega
  | rawWait hz =>
    simp only [mainMeasure, List.map_nil, List.sum_nil]
    omega

/-- Every step of the process lowers the measure. -/
theorem step_measure (spec : SanitizeDisksSpec) (e : Entry) (s s1 : State) (m : Move)
    (h : step spec e s m = some s1) : measure e s1 < measure e s := by
  unfold step at h
  split at h
  · obtain ⟨pc, pc1, wg1, newTasks, acts, hpc, hpc1, _, htasks, _, htrans⟩ :=
      mainStep_some e s s1 _ h
    have := mainTrans_measure e _ _ _ _ _ _ _ htrans
    simp only [measure, hpc, hpc1, htasks, List.map_append, List.sum_append]
    omega
  · rename_i i _
    obtain ⟨_, t, l1, l2, ht, _, hfin, hmain, htasks, _, _, _, _⟩ :=
      taskMove_some spec s s1 i _ h
    have := taskStep_measure spec t.pc m.resp hfin
    simp only [measure, hmain, htasks, ht, List.map_append, List.sum_append, List.map_cons,
      List.sum_cons]
    omega

theorem entryInv_init (e : Entry) : EntryInv e (init e) := by
  intro h
  cases e with
  | StartSanitizeDisks lvm raw => exact ⟨lvm, raw, rfl⟩
  | SanitizeLVMDisk l => simp [init, Entry.pc] at h
  | SanitizeRawDisk l => simp [init, Entry.pc] at h

theorem entryInv_step (spec : SanitizeDisksSpec) (e : Entry) (s s1 : State) (m : Move)
    (hinv : EntryInv e s) (h : step spec e s m = some s1) : EntryInv e s1 := by
  unfold step at h
  split at h
  · obtain ⟨pc, pc1, wg1, newTasks, acts, hpc, hpc1, _, _, _, htrans⟩ :=
      mainStep_some e s s1 _ h
    intro h1
    rw [hpc1] at h1
    cases htrans with
    | startFail raw he => exact ⟨_, _, he⟩
    | pvWaitOn hz he =>
      cases e with
      | StartSanitizeDisks lvm raw => exact ⟨lvm, raw, rfl⟩
      | SanitizeLVMDisk l => simp [Entry.afterLVM] at he
      | SanitizeRawDisk l => simp [Entry.afterLVM] at he
    | _ => simp at h1
  · rename_i i _
    obtain ⟨_, t, _, _, _, _, _, hmain, _, _, _, _, _⟩ := taskMove_some spec s s1 i _ h
    intro h1
    rw [hmain] at h1
    exact hinv h1

theorem exists_unfinished (k : Kind) (tasks : List Task) (h : 0 < unfinished k tasks) :
    ∃ (i : Nat) (t : Task), tasks[i]? = some t ∧ t.pc ≠ .finished := by
  unfold unfinished at h
  obtain ⟨t, ht, hp⟩ := List.countP_pos_iff.mp h
  obtain ⟨i, hi⟩ := List.getElem?_of_mem ht
  refine ⟨i, t, hi, ?_⟩
  simp only [Bool.and_eq_true, decide_eq_true_eq] at hp
  exact hp.2

/-- A state that is reached and is not final can make a step: no wait blocks
for ever while the goroutines are given their turn. -/
theorem progress (spec : SanitizeDisksSpec) (e : Entry) (s : State)
    (hc : CountInv s) (he : EntryInv e s) (hnf : ¬ s.final) :
    ∃ m s1, step spec e s m = some s1 := by
  have hnp : s.main ≠ .panicked := fun h => hnf (Or.inr h)
  have hnd : s.main ≠ .done := fun h => hnf (Or.inl h)
  -- a goroutine that has not finished can move
  have htask : ∀ k, 0 < unfinished k s.tasks → ∃ m s1, step spec e s m = some s1 := by
    intro k hk
    obtain ⟨i, t, hi, ht⟩ := exists_unfinished k s.tasks hk
    have : (taskMove spec s i okResp).isSome = true := by
      simp [taskMove, hnp, hi, ht]
    obtain ⟨s1, hs1⟩ := Option.isSome_iff_exists.mp this
    exact ⟨⟨.task i, okResp⟩, s1, by simpa [step] using hs1⟩
  have hmain : (mainStep e s okResp).isSome = true → ∃ m s1, step spec e s m = some s1 := by
    intro h
    obtain ⟨s1, hs1⟩ := Option.isSome_iff_exists.mp h
    exact ⟨⟨.main, okResp⟩, s1, by simpa [step] using hs1⟩
  cases hm : s.main with
  | done => exact absurd hm hnd
  | panicked => exact absurd hm hnp
  | start =>
    obtain ⟨lvm, raw, rfl⟩ := he (Or.inl hm)
    cases lvm <;> exact hmain (by simp [mainStep, hm])
  | rawStart =>
    obtain ⟨lvm, raw, rfl⟩ := he (Or.inr hm)
    cases raw <;> exact hmain (by simp [mainStep, hm])
  | lvmLoop rest pvs => cases rest <;> exact hmain (by simp [mainStep, hm])
  | lvsWait osd rest pvs =>
    cases hidx : (returnPVDevice okResp)[0]? <;>
      exact hmain (by simp [mainStep, hm, hidx])
  | pvLoop rest => cases rest <;> exact hmain (by simp [mainStep, hm])
  | rawLoop rest => cases rest <;> exact hmain (by simp [mainStep, hm])
  | lvmWait pvs =>
    by_cases hz : s.wg .destroy = 0
    · exact hmain (by simp [mainStep, hm, hz])
    · refine htask .destroy ?_
      have := hc.count .destroy
      rw [hm] at this
      simp only [pendingAdd] at this
      omega
  | pvWait =>
    by_cases hz : s.wg .pvWipe = 0
    · exact hmain (by simp [mainStep, hm, hz])
    · refine htask .pvWipe ?_
      have := hc.count .pvWipe
      rw [hm] at this
      simp only [pendingAdd] at this
      omega
  | rawWait =>
    by_cases hz : s.wg .rawWipe = 0
    · exact hmain (by simp [mainStep, hm, hz])
    · refine htask .rawWipe ?_
      have := hc.count .rawWipe
      rw [hm] at this
      simp only [pendingAdd] at this
      omega

/-- From every state that is reached the process can be brought to a final
state: the main thread returns, or it has panicked. -/
theorem can_finish_from (spec : SanitizeDisksSpec) (e : Entry) :
    ∀ (n : Nat) (s : State), measure e s ≤ n → CountInv s → EntryInv e s →
      ∃ more, (runFrom spec e s more).final := by
  intro n
  induction n with
  | zero =>
    intro s hn hc he
    by_cases hf : s.final
    · exact ⟨[], hf⟩
    · obtain ⟨m, s1, hs⟩ := progress spec e s hc he hf
      have := step_measure spec e s s1 m hs
      omega
  | succ n ih =>
    intro s hn hc he
    by_cases hf : s.final
    · exact ⟨[], hf⟩
    · obtain ⟨m, s1, hs⟩ := progress spec e s hc he hf
      have hlt := step_measure spec e s s1 m hs
      obtain ⟨more, hmore⟩ := ih s1 (by omega) (countInv_step spec e s m s1 hc hs)
        (entryInv_step spec e s s1 m he hs)
      exact ⟨m :: more, by simpa [runFrom, hs] using hmore⟩

theorem can_finish (spec : SanitizeDisksSpec) (e : Entry) (sched : List Move) :
    ∃ more, (run spec e (sched ++ more)).final := by
  have hinv : CountInv (run spec e sched) ∧ EntryInv e (run spec e sched) := by
    refine runFrom_inv spec e (fun s => CountInv s ∧ EntryInv e s) ?_ sched _
      ⟨countInv_init e, entryInv_init e⟩
    intro s m s1 ⟨h1, h2⟩ hs
    exact ⟨countInv_step spec e s m s1 h1 hs, entryInv_step spec e s s1 m h2 hs⟩
  obtain ⟨more, hmore⟩ := can_finish_from spec e _ (run spec e sched) (le_refl _) hinv.1 hinv.2
  exact ⟨more, by rw [run, runFrom_append]; exact hmore⟩

theorem all_finished_at_done (s : State) (hc : CountInv s) (hd : s.main = .done) :
    ∀ t ∈ s.tasks, t.pc = .finished := by
  intro t ht
  by_contra hne
  have := hc.phase t ht hne
  rw [hd] at this
  cases hk : t.kind <;> simp [hk, kindPhase, mainPhase] at this

/-! ## Theorems: what each goroutine has done -/

theorem runTask_append (spec : SanitizeDisksSpec) (a b : List Resp) : ∀ pc,
    runTask spec (a ++ b) pc
      = ((runTask spec b (runTask spec a pc).1).1,
         (runTask spec a pc).2 ++ (runTask spec b (runTask spec a pc).1).2) := by
  induction a with
  | nil => intro pc; simp [runTask]
  | cons r rs ih => intro pc; simp [runTask, ih, List.append_assoc]

theorem runTask_finished (spec : SanitizeDisksSpec) (rs : List Resp) :
    runTask spec rs .finished = (.finished, []) := by
  induction rs with
  | nil => rfl
  | cons r rs ih => simp [runTask, taskStep, ih]

/-- What a goroutine has handed to the executor at any point of a run is the
beginning of the commands it is due to issue, and all of them once it has
finished. -/
theorem issued_of_run (spec : SanitizeDisksSpec) (pc0 pc : TaskPC) (cmds : List ShredCommand)
    (rs : List Resp) (acts : List Act) (hc : Completes spec pc0 cmds)
    (hr : runTask spec rs pc0 = (pc, acts)) :
    issued acts <+: cmds ∧ (pc = .finished → issued acts = cmds) := by
  obtain ⟨n, hn⟩ := hc
  have happ := runTask_append spec rs (List.replicate n okResp) pc0
  rw [hr] at happ
  simp only at happ
  obtain ⟨_, h2⟩ := hn (rs ++ List.replicate n okResp) (by simp)
  rw [happ] at h2
  simp only [issued_append] at h2
  constructor
  · exact ⟨_, h2⟩
  · intro hfin
    subst hfin
    rw [runTask_finished] at h2
    simpa [issued] using h2

theorem completes_wipeLVM (spec : SanitizeDisksSpec) (osdID : Int) :
    Completes spec (.wipeLVM osdID) [wipeLVMCommand osdID] := by
  have h1 : Completes spec (.wipeLVMWait osdID) ([] ++ []) :=
    completes_step spec _ .finished [] []
      (fun r => ⟨rfl, by cases hf : r.failed <;> simp [taskStep, issued, hf]⟩)
      (completes_finished spec)
  exact completes_step spec _ (.wipeLVMWait osdID) [wipeLVMCommand osdID] _
    (fun r => ⟨rfl, rfl⟩) h1

/-- A run of `executeSanitizeCommand` on an encrypted unit that has finished has
taken the answer of the resolver, and the commands it has issued are those of
the data path decided by that answer. -/
theorem encrypted_run (spec : SanitizeDisksSpec) (osdInfo : OSDInfo) (rs : List Resp)
    (acts : List Act) (h : osdInfo.Encrypted = true)
    (hr : runTask spec rs (.executeSanitizeCommand osdInfo) = (.finished, acts)) :
    ∃ lookup, .gotBacking osdInfo.BlockPath lookup ∈ acts ∧
      issued acts = regionCommands spec
        [erasedDataPath osdInfo lookup, osdInfo.MetadataPath, osdInfo.WalPath] := by
  cases rs with
  | nil => simp [runTask] at hr
  | cons r0 rs =>
    cases rs with
    | nil => simp [runTask, taskStep, h] at hr
    | cons lookup rest =>
      refine ⟨lookup, ?_, ?_⟩
      · have h1 : acts = (runTask spec (r0 :: lookup :: rest)
            (.executeSanitizeCommand osdInfo)).2 := by rw [hr]
        rw [h1]
        cases hf : lookup.failed <;> simp [runTask, taskStep, h, hf]
      · obtain ⟨n, hn⟩ := encrypted_completes spec osdInfo lookup h
        have happ := runTask_append spec (r0 :: lookup :: rest) (List.replicate n okResp)
          (.executeSanitizeCommand osdInfo)
        rw [hr] at happ
        simp only [runTask_finished, List.append_nil, List.cons_append] at happ
        have := (hn r0 (rest ++ List.replicate n okResp) (by simp)).2
        rw [happ] at this
        exact this

theorem actsOf_append (w : Who) (a b : List Event) :
    actsOf w (a ++ b) = actsOf w a ++ actsOf w b := by
  simp [actsOf, List.filter_append]

theorem actsOf_map_same (w : Who) (acts : List Act) :
    actsOf w (acts.map (Event.mk w)) = acts := by
  induction acts with
  | nil => rfl
  | cons a as ih =>
    simp only [actsOf] at ih
    simp [actsOf, List.filter_cons, ih]

theorem actsOf_map_other (w w0 : Who) (h : w0 ≠ w) (acts : List Act) :
    actsOf w (acts.map (Event.mk w0)) = [] := by
  induction acts with
  | nil => rfl
  | cons a as ih =>
    simp only [actsOf] at ih
    simp [actsOf, List.filter_cons, ih, h]

theorem mem_of_mem_actsOf (w : Who) (a : Act) (tr : List Event) (h : a ∈ actsOf w tr) :
    ⟨w, a⟩ ∈ tr := by
  simp only [actsOf, List.mem_map, List.mem_filter, decide_eq_true_eq] at h
  obtain ⟨x, ⟨hx, hw⟩, ha⟩ := h
  obtain ⟨w1, a1⟩ := x
  simp only at hw ha
  subst hw ha
  exact hx

theorem goStarts_append (a b : List Event) : goStarts (a ++ b) = goStarts a ++ goStarts b := by
  simp [goStarts, List.filterMap_append]

theorem goStarts_append_task (tr : List Event) (k : Kind) (i : Nat) (acts : List Act) :
    goStarts (tr ++ acts.map (Event.mk (.task k i))) = goStarts tr := by
  simp [goStarts, List.filterMap_append, List.filterMap_map, Function.comp_def]

theorem sanitizeStarts_append (a b : List Event) :
    sanitizeStarts (a ++ b) = sanitizeStarts a ++ sanitizeStarts b := by
  simp [sanitizeStarts, List.filterMap_append]

theorem goOrder_append_task (L : List OSDInfo) (tr : List Event) (k : Kind) (i : Nat)
    (acts : List Act) (pc : MainPC) (h : GoOrder L tr pc) :
    GoOrder L (tr ++ acts.map (Event.mk (.task k i))) pc := by
  cases pc <;>
    simp only [GoOrder, goStarts_append_task, sanitizeStarts_append_task] at h ⊢ <;>
    exact h

theorem mainTrans_goStarts (e : Entry) (r : Resp) (wg wg1 : Kind → Nat) (pc pc1 : MainPC)
    (newTasks : List Task) (acts : List Act)
    (h : MainTrans e r wg pc pc1 wg1 newTasks acts) :
    goStarts (acts.map (Event.mk .main)) = newTasks.map (fun t => t.pc) := by
  cases h <;> simp [goStarts]

/-- A step of the main thread keeps the order of the goroutines started, and a
goroutine it starts is of the kind that goes with its position. -/
theorem mainTrans_go (e : Entry) (L R : List OSDInfo) (hL : e.lvmList = L) (r : Resp)
    (wg wg1 : Kind → Nat) (pc pc1 : MainPC) (newTasks : List Task) (acts : List Act)
    (tr : List Event) (h : MainTrans e r wg pc pc1 wg1 newTasks acts)
    (hl : LookupInv e L R tr pc) (ho : GoOrder L tr pc) :
    GoOrder L (tr ++ acts.map (Event.mk .main)) pc1 ∧
    (newTasks = [] ∨ ∃ t, newTasks = [t] ∧ t.kind = kindAt L (goStarts tr).length) := by
  cases h with
  | startFail raw he =>
    subst he
    simp only [Entry.lvmList] at hL
    subst hL
    simp only [GoOrder] at ho ⊢
    simp only [LookupInv] at hl
    refine ⟨?_, Or.inl trivial⟩
    rw [goStarts_append, sanitizeStarts_append, ho, hl.2]
    simp [goStarts, sanitizeStarts]
  | startOk l raw he =>
    subst he
    simp only [Entry.lvmList] at hL
    subst hL
    simp only [GoOrder] at ho ⊢
    exact ⟨⟨[], by simp, by simpa using ho⟩, Or.inl trivial⟩
  | lvmEnd pvs =>
    simp only [GoOrder] at ho ⊢
    simp only [LookupInv] at hl
    obtain ⟨visited, h1, h2⟩ := ho
    obtain ⟨_, _, _, _, _, h4⟩ := hl
    simp only [List.append_nil] at h1
    refine ⟨?_, Or.inl trivial⟩
    simp [h2, h4, h1]
  | lvsCall osd rest pvs =>
    simp only [GoOrder] at ho ⊢
    obtain ⟨visited, h1, h2⟩ := ho
    refine ⟨⟨visited, h1, ?_⟩, Or.inl trivial⟩
    rw [goStarts_append, h2]
    simp [goStarts]
  | lvsPanic osd rest pvs h0 =>
    simp only [GoOrder] at ho ⊢
    obtain ⟨visited, h1, h2⟩ := ho
    refine ⟨⟨visited, osd :: rest, h1, ?_⟩, Or.inl trivial⟩
    rw [goStarts_append, h2]
    simp [goStarts]
  | lvsGo osd rest pvs pv h0 =>
    simp only [GoOrder] at ho ⊢
    obtain ⟨visited, h1, h2⟩ := ho
    refine ⟨⟨visited ++ [osd], by simp [h1], ?_⟩, Or.inr ⟨_, rfl, ?_⟩⟩
    · rw [goStarts_append, h2]
      simp [goStarts]
    · simp [kindAt, h2, h1]
  | lvmWait pvs hz =>
    simp only [GoOrder] at ho ⊢
    exact ⟨by simpa using ho, Or.inl trivial⟩
  | pvEnd =>
    simp only [GoOrder] at ho ⊢
    exact ⟨by simpa using ho, Or.inl trivial⟩
  | pvGo pv rest =>
    simp only [GoOrder] at ho ⊢
    simp only [LookupInv] at hl
    obtain ⟨_, hlook, h3⟩ := hl
    refine ⟨?_, Or.inr ⟨_, rfl, ?_⟩⟩
    · rw [goStarts_append, sanitizeStarts_append, ho]
      simp [goStarts, sanitizeStarts]
    · have hlen := congrArg List.length h3
      have hlen2 := congrArg List.length hlook.1
      simp only [List.length_append, List.length_map, List.length_cons] at hlen hlen2
      simp only [kindAt, ho, List.length_append, List.length_map]
      rw [if_neg (by omega), if_pos (by omega)]
  | pvWaitOn hz he =>
    simp only [GoOrder] at ho ⊢
    exact ⟨by simpa using ho, Or.inl trivial⟩
  | pvWaitBack hz he =>
    simp only [GoOrder] at ho ⊢
    exact ⟨by simpa using ho, Or.inl trivial⟩
  | rawFail lvm he =>
    simp only [GoOrder] at ho ⊢
    refine ⟨?_, Or.inl trivial⟩
    rw [goStarts_append, sanitizeStarts_append, ho]
    simp [goStarts, sanitizeStarts]
  | rawOk lvm l he =>
    simp only [GoOrder] at ho ⊢
    exact ⟨by simpa using ho, Or.inl trivial⟩
  | rawEnd =>
    simp only [GoOrder] at ho ⊢
    exact ⟨by simpa using ho, Or.inl trivial⟩
  | rawGo osd rest =>
    simp only [GoOrder] at ho ⊢
    simp only [LookupInv] at hl
    obtain ⟨visited, _, hlook, h3⟩ := hl
    refine ⟨?_, Or.inr ⟨_, rfl, ?_⟩⟩
    · rw [goStarts_append, sanitizeStarts_append, ho]
      simp [goStarts, sanitizeStarts]
    · have hlen := congrArg List.length h3
      have hlen2 := congrArg List.length hlook.1
      simp only [List.length_append, List.length_map] at hlen hlen2
      simp only [kindAt, ho, List.length_append, List.length_map]
      rw [if_neg (by omega), if_neg (by omega)]
  | rawWait hz =>
    simp only [GoOrder] at ho ⊢
    exact ⟨by simpa using ho, Or.inl trivial⟩

theorem histInv_init (spec : SanitizeDisksSpec) (e : Entry) :
    HistInv spec e.lvmList (init e) := by
  constructor
  · simp [init, goStarts]
  · cases e with
    | StartSanitizeDisks lvm raw => simp [init, Entry.pc, GoOrder, goStarts]
    | SanitizeLVMDisk l =>
      exact ⟨[], by simp [Entry.lvmList], by simp [init, goStarts]⟩
    | SanitizeRawDisk l =>
      simp [init, Entry.pc, GoOrder, goStarts, sanitizeStarts, Entry.lvmList]
  · intro i t h
    simp [init] at h
  · intro i t h
    simp [init] at h
  · intro k i _
    simp [init, actsOf]

theorem histInv_mainStep (spec : SanitizeDisksSpec) (e : Entry) (s s1 : State) (r : Resp)
    (hl : LookupInv e e.lvmList e.rawList s.trace s.main)
    (hinv : HistInv spec e.lvmList s) (h : mainStep e s r = some s1) :
    HistInv spec e.lvmList s1 := by
  obtain ⟨pc, pc1, wg1, newTasks, acts, hpc, hpc1, _, htasks, htr, htrans⟩ :=
    mainStep_some e s s1 r h
  obtain ⟨hstarted, horder, hkinds, hhist, hquiet⟩ := hinv
  rw [hpc] at hl horder
  obtain ⟨ho1, hnew⟩ := mainTrans_go e _ _ rfl r _ _ _ _ _ _ s.trace htrans hl horder
  have hgo : goStarts s1.trace = goStarts s.trace ++ newTasks.map (fun t => t.pc) := by
    rw [htr, goStarts_append, mainTrans_goStarts e r _ _ _ _ _ _ htrans]
  have hacts : ∀ k i, actsOf (.task k i) s1.trace = actsOf (.task k i) s.trace := by
    intro k i
    rw [htr, actsOf_append, actsOf_map_other _ _ (by simp), List.append_nil]
  -- a goroutine beyond those of `s` is the one just started, at the next index
  have hlast : ∀ i t, ¬ i < s.tasks.length → (s.tasks ++ newTasks)[i]? = some t →
      newTasks = [t] ∧ i = s.tasks.length ∧ t.kind = kindAt e.lvmList s.tasks.length := by
    intro i t hlt hi
    rw [List.getElem?_append_right (by omega)] at hi
    rcases hnew with hn | ⟨t1, hn, hk⟩
    · rw [hn] at hi
      simp at hi
    · rw [hn] at hi
      cases hd : i - s.tasks.length with
      | zero =>
        rw [hd] at hi
        simp only [List.getElem?_cons_zero, Option.some.injEq] at hi
        subst hi
        exact ⟨hn, by omega, by rw [← hstarted]; exact hk⟩
      | succ m =>
        rw [hd] at hi
        simp at hi
  constructor
  · rw [hgo, htasks]
    simp [hstarted]
  · rw [hpc1, htr]
    exact ho1
  · intro i t hi
    rw [htasks] at hi
    by_cases hlt : i < s.tasks.length
    · rw [List.getElem?_append_left hlt] at hi
      exact hkinds i t hi
    · obtain ⟨_, h2, h3⟩ := hlast i t hlt hi
      rw [h2]
      exact h3
  · intro i t hi
    rw [htasks] at hi
    rw [hacts, hgo]
    by_cases hlt : i < s.tasks.length
    · rw [List.getElem?_append_left hlt] at hi
      obtain ⟨pc0, rs, h1, h2⟩ := hhist i t hi
      refine ⟨pc0, rs, ?_, h2⟩
      rw [List.getElem?_append_left (by rw [hstarted]; exact hlt)]
      exact h1
    · obtain ⟨h1, h2, _⟩ := hlast i t hlt hi
      refine ⟨t.pc, [], ?_, ?_⟩
      · rw [List.getElem?_append_right (by rw [hstarted]; omega), hstarted, h2, h1]
        simp
      · rw [hquiet t.kind i (by omega)]
        rfl
  · intro k i hi
    rw [hacts]
    apply hquiet
    rw [htasks, List.length_append] at hi
    omega

theorem histInv_taskMove (spec : SanitizeDisksSpec) (L : List OSDInfo) (s s1 : State)
    (i : Nat) (r : Resp) (hinv : HistInv spec L s) (h : taskMove spec s i r = some s1) :
    HistInv spec L s1 := by
  obtain ⟨_, t, l1, l2, ht, _, hfin, hmain, _, _, htr, hget, hset⟩ :=
    taskMove_some spec s s1 i r h
  obtain ⟨hstarted, horder, hkinds, hhist, hquiet⟩ := hinv
  have hilen : i < s.tasks.length := (List.getElem?_eq_some.mp hget).1
  constructor
  · rw [htr, goStarts_append_task, hset, List.length_set]
    exact hstarted
  · rw [hmain, htr]
    exact goOrder_append_task _ _ _ _ _ _ horder
  · intro j u hj
    rw [hset, List.getElem?_set] at hj
    by_cases hji : i = j
    · subst hji
      simp only [if_true, hilen, Option.some.injEq] at hj
      subst hj
      exact hkinds i t hget
    · simp only [hji, if_false] at hj
      exact hkinds j u hj
  · intro j u hj
    rw [hset, List.getElem?_set] at hj
    rw [htr, goStarts_append_task]
    by_cases hji : i = j
    · subst hji
      simp only [if_true, hilen, Option.some.injEq] at hj
      subst hj
      obtain ⟨pc0, rs, h1, h2⟩ := hhist i t hget
      refine ⟨pc0, rs ++ [r], h1, ?_⟩
      rw [runTask_append, h2, actsOf_append, actsOf_map_same]
      simp [runTask]
    · simp only [hji, if_false] at hj
      obtain ⟨pc0, rs, h1, h2⟩ := hhist j u hj
      refine ⟨pc0, rs, h1, ?_⟩
      rw [actsOf_append, actsOf_map_other _ _ (by simp; intro _; exact hji), List.append_nil]
      exact h2
  · intro k j hj
    rw [hset, List.length_set] at hj
    rw [htr, actsOf_append, hquiet k j hj,
      actsOf_map_other _ _ (by simp; intro _; omega)]
    simp

/-- In every state of every run, the lookups, the goroutines started and what
each goroutine has done are as the invariants say. -/
theorem histInv_run (spec : SanitizeDisksSpec) (e : Entry) (sched : List Move) :
    HistInv spec e.lvmList (run spec e sched) := by
  have := runFrom_inv spec e
    (fun s => LookupInv e e.lvmList e.rawList s.trace s.main ∧ HistInv spec e.lvmList s)
    ?_ sched _ ⟨lookupInv_init e, histInv_init spec e⟩
  · exact this.2
  · intro s m s1 ⟨h1, h2⟩ hstep
    unfold step at hstep
    split at hstep
    · exact ⟨lookupInv_mainStep e s s1 _ h1 hstep, histInv_mainStep spec e s s1 _ h1 h2 hstep⟩
    · rename_i i _
      refine ⟨?_, histInv_taskMove spec _ s s1 _ _ h2 hstep⟩
      obtain ⟨_, t, _, _, _, _, _, hmain, _, _, htr, _, _⟩ :=
        taskMove_some spec s s1 i _ hstep
      rw [hmain, htr]
      exact lookupInv_append_task e _ _ _ _ _ _ _ h1

theorem getElem?_of_initial {α : Type} (l1 l2 : List α) (i : Nat) (x : α) (h : l1 <+: l2)
    (hi : l1[i]? = some x) : l2[i]? = some x := by
  obtain ⟨t, rfl⟩ := h
  rw [List.getElem?_append_left (List.getElem?_eq_some.mp hi).1]
  exact hi

/-- The lookups that have returned are those of the first units of the list, in
the order of the list. -/
theorem lookups_initial (e : Entry) (L R : List OSDInfo) (tr : List Event) (pc : MainPC)
    (h : LookupInv e L R tr pc) :
    (lookups tr).map (fun p => p.1) <+: L.map (fun u => lvsCommand u.BlockPath) := by
  cases pc <;> simp only [LookupInv] at h
  case start => rw [h.1]; exact List.nil_prefix
  case lvmLoop rest pvs =>
    obtain ⟨_, v, h1, h2, _⟩ := h
    rw [h2.1, h1]
    simp
  case lvsWait osd rest pvs =>
    obtain ⟨_, v, h1, h2, _⟩ := h
    rw [h2.1, h1]
    simp
  case panicked =>
    obtain ⟨_, v, rest, h1, h2, _⟩ := h
    rw [h2, h1]
    simp
  case lvmWait pvs => rw [h.2.1.1]
  case pvLoop rest => rw [h.2.1.1]
  case pvWait => rw [h.2.1.1]
  case rawStart => rw [h.1.1]
  case rawLoop rest =>
    obtain ⟨v, _, h2, _⟩ := h
    rw [h2.1]
  case rawWait => rw [h.1.1]
  case done => rw [h.1.1]

/-- The sanitize tasks started are, in order, those of the lookups and then those
of the raw units. -/
theorem sanitizeStarts_initial (e : Entry) (L R : List OSDInfo) (tr : List Event)
    (pc : MainPC) (h : LookupInv e L R tr pc) :
    sanitizeStarts tr <+: (lookups tr).map (fun p => pvUnit p.2) ++ R := by
  cases pc <;> simp only [LookupInv] at h
  case start => rw [h.2]; exact List.nil_prefix
  case lvmLoop rest pvs =>
    obtain ⟨_, v, _, _, _, h4⟩ := h
    rw [h4]
    exact List.nil_prefix
  case lvsWait osd rest pvs =>
    obtain ⟨_, v, _, _, _, h4⟩ := h
    rw [h4]
    exact List.nil_prefix
  case panicked =>
    obtain ⟨_, v, rest, _, _, h4, _⟩ := h
    rw [h4]
    exact List.nil_prefix
  case lvmWait pvs =>
    rw [h.2.2.2]
    exact List.nil_prefix
  case pvLoop rest =>
    rw [← h.2.2, List.append_assoc]
    exact List.prefix_append _ _
  case pvWait =>
    rw [h.2.2]
    exact List.prefix_append _ _
  case rawStart =>
    rw [h.2]
    exact List.prefix_append _ _
  case rawLoop rest =>
    obtain ⟨v, h1, _, h3⟩ := h
    rw [h3, h1, ← List.append_assoc]
    exact List.prefix_append _ _
  case rawWait => rw [h.2]
  case done => rw [h.2]

/-- The goroutines started are the destroy tasks of the first units of the list,
with no sanitize task started,
or, once Phase 1 is over and every unit has had its lookup, the destroy tasks
of all units followed by the sanitize tasks started. -/
theorem go_shape (e : Entry) (L R : List OSDInfo) (tr : List Event) (pc : MainPC)
    (ho : GoOrder L tr pc) (hl : LookupInv e L R tr pc) :
    (∃ visited rest, L = visited ++ rest ∧
        goStarts tr = visited.map (fun u => TaskPC.wipeLVM u.ID) ∧
        sanitizeStarts tr = []) ∨
      (goStarts tr = L.map (fun u => TaskPC.wipeLVM u.ID)
          ++ (sanitizeStarts tr).map TaskPC.executeSanitizeCommand ∧
        (lookups tr).length = L.length) := by
  have hlen : Looked L tr → (lookups tr).length = L.length := by
    intro h
    simpa using congrArg List.length h.1
  cases pc <;> simp only [GoOrder] at ho <;> simp only [LookupInv] at hl
  case start => exact Or.inl ⟨[], L, rfl, by simpa using ho, hl.2⟩
  case lvmLoop rest pvs =>
    obtain ⟨v, h1, h2⟩ := ho
    obtain ⟨_, _, _, _, _, h4⟩ := hl
    exact Or.inl ⟨v, rest, h1, h2, h4⟩
  case lvsWait osd rest pvs =>
    obtain ⟨v, h1, h2⟩ := ho
    obtain ⟨_, _, _, _, _, h4⟩ := hl
    exact Or.inl ⟨v, osd :: rest, h1, h2, h4⟩
  case panicked =>
    obtain ⟨v, rest, h1, h2⟩ := ho
    obtain ⟨_, _, _, _, _, h4, _⟩ := hl
    exact Or.inl ⟨v, rest, h1, h2, h4⟩
  case lvmWait pvs => exact Or.inr ⟨ho, hlen hl.2.1⟩
  case pvLoop rest => exact Or.inr ⟨ho, hlen hl.2.1⟩
  case pvWait => exact Or.inr ⟨ho, hlen hl.2.1⟩
  case rawStart => exact Or.inr ⟨ho, hlen hl.1⟩
  case rawLoop rest =>
    obtain ⟨v, _, h2, _⟩ := hl
    exact Or.inr ⟨ho, hlen h2⟩
  case rawWait => exact Or.inr ⟨ho, hlen hl.1⟩
  case done => exact Or.inr ⟨ho, hlen hl.1⟩

/-- The goroutine `k` is the destroy task of the `k`-th unit: it was started at
the entry of `wipeLVM` with the id of that unit, and its acts in the trace are
those of a run of `wipeLVM` from there. -/
theorem destroy_history (spec : SanitizeDisksSpec) (e : Entry) (sched : List Move)
    (k : Nat) (osd : OSDInfo) (t : Task) (hk : e.lvmList[k]? = some osd)
    (ht : (run spec e sched).tasks[k]? = some t) :
    t.kind = .destroy ∧ ∃ rs, runTask spec rs (.wipeLVM osd.ID)
      = (t.pc, actsOf (.task .destroy k) (run spec e sched).trace) := by
  have hh := histInv_run spec e sched
  have hl := lookupInv_run spec e sched
  have hkl : k < e.lvmList.length := (List.getElem?_eq_some.mp hk).1
  have hkind : t.kind = .destroy := by
    rw [hh.kinds k t ht]
    simp [kindAt, hkl]
  refine ⟨hkind, ?_⟩
  obtain ⟨pc0, rs, h1, h2⟩ := hh.history k t ht
  rw [hkind] at h2
  have hpc0 : pc0 = .wipeLVM osd.ID := by
    rcases go_shape e _ _ _ _ hh.order hl with ⟨v, rest, hv, hg, _⟩ | ⟨hg, _⟩
    · rw [hg] at h1
      rw [List.getElem?_map] at h1
      cases hvk : v[k]? with
      | none => rw [hvk] at h1; simp at h1
      | some u =>
        rw [hvk] at h1
        have : e.lvmList[k]? = some u := by
          rw [hv, List.getElem?_append_left (List.getElem?_eq_some.mp hvk).1]
          exact hvk
        rw [hk] at this
        simp only [Option.some.injEq] at this
        subst this
        simpa using h1.symm
    · rw [hg, List.getElem?_append_left (by simpa using hkl), List.getElem?_map, hk] at h1
      simpa using h1.symm
  rw [hpc0] at h2
  exact ⟨rs, h2⟩

/-- The goroutine `L.length + j` is the residual wipe of the `j`-th lookup: it
was started at the entry of `executeSanitizeCommand` on the unit whose only
path is the first field of the answer of that lookup, and its acts in the
trace are those of a run of `executeSanitizeCommand` from there. -/
theorem pvWipe_history (spec : SanitizeDisksSpec) (e : Entry) (sched : List Move)
    (j : Nat) (p : ShredCommand × Resp) (t : Task)
    (hp : (lookups (run spec e sched).trace)[j]? = some p)
    (ht : (run spec e sched).tasks[e.lvmList.length + j]? = some t) :
    t.kind = .pvWipe ∧ ∃ rs, runTask spec rs (.executeSanitizeCommand (pvUnit p.2))
      = (t.pc, actsOf (.task .pvWipe (e.lvmList.length + j)) (run spec e sched).trace) := by
  have hh := histInv_run spec e sched
  have hl := lookupInv_run spec e sched
  have hjl : j < (lookups (run spec e sched).trace).length := (List.getElem?_eq_some.mp hp).1
  have hlen : (lookups (run spec e sched).trace).length ≤ e.lvmList.length := by
    simpa using (lookups_initial e _ _ _ _ hl).length_le
  have hkind : t.kind = .pvWipe := by
    rw [hh.kinds _ t ht]
    unfold kindAt
    rw [if_neg (by omega), if_pos (by omega)]
  refine ⟨hkind, ?_⟩
  obtain ⟨pc0, rs, h1, h2⟩ := hh.history _ t ht
  rw [hkind] at h2
  have hpc0 : pc0 = .executeSanitizeCommand (pvUnit p.2) := by
    rcases go_shape e _ _ _ _ hh.order hl with ⟨v, rest, hv, hg, _⟩ | ⟨hg, _⟩
    · have := (List.getElem?_eq_some.mp h1).1
      rw [hg, List.length_map] at this
      have hv2 := congrArg List.length hv
      rw [List.length_append] at hv2
      omega
    · rw [hg, List.getElem?_append_right (by simp), List.getElem?_map] at h1
      simp only [List.length_map, Nat.add_sub_cancel_left] at h1
      cases hs : (sanitizeStarts (run spec e sched).trace)[j]? with
      | none => rw [hs] at h1; simp at h1
      | some x =>
        rw [hs] at h1
        have h3 := getElem?_of_initial _ _ j x (sanitizeStarts_initial e _ _ _ _ hl) hs
        rw [List.getElem?_append_left (by simpa using hjl), List.getElem?_map, hp] at h3
        simp only [Option.map_some', Option.some.injEq] at h3 h1
        rw [← h1, ← h3]
  rw [hpc0] at h2
  exact ⟨rs, h2⟩

/-- The goroutine `2 * L.length + j` is the sanitize task of the `j`-th raw unit:
it was started at the entry of `executeSanitizeCommand` on that unit, and its
acts in the trace are those of a run of `executeSanitizeCommand` from there. -/
theorem rawWipe_history (spec : SanitizeDisksSpec) (e : Entry) (sched : List Move)
    (j : Nat) (osd : OSDInfo) (t : Task) (hj : e.rawList[j]? = some osd)
    (ht : (run spec e sched).tasks[2 * e.lvmList.length + j]? = some t) :
    t.kind = .rawWipe ∧ ∃ rs, runTask spec rs (.executeSanitizeCommand osd)
      = (t.pc, actsOf (.task .rawWipe (2 * e.lvmList.length + j))
          (run spec e sched).trace) := by
  have hh := histInv_run spec e sched
  have hl := lookupInv_run spec e sched
  have hkind : t.kind = .rawWipe := by
    rw [hh.kinds _ t ht]
    unfold kindAt
    rw [if_neg (by omega), if_neg (by omega)]
  refine ⟨hkind, ?_⟩
  obtain ⟨pc0, rs, h1, h2⟩ := hh.history _ t ht
  rw [hkind] at h2
  have hpc0 : pc0 = .executeSanitizeCommand osd := by
    rcases go_shape e _ _ _ _ hh.order hl with ⟨v, rest, hv, hg, _⟩ | ⟨hg, hlen⟩
    · have := (List.getElem?_eq_some.mp h1).1
      rw [hg, List.length_map] at this
      have hv2 := congrArg List.length hv
      rw [List.length_append] at hv2
      omega
    · rw [hg, List.getElem?_append_right (by simp; omega), List.getElem?_map] at h1
      have hidx : 2 * e.lvmList.length + j
          - (List.map (fun u => TaskPC.wipeLVM u.ID) e.lvmList).length
          = e.lvmList.length + j := by
        simp only [List.length_map]
        omega
      rw [hidx] at h1
      cases hs : (sanitizeStarts (run spec e sched).trace)[e.lvmList.length + j]? with
      | none => rw [hs] at h1; simp at h1
      | some x =>
        rw [hs] at h1
        have h3 := getElem?_of_initial _ _ _ x (sanitizeStarts_initial e _ _ _ _ hl) hs
        rw [List.getElem?_append_right (by simp [hlen])] at h3
        simp only [List.length_map, hlen, Nat.add_sub_cancel_left] at h3
        rw [hj] at h3
        simp only [Option.map_some', Option.some.injEq] at h3 h1
        rw [← h1, ← h3]
  rw [hpc0] at h2
  exact ⟨rs, h2⟩

/-- The number of goroutines when the entry function has returned: two per unit
handed to `SanitizeLVMDisk` and one per raw unit. -/
theorem tasks_at_done (spec : SanitizeDisksSpec) (e : Entry) (sched : List Move)
    (hd : (run spec e sched).main = .done) :
    (run spec e sched).tasks.length = 2 * e.lvmList.length + e.rawList.length ∧
      (lookups (run spec e sched).trace).length = e.lvmList.length := by
  have hh := histInv_run spec e sched
  have hl := lookupInv_run spec e sched
  have ho := hh.order
  rw [hd] at hl ho
  simp only [LookupInv] at hl
  simp only [GoOrder] at ho
  have h1 := congrArg List.length hl.1.1
  have h2 := congrArg List.length hl.2
  have h3 := congrArg List.length ho
  simp only [List.length_append, List.length_map] at h1 h2 h3
  rw [← hh.started]
  omega

/-- When the entry function has returned, every goroutine it started has run to
its end: the destroy task of every unit, the residual wipe of every lookup and
the sanitize task of every raw unit, each with exactly its commands. -/
theorem pipeline_at_done (spec : SanitizeDisksSpec) (e : Entry) (sched : List Move)
    (hd : (run spec e sched).main = .done) :
    DestroysDone e.lvmList (run spec e sched) ∧
      ResidualWipesDone spec e.lvmList (run spec e sched) ∧
      RawSanitized spec (2 * e.lvmList.length) e.rawList (run spec e sched) := by
  obtain ⟨hlen, hlook⟩ := tasks_at_done spec e sched hd
  have hfin := all_finished_at_done _ (countInv_run spec e sched) hd
  have hget : ∀ i, i < 2 * e.lvmList.length + e.rawList.length →
      ∃ t, (run spec e sched).tasks[i]? = some t ∧ t.pc = .finished := by
    intro i hi
    have hi2 : i < (run spec e sched).tasks.length := by omega
    exact ⟨_, List.getElem?_eq_getElem hi2, hfin _ (List.getElem_mem hi2)⟩
  refine ⟨?_, ?_, ?_⟩
  · intro k osd hk
    have hkl : k < e.lvmList.length := (List.getElem?_eq_some.mp hk).1
    obtain ⟨t, ht, hf⟩ := hget k (by omega)
    obtain ⟨hkind, rs, hr⟩ := destroy_history spec e sched k osd t hk ht
    refine ⟨?_, ?_⟩
    · rw [ht]
      cases t
      simp only at hkind hf
      rw [hkind, hf]
    · exact (issued_of_run spec _ _ _ rs _ (completes_wipeLVM spec osd.ID) hr).2 hf
  · intro j p hp
    have hjl : j < (lookups (run spec e sched).trace).length :=
      (List.getElem?_eq_some.mp hp).1
    obtain ⟨t, ht, hf⟩ := hget (e.lvmList.length + j) (by omega)
    obtain ⟨hkind, rs, hr⟩ := pvWipe_history spec e sched j p t hp ht
    refine ⟨?_, ?_⟩
    · rw [ht]
      cases t
      simp only at hkind hf
      rw [hkind, hf]
    · exact (issued_of_run spec _ _ _ rs _ (completes_sanitize spec (pvUnit p.2) rfl) hr).2 hf
  · intro j osd hj
    have hjl : j < e.rawList.length := (List.getElem?_eq_some.mp hj).1
    obtain ⟨t, ht, hf⟩ := hget (2 * e.lvmList.length + j) (by omega)
    obtain ⟨hkind, rs, hr⟩ := rawWipe_history spec e sched j osd t hj ht
    rw [hf] at hr
    refine ⟨?_, ?_, ?_⟩
    · rw [ht]
      cases t
      simp only at hkind hf
      rw [hkind, hf]
    · intro henc
      exact (issued_of_run spec _ _ _ rs _ (completes_sanitize spec osd henc) hr).2 rfl
    · intro henc
      obtain ⟨lookup, h1, h2⟩ := encrypted_run spec osd rs _ henc hr
      exact ⟨lookup, mem_of_mem_actsOf _ _ _ h1, h2⟩

/-- A step of the main thread that takes an answer without error does not panic. -/
theorem mainStep_ok (e : Entry) (s s1 : State) (r : Resp) (hr : r.failed = false)
    (h : mainStep e s r = some s1) : s1.main ≠ .panicked := by
  obtain ⟨pc, pc1, wg1, newTasks, acts, hpc, hpc1, _, _, _, htrans⟩ := mainStep_some e s s1 r h
  rw [hpc1]
  cases htrans with
  | lvsPanic osd rest pvs h0 =>
    rw [returnPVDevice_head, hr] at h0
    simp at h0
  | _ => simp

/-- A state that is reached and is not final can make a step with an answer
without error, and that step does not panic. -/
theorem progress_ok (spec : SanitizeDisksSpec) (e : Entry) (s : State)
    (hc : CountInv s) (he : EntryInv e s) (hnf : ¬ s.final) :
    ∃ m s1, step spec e s m = some s1 ∧ s1.main ≠ .panicked := by
  have hnp : s.main ≠ .panicked := fun h => hnf (Or.inr h)
  have hnd : s.main ≠ .done := fun h => hnf (Or.inl h)
  have htask : ∀ k, 0 < unfinished k s.tasks →
      ∃ m s1, step spec e s m = some s1 ∧ s1.main ≠ .panicked := by
    intro k hk
    obtain ⟨i, t, hi, ht⟩ := exists_unfinished k s.tasks hk
    have : (taskMove spec s i okResp).isSome = true := by
      simp [taskMove, hnp, hi, ht]
    obtain ⟨s1, hs1⟩ := Option.isSome_iff_exists.mp this
    obtain ⟨_, _, _, _, _, _, _, hmain, _⟩ := taskMove_some spec s s1 i okResp hs1
    exact ⟨⟨.task i, okResp⟩, s1, by simpa [step] using hs1, by rw [hmain]; exact hnp⟩
  have hmain : (mainStep e s okResp).isSome = true →
      ∃ m s1, step spec e s m = some s1 ∧ s1.main ≠ .panicked := by
    intro h
    obtain ⟨s1, hs1⟩ := Option.isSome_iff_exists.mp h
    exact ⟨⟨.main, okResp⟩, s1, by simpa [step] using hs1, mainStep_ok e s s1 okResp rfl hs1⟩
  cases hm : s.main with
  | done => exact absurd hm hnd
  | panicked => exact absurd hm hnp
  | start =>
    obtain ⟨lvm, raw, rfl⟩ := he (Or.inl hm)
    cases lvm <;> exact hmain (by simp [mainStep, hm])
  | rawStart =>
    obtain ⟨lvm, raw, rfl⟩ := he (Or.inr hm)
    cases raw <;> exact hmain (by simp [mainStep, hm])
  | lvmLoop rest pvs => cases rest <;> exact hmain (by simp [mainStep, hm])
  | lvsWait osd rest pvs =>
    cases hidx : (returnPVDevice okResp)[0]? <;>
      exact hmain (by simp [mainStep, hm, hidx])
  | pvLoop rest => cases rest <;> exact hmain (by simp [mainStep, hm])
  | rawLoop rest => cases rest <;> exact hmain (by simp [mainStep, hm])
  | lvmWait pvs =>
    by_cases hz : s.wg .destroy = 0
    · exact hmain (by simp [mainStep, hm, hz])
    · refine htask .destroy ?_
      have := hc.count .destroy
      rw [hm] at this
      simp only [pendingAdd] at this
      omega
  | pvWait =>
    by_cases hz : s.wg .pvWipe = 0
    · exact hmain (by simp [mainStep, hm, hz])
    · refine htask .pvWipe ?_
      have := hc.count .pvWipe
      rw [hm] at this
      simp only [pendingAdd] at this
      omega
  | rawWait =>
    by_cases hz : s.wg .rawWipe = 0
    · exact hmain (by simp [mainStep, hm, hz])
    · refine htask .rawWipe ?_
      have := hc.count .rawWipe
      rw [hm] at this
      simp only [pendingAdd] at this
      omega

/-- From every state that is reached and in which the process has not panicked,
the entry function can be brought to its return. -/
theorem can_return_from (spec : SanitizeDisksSpec) (e : Entry) :
    ∀ (n : Nat) (s : State), measure e s ≤ n → CountInv s → EntryInv e s →
      s.main ≠ .panicked → ∃ more, (runFrom spec e s more).main = .done := by
  intro n
  induction n with
  | zero =>
    intro s hn hc he hp
    by_cases hd : s.main = .done
    · exact ⟨[], hd⟩
    · obtain ⟨m, s1, hs, _⟩ := progress_ok spec e s hc he (fun h => h.elim hd hp)
      have := step_measure spec e s s1 m hs
      omega
  | succ n ih =>
    intro s hn hc he hp
    by_cases hd : s.main = .done
    · exact ⟨[], hd⟩
    · obtain ⟨m, s1, hs, hp1⟩ := progress_ok spec e s hc he (fun h => h.elim hd hp)
      have hlt := step_measure spec e s s1 m hs
      obtain ⟨more, hmore⟩ := ih s1 (by omega) (countInv_step spec e s m s1 hc hs)
        (entryInv_step spec e s s1 m he hs) hp1
      exact ⟨m :: more, by simpa [runFrom, hs] using hmore⟩

theorem reach_invs (spec : SanitizeDisksSpec) (e : Entry) (sched : List Move) :
    CountInv (run spec e sched) ∧ EntryInv e (run spec e sched) := by
  refine runFrom_inv spec e (fun s => CountInv s ∧ EntryInv e s) ?_ sched _
    ⟨countInv_init e, entryInv_init e⟩
  intro s m s1 ⟨h1, h2⟩ hs
  exact ⟨countInv_step spec e s m s1 h1 hs, entryInv_step spec e s s1 m h2 hs⟩

/-- A run in which the process has not panicked can be brought to the return of
the entry function. -/
theorem can_return (spec : SanitizeDisksSpec) (e : Entry) (sched : List Move)
    (hp : (run spec e sched).main ≠ .panicked) :
    ∃ more, (run spec e (sched ++ more)).main = .done := by
  obtain ⟨hc, he⟩ := reach_invs spec e sched
  obtain ⟨more, hmore⟩ := can_return_from spec e _ (run spec e sched) (le_refl _) hc he hp
  exact ⟨more, by rw [run, runFrom_append]; exact hmore⟩

/-- The steps of a run are bounded by the measure of the state it starts from. -/
theorem effective_le (spec : SanitizeDisksSpec) (e : Entry) (sched : List Move) :
    ∀ s, effective spec e s sched ≤ measure e s := by
  induction sched with
  | nil => intro s; simp [effective]
  | cons m ms ih =>
    intro s
    simp only [effective]
    cases hs : step spec e s m with
    | none => exact ih s
    | some s1 =>
      have := step_measure spec e s s1 m hs
      have := ih s1
      simp only
      omega

/-- A run has returned or panicked, or one of its threads can move: no wait
blocks for ever. -/
theorem final_or_step (spec : SanitizeDisksSpec) (e : Entry) (sched : List Move) :
    (run spec e sched).final ∨ ∃ m s1, step spec e (run spec e sched) m = some s1 := by
  by_cases hf : (run spec e sched).final
  · exact Or.inl hf
  · obtain ⟨hc, he⟩ := reach_invs spec e sched
    obtain ⟨m, s1, hs, _⟩ := progress_ok spec e _ hc he hf
    exact Or.inr ⟨m, s1, hs⟩

/-! ## Theorems: discovery failures and the residual wipes -/

/-- C8: if the discovery of the raw units fails and the discovery of the LVM
units succeeds, `StartSanitizeDisks` observes, along every schedule, exactly
what it observes when the raw discovery succeeds with the empty list, log
lines apart, and it has returned whenever that run has. A run that has not
panicked can be brought to the return of the function, a run panics only
after a lookup that failed, at any point the run has ended or one of its
threads can move, and a run makes at most `8 + 24 * N` steps for `N` units.
When the function has returned, the whole LVM pipeline has run on the listed
units: one lookup per unit, in order and without error; two goroutines per
unit; the destroy task of every unit has finished after handing its destroy
command to the executor, and that command has returned; the residual wipe of
every unit has finished after handing to the executor exactly the commands of
the first field of the answer of its lookup. Symmetrically, if the LVM
discovery fails, the runs are, log lines apart, those of a successful LVM
discovery of no unit, which spends four more steps of the main thread in the
empty LVM part; every run can be brought to the return of the function, a
run makes at most `8 + 19 * M` steps for `M` raw units, and when the function
has returned there is one goroutine per raw unit, started on that unit, in
order, and it has finished after handing to the executor exactly the commands
of the regions of its unit. -/
theorem discovery_failures_are_isolated (spec : SanitizeDisksSpec)
    (osdLVMList osdRawList : List OSDInfo) (sched : List Move) :
    (withoutLogs (run spec (.StartSanitizeDisks (some osdLVMList) none) sched).trace
        = withoutLogs (run spec (.StartSanitizeDisks (some osdLVMList) (some [])) sched).trace ∧
      ((run spec (.StartSanitizeDisks (some osdLVMList) (some [])) sched).main = .done →
        (run spec (.StartSanitizeDisks (some osdLVMList) none) sched).main = .done) ∧
      (∃ more, (run spec (.StartSanitizeDisks (some osdLVMList) none) (sched ++ more)).final) ∧
      ((run spec (.StartSanitizeDisks (some osdLVMList) none) sched).main ≠ .panicked →
        ∃ more,
          (run spec (.StartSanitizeDisks (some osdLVMList) none) (sched ++ more)).main = .done) ∧
      ((run spec (.StartSanitizeDisks (some osdLVMList) none) sched).main = .panicked →
        ∃ p ∈ lookups (run spec (.StartSanitizeDisks (some osdLVMList) none) sched).trace,
          p.2.failed = true) ∧
      ((run spec (.StartSanitizeDisks (some osdLVMList) none) sched).final ∨
        ∃ m s1, step spec (.StartSanitizeDisks (some osdLVMList) none)
          (run spec (.StartSanitizeDisks (some osdLVMList) none) sched) m = some s1) ∧
      effective spec (.StartSanitizeDisks (some osdLVMList) none)
          (init (.StartSanitizeDisks (some osdLVMList) none)) sched
        ≤ 8 + 24 * osdLVMList.length ∧
      ((run spec (.StartSanitizeDisks (some osdLVMList) none) sched).main = .done →
        Looked osdLVMList (run spec (.StartSanitizeDisks (some osdLVMList) none) sched).trace ∧
        AllDestroyed osdLVMList
          (run spec (.StartSanitizeDisks (some osdLVMList) none) sched).trace ∧
        sanitizeStarts (run spec (.StartSanitizeDisks (some osdLVMList) none) sched).trace
          = (lookups (run spec (.StartSanitizeDisks (some osdLVMList) none) sched).trace).map
              (fun p => pvUnit p.2) ∧
        (run spec (.StartSanitizeDisks (some osdLVMList) none) sched).tasks.length
          = 2 * osdLVMList.length ∧
        DestroysDone osdLVMList (run spec (.StartSanitizeDisks (some osdLVMList) none) sched) ∧
        ResidualWipesDone spec osdLVMList
          (run spec (.StartSanitizeDisks (some osdLVMList) none) sched))) ∧
    (withoutLogs (run spec (.StartSanitizeDisks none (some osdRawList)) sched).trace
        = withoutLogs (run spec (.StartSanitizeDisks (some []) (some osdRawList))
            (mainMoves 4 ++ sched)).trace ∧
      ((run spec (.StartSanitizeDisks none (some osdRawList)) sched).main = .done ↔
        (run spec (.StartSanitizeDisks (some []) (some osdRawList))
            (mainMoves 4 ++ sched)).main = .done) ∧
      withoutLogs (run spec (.StartSanitizeDisks (some []) (some osdRawList)) sched).trace
        = withoutLogs (run spec (.StartSanitizeDisks none (some osdRawList))
            (skipMain 4 sched)).trace ∧
      (∃ more,
        (run spec (.StartSanitizeDisks none (some osdRawList)) (sched ++ more)).main = .done) ∧
      ((run spec (.StartSanitizeDisks none (some osdRawList)) sched).final ∨
        ∃ m s1, step spec (.StartSanitizeDisks none (some osdRawList))
          (run spec (.StartSanitizeDisks none (some osdRawList)) sched) m = some s1) ∧
      effective spec (.StartSanitizeDisks none (some osdRawList))
          (init (.StartSanitizeDisks none (some osdRawList))) sched
        ≤ 8 + 19 * osdRawList.length ∧
      ((run spec (.StartSanitizeDisks none (some osdRawList)) sched).main = .done →
        sanitizeStarts (run spec (.StartSanitizeDisks none (some osdRawList)) sched).trace
          = osdRawList ∧
        (∀ t ∈ (run spec (.StartSanitizeDisks none (some osdRawList)) sched).tasks,
          t.pc = .finished) ∧
        (run spec (.StartSanitizeDisks none (some osdRawList)) sched).tasks.length
          = osdRawList.length ∧
        RawSanitized spec 0 osdRawList
          (run spec (.StartSanitizeDisks none (some osdRawList)) sched))) := by
  refine ⟨⟨?_, ?_, ?_, ?_, ?_, ?_, ?_, ?_⟩, ⟨?_, ?_, ?_, ?_, ?_, ?_, ?_⟩⟩
  · exact (rawSim_runFrom spec (some osdLVMList) sched
      (init (.StartSanitizeDisks (some osdLVMList) none))
      (init (.StartSanitizeDisks (some osdLVMList) (some [])))
      ⟨rfl, rfl, rfl, Or.inl ⟨rfl, by simp [init, Entry.pc, mainPhase]⟩⟩
      (countInv_init _)).2.2.1
  · have h := rawSim_runFrom spec (some osdLVMList) sched
      (init (.StartSanitizeDisks (some osdLVMList) none))
      (init (.StartSanitizeDisks (some osdLVMList) (some [])))
      ⟨rfl, rfl, rfl, Or.inl ⟨rfl, by simp [init, Entry.pc, mainPhase]⟩⟩
      (countInv_init _)
    intro hd
    rcases h.2.2.2 with ⟨h1, h2⟩ | ⟨h1, _⟩
    · have h3 : (runFrom spec (.StartSanitizeDisks (some osdLVMList) none)
          (init (.StartSanitizeDisks (some osdLVMList) none)) sched).main = .done := by
        rw [h1]
        exact hd
      rw [h3] at h2
      simp [mainPhase] at h2
    · exact h1
  · exact can_finish spec _ sched
  · exact can_return spec _ sched
  · intro hm
    have hl := lookupInv_run spec (.StartSanitizeDisks (some osdLVMList) none) sched
    rw [hm] at hl
    obtain ⟨_, _, _, _, _, _, hp⟩ := hl
    exact hp
  · exact final_or_step spec _ sched
  · have := effective_le spec (.StartSanitizeDisks (some osdLVMList) none) sched
      (init (.StartSanitizeDisks (some osdLVMList) none))
    simpa [measure, init, Entry.pc, mainMeasure, Entry.rawList, Entry.lvmList] using this
  · intro hd
    have hl := lookupInv_run spec (.StartSanitizeDisks (some osdLVMList) none) sched
    rw [hd] at hl
    simp only [LookupInv, Entry.lvmList, Entry.rawList, List.append_nil] at hl
    have hdi := destroyInv_run spec (.StartSanitizeDisks (some osdLVMList) none) sched
    have h1 := tasks_at_done spec (.StartSanitizeDisks (some osdLVMList) none) sched hd
    have h2 := pipeline_at_done spec (.StartSanitizeDisks (some osdLVMList) none) sched hd
    exact ⟨hl.1, allDestroyed_of_phase _ _ (countInv_run spec _ sched) hdi
        (by rw [hd]; simp [mainPhase]), hl.2,
      by simpa [Entry.lvmList, Entry.rawList] using h1.1, h2.1, h2.2.1⟩
  · have h := lvmSim_runFrom spec (some osdRawList) sched _ _ (lvmSim_entry (some osdRawList))
    have hrun : run spec (.StartSanitizeDisks (some []) (some osdRawList))
        (mainMoves 4 ++ sched)
        = runFrom spec (.StartSanitizeDisks (some []) (some osdRawList))
            (emptyLvmState 4) sched := by
      rw [run, runFrom_append, emptyLvm_run]
    rw [hrun]
    exact h.2.2.1
  · have h := lvmSim_runFrom spec (some osdRawList) sched _ _ (lvmSim_entry (some osdRawList))
    have hrun : run spec (.StartSanitizeDisks (some []) (some osdRawList))
        (mainMoves 4 ++ sched)
        = runFrom spec (.StartSanitizeDisks (some []) (some osdRawList))
            (emptyLvmState 4) sched := by
      rw [run, runFrom_append, emptyLvm_run]
    rw [hrun]
    rcases h.2.2.2 with ⟨h1, _⟩ | ⟨h1, h2, _⟩
    · rw [run, h1]
    · rw [run, h1, h2]
      simp
  · rcases emptyLvm_skip spec (some osdRawList) sched 0 (by omega) with h | ⟨h1, h2⟩
    · exact h.2.2.1.symm
    · have h3 : run spec (.StartSanitizeDisks (some []) (some osdRawList)) sched
          = runFrom spec (.StartSanitizeDisks (some []) (some osdRawList))
              (emptyLvmState 0) sched := rfl
      rw [h3, h2]
      exact h1.symm
  · apply can_return
    intro hp
    have hl := lookupInv_run spec (.StartSanitizeDisks none (some osdRawList)) sched
    rw [hp] at hl
    exact absurd rfl hl.1
  · exact final_or_step spec _ sched
  · have := effective_le spec (.StartSanitizeDisks none (some osdRawList)) sched
      (init (.StartSanitizeDisks none (some osdRawList)))
    simpa [measure, init, Entry.pc, mainMeasure, Entry.rawList, Entry.lvmList] using this
  · intro hd
    have hl := lookupInv_run spec (.StartSanitizeDisks none (some osdRawList)) sched
    rw [hd] at hl
    simp only [LookupInv, Looked, Entry.lvmList, Entry.rawList, List.map_nil,
      List.map_eq_nil_iff] at hl
    have h1 := tasks_at_done spec (.StartSanitizeDisks none (some osdRawList)) sched hd
    have h2 := pipeline_at_done spec (.StartSanitizeDisks none (some osdRawList)) sched hd
    refine ⟨?_, all_finished_at_done _ (countInv_run spec _ sched) hd,
      by simpa [Entry.lvmList, Entry.rawList] using h1.1,
      by simpa [Entry.lvmList, Entry.rawList] using h2.2.2⟩
    rw [hl.2, hl.1.1]
    simp

theorem discovery_failures_are_isolated_witness :
    (run quickSpec (.StartSanitizeDisks (some [lvmUnit]) none) fullSchedule).main = .done ∧
    (∃ more, (run quickSpec (.StartSanitizeDisks (some [lvmUnit]) none)
        (mainMoves 3 ++ more)).main = .done) ∧
    (∃ p ∈ lookups (run quickSpec (.StartSanitizeDisks (some [lvmUnit]) none)
        (mainMoves 1 ++ panicSchedule)).trace, p.2.failed = true) ∧
    (Looked [lvmUnit] (run quickSpec (.StartSanitizeDisks (some [lvmUnit]) none) fullSchedule).trace ∧
      AllDestroyed [lvmUnit]
        (run quickSpec (.StartSanitizeDisks (some [lvmUnit]) none) fullSchedule).trace ∧
      sanitizeStarts (run quickSpec (.StartSanitizeDisks (some [lvmUnit]) none) fullSchedule).trace
        = (lookups (run quickSpec (.StartSanitizeDisks (some [lvmUnit]) none)
            fullSchedule).trace).map (fun p => pvUnit p.2) ∧
      (run quickSpec (.StartSanitizeDisks (some [lvmUnit]) none) fullSchedule).tasks.length
        = 2 * [lvmUnit].length ∧
      DestroysDone [lvmUnit]
        (run quickSpec (.StartSanitizeDisks (some [lvmUnit]) none) fullSchedule) ∧
      ResidualWipesDone quickSpec [lvmUnit]
        (run quickSpec (.StartSanitizeDisks (some [lvmUnit]) none) fullSchedule)) ∧
    issuedBy (.task .destroy 0)
        (run quickSpec (.StartSanitizeDisks (some [lvmUnit]) none) fullSchedule).trace
      = [⟨"stdbuf", ["-oL", "ceph-volume", "lvm", "zap", "--osd-id", "1", "--destroy"]⟩] ∧
    issuedBy (.task .pvWipe 1)
        (run quickSpec (.StartSanitizeDisks (some [lvmUnit]) none) fullSchedule).trace
      = [⟨"ceph-volume", ["lvm", "zap", "/dev/sdx"]⟩] ∧
    (sanitizeStarts (run quickSpec (.StartSanitizeDisks none (some [rawUnit])) rawSchedule).trace
        = [rawUnit] ∧
      (∀ t ∈ (run quickSpec (.StartSanitizeDisks none (some [rawUnit])) rawSchedule).tasks,
        t.pc = .finished) ∧
      (run quickSpec (.StartSanitizeDisks none (some [rawUnit])) rawSchedule).tasks.length
        = [rawUnit].length ∧
      RawSanitized quickSpec 0 [rawUnit]
        (run quickSpec (.StartSanitizeDisks none (some [rawUnit])) rawSchedule)) ∧
    issuedBy (.task .rawWipe 0)
        (run quickSpec (.StartSanitizeDisks none (some [rawUnit])) rawSchedule).trace
      = [⟨"ceph-volume", ["lvm", "zap", "/dev/sdb"]⟩] ∧
    (∃ lookup,
      ⟨.task .rawWipe 0, .gotBacking "/dev/mapper/x" lookup⟩
        ∈ (run quickSpec (.StartSanitizeDisks none (some [encUnit])) encSchedule).trace ∧
      issuedBy (.task .rawWipe 0)
          (run quickSpec (.StartSanitizeDisks none (some [encUnit])) encSchedule).trace
        = regionCommands quickSpec [erasedDataPath encUnit lookup, "", ""]) := by
  obtain ⟨⟨_, h2, _, _, _, _, _, h8⟩, _⟩ :=
    discovery_failures_are_isolated quickSpec [lvmUnit] [rawUnit] fullSchedule
  obtain ⟨⟨_, _, _, h4, _⟩, _⟩ :=
    discovery_failures_are_isolated quickSpec [lvmUnit] [rawUnit] (mainMoves 3)
  obtain ⟨⟨_, _, _, _, h5, _⟩, _⟩ :=
    discovery_failures_are_isolated quickSpec [lvmUnit] [rawUnit] (mainMoves 1 ++ panicSchedule)
  obtain ⟨_, _, _, _, _, _, _, r7⟩ :=
    discovery_failures_are_isolated quickSpec [lvmUnit] [rawUnit] rawSchedule
  obtain ⟨_, _, _, _, _, _, _, e7⟩ :=
    discovery_failures_are_isolated quickSpec [lvmUnit] [encUnit] encSchedule
  have hd := h8 (h2 (by decide))
  have hr := r7 (by decide)
  have he := e7 (by decide)
  exact ⟨h2 (by decide), h4 (by decide), h5 (by decide), hd,
    (hd.2.2.2.2.1 0 lvmUnit rfl).2,
    (hd.2.2.2.2.2 0 (lvsCommand "/dev/vg/lv1", okResp) (by decide)).2,
    hr, ((hr.2.2.2 0 rawUnit rfl).2.1 rfl), ((he.2.2.2 0 encUnit rfl).2.2 rfl)⟩

end Cleanup
